import Mathlib

/-!
Verification of the document-model / layout engine of a rich-text editor.

The Rust sources (src/engine/src/document.rs, src/engine/src/layout.rs) are
shallowly embedded here:
* `f64` values are modelled as rationals (`ℚ`); all arithmetic the engine
  performs on them is `+ - * /`, `min/max`, comparisons and `ceil`, which ℚ
  supports exactly.
* Rust `String`/`&str` text is modelled as `List Char`; Rust byte offsets are
  modelled by UTF-8 byte counts via `Char.utf8Size` (so `text.len()` is
  `byteLen`, `char_indices` walks chars carrying the byte position, and
  slicing at a non-boundary byte offset — a Rust panic — is modelled by
  `Option`, `none` meaning the engine panics).
* The injected JS measurement callback is a parameter
  `MeasureFn`; its three observable outcomes (call error, non-numeric result,
  numeric result) are an inductive.
* The style-modifier closure passed to `apply_style` is modelled, following
  the design notes of the specification, as a record of optional field
  overrides applied unconditionally (`Modifier`), which is what every caller
  in the engine passes.
-/

namespace Editor

/-! ## Basic enums (document.rs) -/

inductive TextAlign where
  | left | center | right | justify
deriving DecidableEq, Repr

inductive BlockType where
  | paragraph | heading1 | heading2 | heading3 | heading4 | blockquote
deriving DecidableEq, Repr

/-- `BlockType::font_size_multiplier` from document.rs. -/
def BlockType.font_size_multiplier : BlockType → ℚ
  | .heading1 => 2
  | .heading2 => 3/2
  | .heading3 => 117/100
  | .heading4 => 1
  | .paragraph => 1
  | .blockquote => 1

inductive ListType where
  | none | bullet | numbered
deriving DecidableEq, Repr

inductive ImageWrapStyle where
  | inline | topBottom | square | tight | through | behind | inFront
deriving DecidableEq, Repr

/-- `ImageWrapStyle::is_float` from document.rs. -/
def ImageWrapStyle.is_float : ImageWrapStyle → Bool
  | .square | .tight | .through => true
  | _ => false

inductive HorizontalAlign where
  | left | center | right
deriving DecidableEq, Repr

inductive ImagePositionMode where
  | moveWithText | fixedPosition
deriving DecidableEq, Repr

inductive TableWidthMode where
  | fixed | percentage | auto
deriving DecidableEq, Repr

/-! ## Text styles (document.rs) -/

/-- `TextStyle` from document.rs; the exclusive `end` field is called `stop`
because `end` is a Lean keyword. -/
structure TextStyle where
  start : Nat
  stop : Nat
  bold : Bool
  italic : Bool
  underline : Bool
  strikethrough : Bool
  color : Option String
  background : Option String
deriving DecidableEq, Repr

/-- `TextStyle::new(start, end)`: the blank (unformatted) run. -/
def TextStyle.new (start stop : Nat) : TextStyle :=
  ⟨start, stop, false, false, false, false, none, none⟩

/-- `TextStyle::has_formatting`. -/
def TextStyle.has_formatting (s : TextStyle) : Bool :=
  s.bold || s.italic || s.underline || s.strikethrough
    || s.color.isSome || s.background.isSome

/-- `TextStyle::overlaps(start, end)`. -/
def TextStyle.overlaps (s : TextStyle) (start stop : Nat) : Bool :=
  decide (s.start < stop) && decide (s.stop > start)

/-- The formatting attributes of a run, i.e. a `TextStyle` minus its range. -/
structure Attrs where
  bold : Bool
  italic : Bool
  underline : Bool
  strikethrough : Bool
  color : Option String
  background : Option String
deriving DecidableEq, Repr

def TextStyle.attrs (s : TextStyle) : Attrs :=
  ⟨s.bold, s.italic, s.underline, s.strikethrough, s.color, s.background⟩

def Attrs.default : Attrs := ⟨false, false, false, false, none, none⟩

def Attrs.has_formatting (a : Attrs) : Bool :=
  a.bold || a.italic || a.underline || a.strikethrough
    || a.color.isSome || a.background.isSome

/-- The attribute comparison performed by `merge_adjacent_styles`
(all six formatting fields byte-identical). -/
def sameAttrs (a b : TextStyle) : Bool :=
  a.bold == b.bold && a.italic == b.italic && a.underline == b.underline
    && a.strikethrough == b.strikethrough && a.color == b.color
    && a.background == b.background

/-- Modelled from the spec (design notes): the `modifier` closure handed to
`apply_style` is a set of field-level overrides for the six formatting
attributes, applied unconditionally ("`modifier` applies field changes
directly"); it does not touch the range. -/
structure Modifier where
  bold : Option Bool
  italic : Option Bool
  underline : Option Bool
  strikethrough : Option Bool
  color : Option (Option String)
  background : Option (Option String)
deriving DecidableEq, Repr

/-- Running a modifier on a style: each present field is overwritten. -/
def Modifier.apply (m : Modifier) (s : TextStyle) : TextStyle :=
  { s with
    bold := m.bold.getD s.bold
    italic := m.italic.getD s.italic
    underline := m.underline.getD s.underline
    strikethrough := m.strikethrough.getD s.strikethrough
    color := m.color.getD s.color
    background := m.background.getD s.background }

/-- Running a modifier on bare attributes. -/
def Modifier.applyA (m : Modifier) (a : Attrs) : Attrs :=
  ⟨m.bold.getD a.bold, m.italic.getD a.italic, m.underline.getD a.underline,
   m.strikethrough.getD a.strikethrough, m.color.getD a.color,
   m.background.getD a.background⟩

/-! ## apply_style (document.rs, Paragraph::apply_style) -/

/-- The pieces `apply_style` pushes into `new_styles` for one existing run:
unchanged part before the range, unchanged part after the range, and the
modified overlap (dropped when it ends up unformatted); a run not
overlapping the range is kept as is. Push order matches the source. -/
def clipStyle (start stop : Nat) (style : TextStyle) : TextStyle :=
  { style with start := max style.start start, stop := min style.stop stop }

def piecesOf (start stop : Nat) (m : Modifier) (style : TextStyle) : List TextStyle :=
  if style.overlaps start stop then
    (if style.start < start then [{ style with stop := start }] else []) ++
    (if style.stop > stop then [{ style with start := stop }] else []) ++
    (if (m.apply (clipStyle start stop style)).has_formatting then
      [m.apply (clipStyle start stop style)] else [])
  else [style]

/-- Stable insertion into a list sorted by a `Nat` key: the new element goes
after all elements with a key ≤ its own, as Rust's stable `sort_by_key`
orders equal keys. -/
def insertByKey (key : α → Nat) (x : α) : List α → List α
  | [] => [x]
  | y :: ys => if key y ≤ key x then y :: insertByKey key x ys else x :: y :: ys

/-- Stable sort by a `Nat` key (`Vec::sort_by_key`). -/
def sortByKey (key : α → Nat) (l : List α) : List α :=
  l.foldl (fun acc x => insertByKey key x acc) []

/-- One step of the gap-filling loop of `apply_style`: `(pos, gaps)` state,
a covered interval `(s, e)`; a fresh default run with the modifier applied is
produced for the gap `[pos, s)` (and kept only if formatted). -/
def gapStep (m : Modifier) : Nat × List TextStyle → Nat × Nat → Nat × List TextStyle
  | (pos, gs), (s, e) =>
    (e,
     if pos < s then
       if (m.apply (TextStyle.new pos s)).has_formatting then
         gs ++ [m.apply (TextStyle.new pos s)] else gs
     else gs)

/-- The trailing gap `[pos, end)` after the loop. -/
def finishGaps (m : Modifier) (stop : Nat) : Nat × List TextStyle → List TextStyle
  | (pos, gs) =>
    if pos < stop then
      if (m.apply (TextStyle.new pos stop)).has_formatting then
        gs ++ [m.apply (TextStyle.new pos stop)] else gs
    else gs

/-- Inner loop of `Paragraph::merge_adjacent_styles`: `cur` plays the role of
`result.last_mut()`. -/
def mergeAdjacentGo (cur : TextStyle) : List TextStyle → List TextStyle
  | [] => [cur]
  | b :: rest =>
    if cur.stop = b.start ∧ sameAttrs cur b then
      mergeAdjacentGo { cur with stop := b.stop } rest
    else cur :: mergeAdjacentGo b rest

/-- `Paragraph::merge_adjacent_styles`. -/
def merge_adjacent_styles : List TextStyle → List TextStyle
  | [] => []
  | a :: rest => mergeAdjacentGo a rest

/-- `Paragraph::apply_style` acting on the style list (the method only
mutates `self.styles`). -/
def apply_style (styles : List TextStyle) (start stop : Nat) (m : Modifier) :
    List TextStyle :=
  if start ≥ stop then styles
  else
    let pieces := styles.flatMap (piecesOf start stop m)
    let covered := sortByKey Prod.fst
      ((pieces.filter (fun s => s.overlaps start stop)).map
        (fun s => (max s.start start, min s.stop stop)))
    let gaps := finishGaps m stop (covered.foldl (gapStep m) (start, []))
    merge_adjacent_styles (sortByKey TextStyle.start (pieces ++ gaps))

/-- `Paragraph::style_at(pos)`, restricted to the attributes it reports. -/
def style_at (styles : List TextStyle) (pos : Nat) : Option Attrs :=
  (styles.find? (fun s => decide (s.start ≤ pos) && decide (s.stop > pos))).map
    TextStyle.attrs

/-- The style-list invariant stated by the spec for `Paragraph.styles`:
runs are sorted and non-overlapping, non-empty, never unformatted, and no
two touching runs carry identical attributes. -/
def StyleInv (l : List TextStyle) : Prop :=
  (∀ s ∈ l, s.start < s.stop ∧ s.has_formatting = true) ∧
    l.Chain' (fun a b => a.stop ≤ b.start ∧ ¬(a.stop = b.start ∧ sameAttrs a b = true))

/-! ## Tables (document.rs) -/

/-- `TableCell` from document.rs. -/
structure TableCell where
  text : List Char
  styles : List TextStyle
  align : TextAlign
  background : Option String
  col_span : Nat
  row_span : Nat
  covered : Bool
  covered_by_row : Option Nat
  covered_by_col : Option Nat
deriving DecidableEq, Repr

/-- `TableCell::new`. -/
def TableCell.new : TableCell :=
  ⟨[], [], .left, none, 1, 1, false, none, none⟩

/-- `TableCell::is_merge_origin`. -/
def TableCell.is_merge_origin (c : TableCell) : Bool :=
  !c.covered && (decide (c.col_span > 1) || decide (c.row_span > 1))

/-- `TableRow` from document.rs. -/
structure TableRow where
  cells : List TableCell
  min_height : Option ℚ
deriving DecidableEq, Repr

/-- `DocumentTable` from document.rs. -/
structure DocumentTable where
  id : List Char
  rows : List TableRow
  column_widths : List ℚ
  border_width : ℚ
  border_color : String
  width_mode : TableWidthMode
deriving DecidableEq, Repr

/-- `DocumentTable::num_cols`. -/
def DocumentTable.num_cols (t : DocumentTable) : Nat := t.column_widths.length

/-- `DocumentTable::num_rows`. -/
def DocumentTable.num_rows (t : DocumentTable) : Nat := t.rows.length

/-- `DocumentTable::get_cell`. -/
def DocumentTable.get_cell (t : DocumentTable) (row col : Nat) : Option TableCell :=
  t.rows[row]?.bind (fun r => r.cells[col]?)

/-- Replace the element at an index, leaving the list unchanged when the
index is out of range (the functional counterpart of `get_mut`). -/
def modifyIdx (f : α → α) : Nat → List α → List α
  | _, [] => []
  | 0, x :: xs => f x :: xs
  | n + 1, x :: xs => x :: modifyIdx f n xs

/-- `DocumentTable::get_cell_mut` followed by a field update: mutate the cell
at `(row, col)` if it exists. -/
def DocumentTable.setCell (t : DocumentTable) (row col : Nat)
    (f : TableCell → TableCell) : DocumentTable :=
  { t with rows := modifyIdx (fun r => { r with cells := modifyIdx f col r.cells }) row t.rows }

/-- The inclusive index range `lo..=hi` of a Rust `for` loop. -/
def rectRange (lo hi : Nat) : List Nat := (List.range (hi + 1 - lo)).map (lo + ·)

/-- The cell positions of the rectangle `(r0,c0)..=(r1,c1)` in row-major
order, as visited by the nested loops of `merge_cells`. -/
def rectPairs (r0 c0 r1 c1 : Nat) : List (Nat × Nat) :=
  (rectRange r0 r1).flatMap (fun r => (rectRange c0 c1).map (fun c => (r, c)))

/-- The per-cell validity check of `merge_cells`: a cell covered by a merge
whose origin lies above/left of the rectangle, or a merge origin whose
extent leaves the rectangle, makes the merge invalid. -/
def mergeCellOk (t : DocumentTable) (start_row start_col end_row end_col r c : Nat) : Bool :=
  match t.get_cell r c with
  | none => true
  | some cell =>
    (if cell.covered then
       match cell.covered_by_row, cell.covered_by_col with
       | some by_row, some by_col => !(decide (by_row < start_row) || decide (by_col < start_col))
       | _, _ => true
     else true) &&
    (if cell.is_merge_origin then
       !(decide (r + cell.row_span - 1 > end_row) || decide (c + cell.col_span - 1 > end_col))
     else true)

/-- The text concatenation step of `merge_cells` (non-covered, non-empty
cell texts joined by a line break, row-major order). -/
def mergedText (t : DocumentTable) (r0 c0 r1 c1 : Nat) : List Char :=
  (rectPairs r0 c0 r1 c1).foldl
    (fun acc (p : Nat × Nat) =>
      match t.get_cell p.1 p.2 with
      | none => acc
      | some cell =>
        if !cell.covered ∧ cell.text ≠ [] then
          (if acc ≠ [] then acc ++ [Char.ofNat 10] else acc) ++ cell.text
        else acc)
    []

/-- `DocumentTable::merge_cells`, functionally: returns the success flag and
the (possibly unchanged) table. -/
def DocumentTable.merge_cells (t : DocumentTable)
    (start_row start_col end_row end_col : Nat) : Bool × DocumentTable :=
  if end_row ≥ t.num_rows ∨ end_col ≥ t.num_cols then (false, t)
  else if start_row > end_row ∨ start_col > end_col then (false, t)
  else if ¬((rectPairs start_row start_col end_row end_col).all
      (fun p => mergeCellOk t start_row start_col end_row end_col p.1 p.2)) then (false, t)
  else
    let combined := mergedText t start_row start_col end_row end_col
    let row_span := end_row - start_row + 1
    let col_span := end_col - start_col + 1
    let t1 := t.setCell start_row start_col (fun origin =>
      { origin with
          text := combined
          row_span := row_span
          col_span := col_span
          covered := false
          covered_by_row := none
          covered_by_col := none })
    let t2 := (rectPairs start_row start_col end_row end_col).foldl
      (fun acc (p : Nat × Nat) =>
        if p.1 = start_row ∧ p.2 = start_col then acc
        else acc.setCell p.1 p.2 (fun cell =>
          { cell with
              text := []
              covered := true
              covered_by_row := some start_row
              covered_by_col := some start_col
              row_span := 1
              col_span := 1 }))
      t1
    (true, t2)

/-- `DocumentTable::split_cell`, functionally. -/
def DocumentTable.split_cell (t : DocumentTable) (row col : Nat) : Bool × DocumentTable :=
  match t.get_cell row col with
  | none => (false, t)
  | some cell =>
    if ¬cell.is_merge_origin then (false, t)
    else
      let row_span := cell.row_span
      let col_span := cell.col_span
      let background := cell.background
      let t1 := t.setCell row col (fun origin => { origin with row_span := 1, col_span := 1 })
      let t2 := (rectPairs row col (row + row_span - 1) (col + col_span - 1)).foldl
        (fun acc (p : Nat × Nat) =>
          if p.1 = row ∧ p.2 = col then acc
          else acc.setCell p.1 p.2 (fun c =>
            { c with
                covered := false
                covered_by_row := none
                covered_by_col := none
                background := background }))
        t1
      (true, t2)

/-! ## Documents (document.rs) -/

/-- UTF-8 byte length of a text; the model of Rust `str::len()`. -/
def byteLen (l : List Char) : Nat := (l.map Char.utf8Size).sum

/-- `ParagraphMeta` from document.rs. -/
structure ParagraphMeta where
  align : TextAlign
  block_type : BlockType
  list_type : ListType
  font_size : Option ℚ
  text_color : Option String
deriving DecidableEq, Repr

/-- `Paragraph` from document.rs. -/
structure Paragraph where
  text : List Char
  meta : ParagraphMeta
  styles : List TextStyle
deriving DecidableEq, Repr

/-- `Paragraph::is_page_break`: text is exactly U+FFFD. -/
def Paragraph.is_page_break (p : Paragraph) : Bool :=
  p.text == ['�']

/-- `Paragraph::is_image`: text starts with U+FFFC. -/
def Paragraph.is_image (p : Paragraph) : Bool :=
  match p.text with
  | c :: _ => c == '￼'
  | [] => false

/-- `Paragraph::image_id`: the text after the 3-byte U+FFFC marker. -/
def Paragraph.image_id (p : Paragraph) : Option (List Char) :=
  if p.is_image then some (p.text.drop 1) else none

/-- `Paragraph::is_table`: text starts with U+FFFB. -/
def Paragraph.is_table (p : Paragraph) : Bool :=
  match p.text with
  | c :: _ => c == '￻'
  | [] => false

/-- `Paragraph::table_id`: the text after the 3-byte U+FFFB marker. -/
def Paragraph.table_id (p : Paragraph) : Option (List Char) :=
  if p.is_table then some (p.text.drop 1) else none

/-- `DocumentImage` from document.rs. -/
structure DocumentImage where
  id : List Char
  src : String
  width : ℚ
  height : ℚ
  natural_width : ℚ
  natural_height : ℚ
  wrap_style : ImageWrapStyle
  horizontal_align : HorizontalAlign
  position_mode : ImagePositionMode
  x : Option ℚ
  y : Option ℚ
  page_index : Option Nat
  crop_top : ℚ
  crop_right : ℚ
  crop_bottom : ℚ
  crop_left : ℚ
deriving DecidableEq, Repr

/-- `DocumentImage::cropped_height`. -/
def DocumentImage.cropped_height (img : DocumentImage) : ℚ :=
  img.height * ((100 - img.crop_top - img.crop_bottom) / 100)

/-- `Document` from document.rs. -/
structure Document where
  version : Nat
  paragraphs : List Paragraph
  images : List DocumentImage
  tables : List DocumentTable
deriving DecidableEq, Repr

/-! ## Layout configuration and display lines (layout.rs) -/

/-- `LayoutConfig` from layout.rs. -/
structure LayoutConfig where
  page_width : ℚ
  page_height : ℚ
  margin_top : ℚ
  margin_right : ℚ
  margin_bottom : ℚ
  margin_left : ℚ
  columns : Nat
  column_gap : ℚ
  font_size : ℚ
  line_height : ℚ
  letter_spacing : ℚ
  paragraph_spacing : ℚ
deriving DecidableEq, Repr

/-- The `Default` instance for `LayoutConfig`. -/
def LayoutConfig.default : LayoutConfig :=
  ⟨816, 1056, 96, 96, 96, 96, 1, 48, 16, 3/2, 0, 12⟩

/-- `LayoutConfig::content_width`. -/
def LayoutConfig.content_width (c : LayoutConfig) : ℚ :=
  c.page_width - c.margin_left - c.margin_right

/-- `LayoutConfig::content_height`. -/
def LayoutConfig.content_height (c : LayoutConfig) : ℚ :=
  c.page_height - c.margin_top - c.margin_bottom

/-- `LayoutConfig::column_width`. -/
def LayoutConfig.column_width (c : LayoutConfig) : ℚ :=
  (c.content_width - c.column_gap * ((c.columns : ℚ) - 1)) / (c.columns : ℚ)

/-- `LayoutConfig::line_height_px`. -/
def LayoutConfig.line_height_px (c : LayoutConfig) : ℚ :=
  c.font_size * c.line_height

inductive FloatSide where
  | left | right
deriving DecidableEq, Repr

/-- `FloatReduction` from layout.rs. -/
structure FloatReduction where
  side : FloatSide
  width : ℚ
  float_x : ℚ
deriving DecidableEq, Repr

/-- `TableLayout` from layout.rs. -/
structure TableLayout where
  table_id : List Char
  row_heights : List ℚ
  column_widths : List ℚ
  total_height : ℚ
  total_width : ℚ
  cell_lines : List (List (List (List Char)))
deriving DecidableEq, Repr

/-- `DisplayLine` from layout.rs. -/
structure DisplayLine where
  para_index : Nat
  start_offset : Nat
  end_offset : Nat
  text : List Char
  page_index : Nat
  column_index : Nat
  x_position : ℚ
  y_position : ℚ
  is_page_break : Bool
  is_image : Bool
  image_id : Option (List Char)
  image_height : Option ℚ
  list_number : Option Nat
  is_last_line : Bool
  block_type : BlockType
  list_type : ListType
  float_reduction : Option FloatReduction
  is_table : Bool
  table_id : Option (List Char)
  table_layout : Option TableLayout
deriving DecidableEq, Repr

/-- `ActiveFloat` from layout.rs. -/
structure ActiveFloat where
  id : List Char
  start_line : Nat
  end_line : Nat
  width : ℚ
  side : FloatSide
  page_index : Option Nat
  y_start : Option ℚ
  y_end : Option ℚ
  x_position : Option ℚ
deriving DecidableEq, Repr

/-- `align_to_float_side` from layout.rs. -/
def align_to_float_side : HorizontalAlign → FloatSide
  | .right => .right
  | _ => .left

/-! ## Text measurement (layout.rs, measure_text) -/

/-- Observable outcome of one call to the injected JS measurement function:
the call may fail (`err`, the Rust `Err(_)` arm), succeed with a value that
is not a number (`nonNumeric`, where `as_f64()` returns `None`), or succeed
with a numeric width. -/
inductive MeasureResult where
  | err : MeasureResult
  | nonNumeric : MeasureResult
  | val : ℚ → MeasureResult
deriving DecidableEq, Repr

/-- The measurement capability `(text, fontSizePx) -> widthPx`. -/
def MeasureFn : Type := List Char → ℚ → MeasureResult

/-- `measure_text` from layout.rs. On a successful call the width (or, for a
non-numeric result, the fallback `text.len() * font_size * 0.5`) gets letter
spacing `(chars - 1) * letter_spacing` added when `text.len() > 1`; on a
failed call the bare fallback is returned. `text.len()` is the byte length.
-/
def measure_text (m : MeasureFn) (text : List Char) (font_size letter_spacing : ℚ) : ℚ :=
  match m text font_size with
  | .err => (byteLen text : ℚ) * font_size * (1/2)
  | .nonNumeric =>
    let width : ℚ := (byteLen text : ℚ) * font_size * (1/2)
    let spacing : ℚ :=
      if byteLen text > 1 then ((text.length - 1 : ℕ) : ℚ) * letter_spacing else 0
    width + spacing
  | .val w =>
    let spacing : ℚ :=
      if byteLen text > 1 then ((text.length - 1 : ℕ) : ℚ) * letter_spacing else 0
    w + spacing

/-! ## Float lookup (layout.rs, get_float_reduction) -/

/-- `get_float_reduction` from layout.rs: first float in the list that
overlaps the candidate line, Y-based for fixed-position floats and
line-index based for move-with-text floats. -/
def get_float_reduction (floats : List ActiveFloat) (line_index : Nat)
    (estimated_y line_height column_width : ℚ) : Option FloatReduction :=
  match floats with
  | [] => none
  | f :: rest =>
    match f.y_start, f.y_end with
    | some ys, some ye =>
      if estimated_y < ye ∧ estimated_y + line_height > ys then
        some ⟨f.side, f.width, f.x_position.getD 0⟩
      else get_float_reduction rest line_index estimated_y line_height column_width
    | _, _ =>
      if f.start_line ≤ line_index ∧ line_index < f.end_line then
        some ⟨f.side, f.width,
          match f.side with
          | .left => 0
          | .right => column_width - f.width⟩
      else get_float_reduction rest line_index estimated_y line_height column_width

/-! ## Pagination (layout.rs, assign_page_positions) -/

/-- The mutable state `(current_y, current_page, current_column)` of
`assign_page_positions`. -/
structure PageState where
  y : ℚ
  page : Nat
  col : Nat
deriving DecidableEq, Repr

/-- The per-line effective height used by `assign_page_positions`: image and
table lines use `image_height` in line units, other lines one line height. -/
def effectiveHeight (config : LayoutConfig) (dl : DisplayLine) : ℚ :=
  if dl.is_image || dl.is_table then
    dl.image_height.getD 1 * config.line_height_px
  else config.line_height_px

/-- One iteration of the `assign_page_positions` loop: position one line and
produce the next state. -/
def assignLine (config : LayoutConfig) (st : PageState) (dl : DisplayLine) :
    DisplayLine × PageState :=
  if dl.is_page_break then
    ({ dl with page_index := st.page, y_position := st.y, column_index := st.col },
     ⟨0, st.page + 1, 0⟩)
  else
    let this_line_height := effectiveHeight config dl
    let spacing_after : ℚ :=
      if dl.is_last_line ∧ this_line_height > 0 then config.paragraph_spacing else 0
    let st1 : PageState :=
      if st.y + this_line_height > config.content_height then
        if config.columns > 1 ∧ st.col < config.columns - 1 then ⟨0, st.page, st.col + 1⟩
        else ⟨0, st.page + 1, 0⟩
      else st
    ({ dl with
        page_index := st1.page
        column_index := st1.col
        y_position := st1.y
        x_position := config.margin_left + (st1.col : ℚ) * (config.column_width + config.column_gap) },
     ⟨st1.y + this_line_height + spacing_after, st1.page, st1.col⟩)

/-- The loop of `assign_page_positions`, from an arbitrary state. -/
def assignGo (config : LayoutConfig) (st : PageState) : List DisplayLine → List DisplayLine
  | [] => []
  | dl :: rest =>
    let r := assignLine config st dl
    r.1 :: assignGo config r.2 rest

/-- `assign_page_positions` from layout.rs (functionally: returns the
positioned lines). -/
def assign_page_positions (display_lines : List DisplayLine) (config : LayoutConfig) :
    List DisplayLine :=
  assignGo config ⟨0, 0, 0⟩ display_lines

/-! ## Word wrapping (layout.rs) -/

/-- Consume `n` bytes from a char list: the model of slicing
`&text[cs .. cs + n]`. Returns `none` when `n` falls inside a multi-byte
character (where Rust would panic) or past the end. -/
def takeBytes : Nat → List Char → Option (List Char × List Char)
  | 0, l => some ([], l)
  | n + 1, [] => none
  | n + 1, c :: rest =>
    if c.utf8Size ≤ n + 1 then
      (takeBytes (n + 1 - c.utf8Size) rest).map (fun p => (c :: p.1, p.2))
    else none

/-- The break-point search loop of `layout_paragraph` (also duplicated in
`wrap_text_for_cell`): walk `char_indices`, measuring the cumulative prefix,
tracking the byte position after the last space; on exceeding the available
width break at the last word boundary, or mid-token (`pos.max(cs + 1)`).
`pref` is the prefix of the line scanned so far, `pos` the byte offset of
the current char, `line_end` and `lwb` the loop variables of the source. -/
def findLineEndGo (m : MeasureFn) (font_size letter_spacing avail : ℚ) (cs : Nat) :
    List Char → List Char → Nat → Nat → Nat → Nat
  | [], _, _, line_end, _ => line_end
  | c :: rest, pref, pos, line_end, lwb =>
    let test := pref ++ [c]
    let width := measure_text m test font_size letter_spacing
    let lwb2 := if c = ' ' then pos + 1 else lwb
    if width > avail then (if lwb2 > cs then lwb2 else max pos (cs + 1))
    else findLineEndGo m font_size letter_spacing avail cs rest test
      (pos + c.utf8Size) (pos + c.utf8Size) lwb2

/-- `line_end` for one line: the loop above started at byte `cs` on the
remaining text, followed by the `if line_end <= current_start` progress
guard. -/
def findLineEnd (m : MeasureFn) (font_size letter_spacing avail : ℚ) (cs : Nat)
    (remaining : List Char) : Nat :=
  let le0 := findLineEndGo m font_size letter_spacing avail cs remaining [] cs cs cs
  if le0 ≤ cs then cs + 1 else le0

/-- A plain text display line as built by the wrapping loop of
`layout_paragraph` (positions are filled in later by the paginator). -/
def mkTextLine (para_idx : Nat) (meta : ParagraphMeta) (start_offset end_offset : Nat)
    (text : List Char) (list_number : Option Nat) (is_last_line : Bool)
    (float_reduction : Option FloatReduction) : DisplayLine :=
  { para_index := para_idx
    start_offset := start_offset
    end_offset := end_offset
    text := text
    page_index := 0
    column_index := 0
    x_position := 0
    y_position := 0
    is_page_break := false
    is_image := false
    image_id := none
    image_height := none
    list_number := list_number
    is_last_line := is_last_line
    block_type := meta.block_type
    list_type := meta.list_type
    float_reduction := float_reduction
    is_table := false
    table_id := none
    table_layout := none }

/-- Set `is_last_line` on the last produced line
(`lines.last_mut().is_last_line = true`). -/
def markLast : List DisplayLine → List DisplayLine
  | [] => []
  | [l] => [{ l with is_last_line := true }]
  | l :: l2 :: rest => l :: markLast (l2 :: rest)

/-- The wrapping loop of `layout_paragraph` over the remaining text, with
per-line float lookup. `tlen` is `text.len()` (the full byte length),
`cs` the byte offset of the current line start (with `remaining` the
corresponding suffix of the text), `k` the number of lines already emitted
for this paragraph, and `current_line_count` the number of display lines
emitted before this paragraph. The fuel argument only bounds nesting (one
unit per produced line; each line consumes at least one char, so
`remaining.length + 1` always suffices); `none` models the Rust panic on a
mid-character slice. -/
def wrapGo (m : MeasureFn) (config : LayoutConfig) (para_idx : Nat)
    (meta : ParagraphMeta) (list_number : Option Nat)
    (font_size base_available_width line_height column_width : ℚ)
    (active_floats : List ActiveFloat) (current_line_count tlen : Nat) :
    Nat → List Char → Nat → Nat → Option (List DisplayLine)
  | 0, _, _, _ => none
  | _ + 1, [], _, _ => some []
  | fuel + 1, c0 :: rem, cs, k =>
    let remaining := c0 :: rem
    let line_index := current_line_count + k
    let estimated_y := (line_index : ℚ) * line_height
    let float_reduction :=
      get_float_reduction active_floats line_index estimated_y line_height column_width
    let float_width := (float_reduction.map (fun f => f.width + 10)).getD 0
    let available_width := base_available_width - float_width
    let remaining_width := measure_text m remaining font_size config.letter_spacing
    if remaining_width ≤ available_width then
      some [mkTextLine para_idx meta cs tlen remaining
        (if k = 0 then list_number else none) true float_reduction]
    else
      let line_end := findLineEnd m font_size config.letter_spacing available_width cs remaining
      match takeBytes (line_end - cs) remaining with
      | none => none
      | some (taken, rest) =>
        (wrapGo m config para_idx meta list_number font_size base_available_width
            line_height column_width active_floats current_line_count tlen
            fuel rest line_end (k + 1)).map
          (fun ls =>
            mkTextLine para_idx meta cs line_end taken
              (if k = 0 then list_number else none) false float_reduction :: ls)

/-! ## Table layout (layout.rs, compute_table_layout) -/

/-- Rust `str::split('\n')`. -/
def splitNewline : List Char → List (List Char)
  | [] => [[]]
  | c :: rest =>
    if c = '\n' then [] :: splitNewline rest
    else
      match splitNewline rest with
      | p :: ps => (c :: p) :: ps
      | [] => [[c]]

/-- The wrapping loop of `wrap_text_for_cell` for one newline-free piece of
cell text (same break-point search as the paragraph wrapper). -/
def cellWrapGo (m : MeasureFn) (config : LayoutConfig) (font_size max_width : ℚ) :
    Nat → List Char → Nat → Option (List (List Char))
  | 0, _, _ => none
  | _ + 1, [], _ => some []
  | fuel + 1, c0 :: rem, cs =>
    let remaining := c0 :: rem
    let remaining_width := measure_text m remaining font_size config.letter_spacing
    if remaining_width ≤ max_width then some [remaining]
    else
      let line_end := findLineEnd m font_size config.letter_spacing max_width cs remaining
      match takeBytes (line_end - cs) remaining with
      | none => none
      | some (taken, rest) =>
        (cellWrapGo m config font_size max_width fuel rest line_end).map
          (fun ls => taken :: ls)

/-- `wrap_text_for_cell` from layout.rs: split on explicit line breaks, then
word-wrap each piece. -/
def wrap_text_for_cell (m : MeasureFn) (config : LayoutConfig) (text : List Char)
    (max_width font_size : ℚ) : Option (List (List Char)) :=
  if text = [] then some [[]]
  else
    ((splitNewline text).foldlM (fun acc piece =>
        if piece = [] then some (acc ++ [[]])
        else (cellWrapGo m config font_size max_width (piece.length + 1) piece 0).map
          (acc ++ ·))
      ([] : List (List Char))).map
      (fun all_lines => if all_lines = [] then [[]] else all_lines)

/-- The first pass of `compute_table_layout` over one row: returns the
wrapped lines per cell and the row height. -/
def tableFirstRow (m : MeasureFn) (config : LayoutConfig)
    (column_widths : List ℚ) (num_cols : Nat) (border cell_padding line_height : ℚ)
    (row : TableRow) : Option (List (List (List Char)) × ℚ) :=
  ((row.cells.enum).foldlM (fun acc (p : Nat × TableCell) =>
      let col_idx := p.1
      let cell := p.2
      if cell.covered then some (acc.1 ++ [[[]]], acc.2)
      else
        let spanWidth := ((rectRange col_idx (min (col_idx + cell.col_span) num_cols - 1)).map
          (fun span_col => (column_widths[span_col]?).getD 0)).sum
        let cell_content_width := spanWidth +
          (if cell.col_span > 1 then ((cell.col_span - 1 : ℕ) : ℚ) * border else 0) -
          cell_padding
        (wrap_text_for_cell m config cell.text cell_content_width config.font_size).map
          (fun lines =>
            (acc.1 ++ [lines],
             if cell.row_span = 1 then max acc.2 lines.length else acc.2)))
    (([], 1) : List (List (List Char)) × Nat)).map
    (fun acc =>
      (acc.1,
       max ((acc.2 : ℚ) * line_height + cell_padding)
         (row.min_height.getD (line_height + cell_padding))))

/-- Add `x` to the heights of rows `lo ≤ i < hi`
(`for r in row_idx..spanned_rows_end { row_heights[r] += extra_per_row }`). -/
def addToRange (rh : List ℚ) (lo hi : Nat) (x : ℚ) : List ℚ :=
  rh.mapIdx (fun i v => if lo ≤ i ∧ i < hi then v + x else v)

/-- The second pass of `compute_table_layout`: enlarge the rows spanned by a
row-spanning cell whose content needs more height. -/
def tableSecondPass (table : DocumentTable) (cell_lines : List (List (List (List Char))))
    (border cell_padding line_height : ℚ) (row_heights : List ℚ) : List ℚ :=
  (table.rows.enum).foldl (fun rh (rp : Nat × TableRow) =>
    (rp.2.cells.enum).foldl (fun rh (cp : Nat × TableCell) =>
      let row_idx := rp.1
      let col_idx := cp.1
      let cell := cp.2
      if cell.covered || cell.row_span ≤ 1 then rh
      else
        let lines_count := (((cell_lines[row_idx]?).bind (fun r => r[col_idx]?)).map
          List.length).getD 1
        let required_height := (lines_count : ℚ) * line_height + cell_padding
        let spanned_rows_end := min (row_idx + cell.row_span) table.rows.length
        let current_height := ((rh.drop row_idx).take (spanned_rows_end - row_idx)).sum
        let border_height := ((cell.row_span - 1 : ℕ) : ℚ) * border
        let current_total := current_height + border_height
        if required_height > current_total then
          addToRange rh row_idx spanned_rows_end
            ((required_height - current_total) / (cell.row_span : ℚ))
        else rh)
      rh)
    row_heights

/-- `compute_table_layout` from layout.rs. -/
def compute_table_layout (m : MeasureFn) (config : LayoutConfig)
    (table : DocumentTable) : Option TableLayout :=
  let available_width := config.column_width
  let line_height := config.line_height_px
  let cell_padding : ℚ := 8
  let border := table.border_width
  let num_cols := table.column_widths.length
  let total_border_width := ((num_cols + 1 : ℕ) : ℚ) * border
  let content_width := available_width - total_border_width
  let column_widths : List ℚ :=
    match table.width_mode with
    | .fixed => table.column_widths
    | .percentage => table.column_widths.map (fun w => content_width * w / 100)
    | .auto => table.column_widths.map (fun w => content_width * w / 100)
  ((table.rows).foldlM (fun acc row =>
      (tableFirstRow m config column_widths num_cols border cell_padding line_height row).map
        (fun r => (acc.1 ++ [r.1], acc.2 ++ [r.2])))
    (([], []) : List (List (List (List Char))) × List ℚ)).map
    (fun acc =>
      let cell_lines := acc.1
      let row_heights := tableSecondPass table cell_lines border cell_padding line_height acc.2
      { table_id := table.id
        row_heights := row_heights
        column_widths := column_widths
        total_height := row_heights.sum + ((table.rows.length + 1 : ℕ) : ℚ) * border
        total_width := available_width
        cell_lines := cell_lines })

/-! ## Paragraph layout (layout.rs, layout_paragraph) -/

/-- The list-numbering block of `layout_paragraph` (the `match meta.list_type`
on lines 513–528): numbered paragraphs increment the last counter (pushing
one when the stack is empty), `None` paragraphs clear the counters, bullet
paragraphs leave them untouched. -/
def updateListCounters : ListType → List Nat → Option Nat × List Nat
  | .numbered, cs =>
    let num := (cs.getLast?.getD 0) + 1
    (some num, if cs.isEmpty then [num] else cs.dropLast ++ [num])
  | .bullet, cs => (none, cs)
  | .none, _ => (none, [])

/-- A zero-content marker display line (page break / image / table). -/
def mkMarkerLine (para_idx : Nat) (meta : ParagraphMeta) (end_offset : Nat)
    (is_page_break is_image : Bool) (image_id : Option (List Char))
    (image_height : Option ℚ) (list_number : Option Nat) (list_type : ListType)
    (float_reduction : Option FloatReduction) (is_table : Bool)
    (table_id : Option (List Char)) (table_layout : Option TableLayout) : DisplayLine :=
  { para_index := para_idx
    start_offset := 0
    end_offset := end_offset
    text := []
    page_index := 0
    column_index := 0
    x_position := 0
    y_position := 0
    is_page_break := is_page_break
    is_image := is_image
    image_id := image_id
    image_height := image_height
    list_number := list_number
    is_last_line := true
    block_type := meta.block_type
    list_type := list_type
    float_reduction := float_reduction
    is_table := is_table
    table_id := table_id
    table_layout := table_layout }

/-- `layout_paragraph` from layout.rs, functionally: besides the produced
lines it returns the updated active float list and list counters. `none`
models the Rust panic on a mid-character break (see `takeBytes`). -/
def layout_paragraph (m : MeasureFn) (config : LayoutConfig) (para_idx : Nat)
    (para : Paragraph) (document : Document) (active_floats : List ActiveFloat)
    (list_counters : List Nat) (current_line_count : Nat) :
    Option (List DisplayLine × List ActiveFloat × List Nat) :=
  let meta := para.meta
  if para.is_page_break then
    some ([mkMarkerLine para_idx meta 1 true false none none none meta.list_type none
      false none none], active_floats, list_counters)
  else match para.table_id.bind (fun tid =>
      (document.tables.find? (fun t => t.id == tid)).map (fun t => (tid, t))) with
  | some tt =>
    (compute_table_layout m config tt.2).map (fun table_layout =>
      ([mkMarkerLine para_idx meta (byteLen para.text) false false none
          (some (table_layout.total_height / config.line_height_px)) none .none none
          true (some tt.1) (some table_layout)],
       active_floats, list_counters))
  | none =>
  match para.image_id.bind (fun iid =>
      (document.images.find? (fun img => img.id == iid)).map (fun img => (iid, img))) with
  | some ii =>
    let clamped_width := min ii.2.width config.column_width
    let line_height := config.line_height_px
    let image_height := ii.2.cropped_height
    let float_lines : Nat :=
      if image_height ≤ 0 then 0 else (image_height / line_height).ceil.toNat
    let inline_image_lines : ℚ := ((image_height / line_height).ceil : ℤ)
    if ii.2.wrap_style.is_float ∧ ii.2.position_mode = .moveWithText then
      some ([mkMarkerLine para_idx meta (byteLen para.text) false true (some ii.1)
          (some 0) none .none none false none none],
        active_floats ++ [⟨ii.1, current_line_count + 1,
          current_line_count + 1 + float_lines, clamped_width,
          align_to_float_side ii.2.horizontal_align, none, none, none, none⟩],
        list_counters)
    else if ii.2.wrap_style.is_float ∧ ii.2.position_mode = .fixedPosition then
      some ([mkMarkerLine para_idx meta (byteLen para.text) false true (some ii.1)
          (some 0) none .none none false none none], active_floats, list_counters)
    else if ii.2.wrap_style = .behind ∨ ii.2.wrap_style = .inFront then
      some ([mkMarkerLine para_idx meta (byteLen para.text) false true (some ii.1)
          (some 0) none .none none false none none], active_floats, list_counters)
    else
      some ([mkMarkerLine para_idx meta (byteLen para.text) false true (some ii.1)
          (some inline_image_lines) none .none none false none none],
        active_floats, list_counters)
  | none =>
    let r := updateListCounters meta.list_type list_counters
    let list_number := r.1
    let list_counters := r.2
    let font_size := (meta.font_size.getD config.font_size) * meta.block_type.font_size_multiplier
    let list_indent : ℚ := if meta.list_type ≠ .none then font_size * (3/2) else 0
    let base_available_width := config.column_width - list_indent
    let line_height := config.line_height_px
    let column_width := config.column_width
    if para.text = [] then
      let estimated_y := (current_line_count : ℚ) * line_height
      let float_reduction := get_float_reduction active_floats current_line_count
        estimated_y line_height column_width
      some ([mkTextLine para_idx meta 0 0 [] list_number true float_reduction],
        active_floats, list_counters)
    else
      (wrapGo m config para_idx meta list_number font_size base_available_width
          line_height column_width active_floats current_line_count
          (byteLen para.text) (para.text.length + 1) para.text 0 0).map
        (fun lines => (markLast lines, active_floats, list_counters))

/-! ## Whole-document layout (layout.rs, compute_layout) -/

/-- The pre-pass of `compute_layout`: collect fixed-position float images as
Y-scoped active floats. -/
def prePassFloats (document : Document) (config : LayoutConfig) : List ActiveFloat :=
  document.images.foldl (fun acc image =>
    if image.wrap_style.is_float ∧ image.position_mode = .fixedPosition ∧ image.y.isSome then
      let y := image.y.getD 0
      let x := image.x.getD 0
      let image_height := image.cropped_height
      let image_width := min image.width config.column_width
      let column_width := config.column_width
      let image_center := x + image_width / 2
      let side := if image_center < column_width / 2 then FloatSide.left else FloatSide.right
      acc ++ [⟨image.id, 0, 0, image_width, side, image.page_index,
        some y, some (y + image_height), some x⟩]
    else acc) []

/-- The first pass of `compute_layout`: lay out each paragraph in order,
threading the active floats, the list counters and the running display-line
count. -/
def layoutParagraphsGo (m : MeasureFn) (config : LayoutConfig) (document : Document) :
    List Paragraph → Nat → Nat → List ActiveFloat → List Nat →
    Option (List DisplayLine)
  | [], _, _, _, _ => some []
  | para :: rest, idx, count, floats, counters =>
    match layout_paragraph m config idx para document floats counters count with
    | none => none
    | some (ls, floats2, counters2) =>
      (layoutParagraphsGo m config document rest (idx + 1) (count + ls.length)
        floats2 counters2).map (fun tail => ls ++ tail)

/-- `compute_layout` from layout.rs. -/
def compute_layout (document : Document) (config : LayoutConfig) (m : MeasureFn) :
    Option (List DisplayLine) :=
  (layoutParagraphsGo m config document document.paragraphs 0 0
      (prePassFloats document config) []).map
    (fun lines => assign_page_positions lines config)

/-! ## Position mapping (layout.rs) -/

/-- `DisplayPosition` from layout.rs. -/
structure DisplayPosition where
  line : Nat
  col : Nat
deriving DecidableEq, Repr

/-- `ParagraphPosition` from layout.rs. -/
structure ParagraphPosition where
  para : Nat
  offset : Nat
deriving DecidableEq, Repr

/-- Scan of `para_to_display_pos`: first line whose paragraph matches and
whose inclusive `[start_offset, end_offset]` range contains the offset. -/
def paraToDisplayGo (para offset : Nat) : List DisplayLine → Nat → Option DisplayPosition
  | [], _ => none
  | dl :: rest, i =>
    if dl.para_index = para ∧ dl.start_offset ≤ offset ∧ offset ≤ dl.end_offset then
      some ⟨i, offset - dl.start_offset⟩
    else paraToDisplayGo para offset rest (i + 1)

/-- `para_to_display_pos` from layout.rs, with its fallback to the very last
line and its text length. -/
def para_to_display_pos (display_lines : List DisplayLine) (para offset : Nat) :
    DisplayPosition :=
  match paraToDisplayGo para offset display_lines 0 with
  | some p => p
  | none =>
    ⟨display_lines.length - 1,
     (display_lines.getLast?.map (fun dl => byteLen dl.text)).getD 0⟩

/-- `display_to_para` from layout.rs. -/
def display_to_para (display_lines : List DisplayLine) (line col : Nat) :
    ParagraphPosition :=
  if line ≥ display_lines.length then
    match display_lines.getLast? with
    | some last => ⟨last.para_index, last.end_offset⟩
    | none => ⟨0, 0⟩
  else
    match display_lines[line]? with
    | some dl => ⟨dl.para_index, dl.start_offset + min col (byteLen dl.text)⟩
    | none => ⟨0, 0⟩

/-! ## Theorems -/

/-- A measurement capability whose calls always fail. -/
def measureErr : MeasureFn := fun _ _ => .err

/-- A measurement capability that always reports a non-numeric result. -/
def measureNonNum : MeasureFn := fun _ _ => .nonNumeric

/-- Claim C9, counterexample: for the two-byte single character `é` with font
size 10, a failed measurement call yields `measure_text = 10` (the byte
length 2 times `10 × 0.5`), not the char-count value `1 × 10 × 0.5 = 5`
the claim asserts. -/
theorem measure_text_charcount_cex :
    measure_text measureErr [Char.ofNat 233] 10 0 = 10 ∧
    ((([Char.ofNat 233] : List Char).length : ℚ) * 10 * (1/2) = 5) ∧
    (10 : ℚ) ≠ 5 := by
  have hb : byteLen [Char.ofNat 233] = 2 := rfl
  refine ⟨?_, by norm_num, by norm_num⟩
  simp only [measure_text, measureErr, hb]
  norm_num

/-- Claim C9, amended: when the injected measurement call fails, `measure_text`
returns the approximate width `byteLen × fontSize × 0.5` (UTF-8 byte length
of the text, not its character count); when the call succeeds but returns a
non-numeric result, the same approximate width is used but letter spacing
`(charCount − 1) × spacing` is still added whenever the byte length
exceeds 1. -/
theorem measure_text_fallback (m : MeasureFn) (text : List Char) (font_size letter_spacing : ℚ) :
    (m text font_size = .err →
      measure_text m text font_size letter_spacing = (byteLen text : ℚ) * font_size * (1/2)) ∧
    (m text font_size = .nonNumeric →
      measure_text m text font_size letter_spacing =
        (byteLen text : ℚ) * font_size * (1/2) +
          (if byteLen text > 1 then ((text.length - 1 : ℕ) : ℚ) * letter_spacing else 0)) := by
  constructor <;> intro h <;> simp [measure_text, h]

/-- Witness for the amended C9 theorem at concrete inputs. -/
theorem measure_text_fallback_witness :
    measure_text measureErr [Char.ofNat 233] 10 0 = (byteLen [Char.ofNat 233] : ℚ) * 10 * (1/2) ∧
    measure_text measureNonNum [Char.ofNat 233, 'b'] 10 2 =
      (byteLen [Char.ofNat 233, 'b'] : ℚ) * 10 * (1/2) +
        (if byteLen [Char.ofNat 233, 'b'] > 1 then
          ((([Char.ofNat 233, 'b'] : List Char).length - 1 : ℕ) : ℚ) * 2 else 0) :=
  ⟨(measure_text_fallback measureErr [Char.ofNat 233] 10 0).1 rfl,
   (measure_text_fallback measureNonNum [Char.ofNat 233, 'b'] 10 2).2 rfl⟩

/-! ### Pagination invariants (claim C2) -/

/-- Lexicographic order on (page, column) positions. -/
def lexLe (p c p2 c2 : Nat) : Prop := p < p2 ∨ (p = p2 ∧ c ≤ c2)

theorem lexLe_refl (p c : Nat) : lexLe p c p c := Or.inr ⟨rfl, le_refl c⟩

theorem lexLe_trans {p c p2 c2 p3 c3 : Nat} (h1 : lexLe p c p2 c2)
    (h2 : lexLe p2 c2 p3 c3) : lexLe p c p3 c3 := by
  rcases h1 with h1 | ⟨h1, h1c⟩ <;> rcases h2 with h2 | ⟨h2, h2c⟩
  · exact Or.inl (h1.trans h2)
  · exact Or.inl (h2 ▸ h1)
  · exact Or.inl (h1 ▸ h2)
  · exact Or.inr ⟨h1.trans h2, h1c.trans h2c⟩

theorem assignGo_cons (config : LayoutConfig) (st : PageState) (dl : DisplayLine)
    (rest : List DisplayLine) :
    assignGo config st (dl :: rest) =
      (assignLine config st dl).1 :: assignGo config (assignLine config st dl).2 rest := rfl

/-- `assignLine` on a page-break line. -/
theorem assignLine_pb (config : LayoutConfig) (st : PageState) (dl : DisplayLine)
    (h : dl.is_page_break = true) :
    assignLine config st dl =
      ({ dl with page_index := st.page, y_position := st.y, column_index := st.col },
       ⟨0, st.page + 1, 0⟩) := by
  simp [assignLine, h]

/-- `assignLine` on a non-page-break line that fits: the line keeps the
current position. -/
theorem assignLine_fit (config : LayoutConfig) (st : PageState) (dl : DisplayLine)
    (h : dl.is_page_break = false)
    (h2 : ¬(st.y + effectiveHeight config dl > config.content_height)) :
    assignLine config st dl =
      ({ dl with
          page_index := st.page
          column_index := st.col
          y_position := st.y
          x_position := config.margin_left +
            (st.col : ℚ) * (config.column_width + config.column_gap) },
       ⟨st.y + effectiveHeight config dl +
          (if dl.is_last_line ∧ effectiveHeight config dl > 0 then
            config.paragraph_spacing else 0), st.page, st.col⟩) := by
  simp [assignLine, h, h2]

/-- `assignLine` on an overflowing line when a column remains on the page. -/
theorem assignLine_overflow_col (config : LayoutConfig) (st : PageState) (dl : DisplayLine)
    (h : dl.is_page_break = false)
    (h2 : st.y + effectiveHeight config dl > config.content_height)
    (h3 : config.columns > 1 ∧ st.col < config.columns - 1) :
    assignLine config st dl =
      ({ dl with
          page_index := st.page
          column_index := st.col + 1
          y_position := 0
          x_position := config.margin_left +
            ((st.col + 1 : ℕ) : ℚ) * (config.column_width + config.column_gap) },
       ⟨0 + effectiveHeight config dl +
          (if dl.is_last_line ∧ effectiveHeight config dl > 0 then
            config.paragraph_spacing else 0), st.page, st.col + 1⟩) := by
  simp [assignLine, h, h2, h3]

/-- `assignLine` on an overflowing line when no column remains: next page. -/
theorem assignLine_overflow_page (config : LayoutConfig) (st : PageState) (dl : DisplayLine)
    (h : dl.is_page_break = false)
    (h2 : st.y + effectiveHeight config dl > config.content_height)
    (h3 : ¬(config.columns > 1 ∧ st.col < config.columns - 1)) :
    assignLine config st dl =
      ({ dl with
          page_index := st.page + 1
          column_index := 0
          y_position := 0
          x_position := config.margin_left +
            ((0 : ℕ) : ℚ) * (config.column_width + config.column_gap) },
       ⟨0 + effectiveHeight config dl +
          (if dl.is_last_line ∧ effectiveHeight config dl > 0 then
            config.paragraph_spacing else 0), st.page + 1, 0⟩) := by
  simp [assignLine, h, h2, h3]

/-- The emitted line never sits before the incoming state in (page, column)
order, and the next state never sits before the emitted line. -/
theorem assignLine_coords (config : LayoutConfig) (st : PageState) (dl : DisplayLine) :
    lexLe st.page st.col (assignLine config st dl).1.page_index
      (assignLine config st dl).1.column_index ∧
    lexLe (assignLine config st dl).1.page_index (assignLine config st dl).1.column_index
      (assignLine config st dl).2.page (assignLine config st dl).2.col := by
  by_cases h : dl.is_page_break = true
  · rw [assignLine_pb config st dl h]
    exact ⟨lexLe_refl _ _, Or.inl (Nat.lt_succ_self _)⟩
  · rw [Bool.not_eq_true] at h
    by_cases h2 : st.y + effectiveHeight config dl > config.content_height
    · by_cases h3 : config.columns > 1 ∧ st.col < config.columns - 1
      · rw [assignLine_overflow_col config st dl h h2 h3]
        exact ⟨Or.inr ⟨rfl, Nat.le_succ _⟩, lexLe_refl _ _⟩
      · rw [assignLine_overflow_page config st dl h h2 h3]
        exact ⟨Or.inl (Nat.lt_succ_self _), lexLe_refl _ _⟩
    · rw [assignLine_fit config st dl h h2]
      exact ⟨lexLe_refl _ _, lexLe_refl _ _⟩

/-- Every line emitted from state `st` sits at or after `st` in
(page, column) order. -/
theorem assignGo_mono (config : LayoutConfig) :
    ∀ (lines : List DisplayLine) (st : PageState),
      ∀ dl ∈ assignGo config st lines, lexLe st.page st.col dl.page_index dl.column_index
  | [], _, dl, h => by simp [assignGo] at h
  | dl0 :: rest, st, dl, h => by
    rw [assignGo_cons] at h
    rcases List.mem_cons.mp h with h | h
    · exact h ▸ (assignLine_coords config st dl0).1
    · have h1 := (assignLine_coords config st dl0).1
      have h2 := (assignLine_coords config st dl0).2
      exact lexLe_trans (lexLe_trans h1 h2)
        (assignGo_mono config rest (assignLine config st dl0).2 dl h)

/-- Record fields other than position are untouched by `assignLine`. -/
theorem assignLine_preserves (config : LayoutConfig) (st : PageState) (dl : DisplayLine) :
    (assignLine config st dl).1.is_page_break = dl.is_page_break ∧
    effectiveHeight config (assignLine config st dl).1 = effectiveHeight config dl := by
  by_cases h : dl.is_page_break = true
  · rw [assignLine_pb config st dl h]
    exact ⟨rfl, rfl⟩
  · rw [Bool.not_eq_true] at h
    by_cases h2 : st.y + effectiveHeight config dl > config.content_height
    · by_cases h3 : config.columns > 1 ∧ st.col < config.columns - 1
      · rw [assignLine_overflow_col config st dl h h2 h3]
        exact ⟨rfl, rfl⟩
      · rw [assignLine_overflow_page config st dl h h2 h3]
        exact ⟨rfl, rfl⟩
    · rw [assignLine_fit config st dl h h2]
      exact ⟨rfl, rfl⟩

/-- A non-page-break line emitted at exactly the incoming state's
(page, column) slot satisfies the column height bound: the line either fit
there, or was moved to a fresh slot strictly after the incoming one. -/
theorem assignGo_at_state_bound (config : LayoutConfig) :
    ∀ (lines : List DisplayLine) (st : PageState) (i : Nat)
      (hi : i < (assignGo config st lines).length),
      ((assignGo config st lines).get ⟨i, hi⟩).page_index = st.page →
      ((assignGo config st lines).get ⟨i, hi⟩).column_index = st.col →
      ((assignGo config st lines).get ⟨i, hi⟩).is_page_break = false →
      ((assignGo config st lines).get ⟨i, hi⟩).y_position +
          effectiveHeight config ((assignGo config st lines).get ⟨i, hi⟩) ≤
        config.content_height
  | [], _, i, hi => by simp [assignGo] at hi
  | dl0 :: rest, st, 0, hi => by
    intro hpage hcol hpb
    replace hpage : (assignLine config st dl0).1.page_index = st.page := hpage
    replace hcol : (assignLine config st dl0).1.column_index = st.col := hcol
    replace hpb : (assignLine config st dl0).1.is_page_break = false := hpb
    show (assignLine config st dl0).1.y_position +
        effectiveHeight config (assignLine config st dl0).1 ≤ config.content_height
    by_cases h : dl0.is_page_break = true
    · rw [(assignLine_preserves config st dl0).1, h] at hpb
      exact absurd hpb (by simp)
    · rw [Bool.not_eq_true] at h
      by_cases h2 : st.y + effectiveHeight config dl0 > config.content_height
      · by_cases h3 : config.columns > 1 ∧ st.col < config.columns - 1
        · rw [assignLine_overflow_col config st dl0 h h2 h3] at hcol
          exact absurd hcol (by simp)
        · rw [assignLine_overflow_page config st dl0 h h2 h3] at hpage
          exact absurd hpage (by simp)
      · rw [assignLine_fit config st dl0 h h2]
        have he : effectiveHeight config
            ({ dl0 with
                page_index := st.page
                column_index := st.col
                y_position := st.y
                x_position := config.margin_left +
                  (st.col : ℚ) * (config.column_width + config.column_gap) }) =
            effectiveHeight config dl0 := rfl
        rw [he]
        exact not_lt.mp h2
  | dl0 :: rest, st, i + 1, hi => by
    intro hpage hcol hpb
    have hi2 : i < (assignGo config (assignLine config st dl0).2 rest).length :=
      Nat.lt_of_succ_lt_succ hi
    replace hpage : ((assignGo config (assignLine config st dl0).2 rest).get
      ⟨i, hi2⟩).page_index = st.page := hpage
    replace hcol : ((assignGo config (assignLine config st dl0).2 rest).get
      ⟨i, hi2⟩).column_index = st.col := hcol
    replace hpb : ((assignGo config (assignLine config st dl0).2 rest).get
      ⟨i, hi2⟩).is_page_break = false := hpb
    show ((assignGo config (assignLine config st dl0).2 rest).get ⟨i, hi2⟩).y_position +
        effectiveHeight config
          ((assignGo config (assignLine config st dl0).2 rest).get ⟨i, hi2⟩) ≤
      config.content_height
    -- the tail runs from the successor state; relate it to `st`
    have hmono := assignGo_mono config rest (assignLine config st dl0).2
      ((assignGo config (assignLine config st dl0).2 rest).get ⟨i, hi2⟩)
      (List.get_mem _ _ _)
    by_cases h : dl0.is_page_break = true
    · -- successor state is on the next page; the line cannot be back at `st`
      have hc : (assignLine config st dl0).2.page = st.page + 1 := by
        rw [assignLine_pb config st dl0 h]
      rw [hc, hpage, hcol] at hmono
      rcases hmono with hm | ⟨hm, _⟩ <;> omega
    · rw [Bool.not_eq_true] at h
      by_cases h2 : st.y + effectiveHeight config dl0 > config.content_height
      · by_cases h3 : config.columns > 1 ∧ st.col < config.columns - 1
        · have hc : (assignLine config st dl0).2.page = st.page ∧
              (assignLine config st dl0).2.col = st.col + 1 := by
            rw [assignLine_overflow_col config st dl0 h h2 h3]
            exact ⟨rfl, rfl⟩
          rw [hc.1, hc.2, hpage, hcol] at hmono
          rcases hmono with hm | ⟨_, hm⟩ <;> omega
        · have hc : (assignLine config st dl0).2.page = st.page + 1 := by
            rw [assignLine_overflow_page config st dl0 h h2 h3]
          rw [hc, hpage, hcol] at hmono
          rcases hmono with hm | ⟨hm, _⟩ <;> omega
      · -- no advance: the successor state has the same (page, column)
        have hc : (assignLine config st dl0).2.page = st.page ∧
            (assignLine config st dl0).2.col = st.col := by
          rw [assignLine_fit config st dl0 h h2]
          exact ⟨rfl, rfl⟩
        exact assignGo_at_state_bound config rest (assignLine config st dl0).2 i hi2
          (hpage.trans hc.1.symm) (hcol.trans hc.2.symm) hpb

/-- Length is preserved by the pagination sweep. -/
theorem assignGo_length (config : LayoutConfig) :
    ∀ (lines : List DisplayLine) (st : PageState),
      (assignGo config st lines).length = lines.length
  | [], _ => rfl
  | _ :: rest, st => by
    rw [assignGo_cons, List.length_cons, List.length_cons,
      assignGo_length config rest _]

/-- For a non-page-break line the emitted position coincides with the
(page, column) of the successor state. -/
theorem assignLine_out_eq_next (config : LayoutConfig) (st : PageState) (dl : DisplayLine)
    (h : dl.is_page_break = false) :
    (assignLine config st dl).1.page_index = (assignLine config st dl).2.page ∧
    (assignLine config st dl).1.column_index = (assignLine config st dl).2.col := by
  by_cases h2 : st.y + effectiveHeight config dl > config.content_height
  · by_cases h3 : config.columns > 1 ∧ st.col < config.columns - 1
    · rw [assignLine_overflow_col config st dl h h2 h3]
      exact ⟨rfl, rfl⟩
    · rw [assignLine_overflow_page config st dl h h2 h3]
      exact ⟨rfl, rfl⟩
  · rw [assignLine_fit config st dl h h2]
    exact ⟨rfl, rfl⟩

/-- For a page-break line the emitted position is the incoming state and the
successor state starts the next page. -/
theorem assignLine_pb_coords (config : LayoutConfig) (st : PageState) (dl : DisplayLine)
    (h : dl.is_page_break = true) :
    (assignLine config st dl).1.page_index = st.page ∧
    (assignLine config st dl).1.column_index = st.col ∧
    (assignLine config st dl).2.page = st.page + 1 := by
  rw [assignLine_pb config st dl h]
  exact ⟨rfl, rfl, rfl⟩

/-- Column-height invariant of `assignGo`: among the lines emitted from any
state, a non-page-break line sharing its (page, column) with an earlier line
satisfies `y + effectiveHeight ≤ content height`. -/
theorem assignGo_column_bound (config : LayoutConfig) :
    ∀ (lines : List DisplayLine) (st : PageState) (i j : Nat)
      (hi : i < (assignGo config st lines).length)
      (hj : j < (assignGo config st lines).length), i < j →
      ((assignGo config st lines).get ⟨i, hi⟩).page_index =
        ((assignGo config st lines).get ⟨j, hj⟩).page_index →
      ((assignGo config st lines).get ⟨i, hi⟩).column_index =
        ((assignGo config st lines).get ⟨j, hj⟩).column_index →
      ((assignGo config st lines).get ⟨j, hj⟩).is_page_break = false →
      ((assignGo config st lines).get ⟨j, hj⟩).y_position +
          effectiveHeight config ((assignGo config st lines).get ⟨j, hj⟩) ≤
        config.content_height
  | [], _, i, j, hi, _, _ => by simp [assignGo] at hi
  | dl0 :: rest, st, 0, 0, _, _, hij => by omega
  | dl0 :: rest, st, i + 1, 0, _, _, hij => by omega
  | dl0 :: rest, st, 0, j + 1, hi, hj, hij => by
    intro hpage hcol hpb
    have hj2 : j < (assignGo config (assignLine config st dl0).2 rest).length :=
      Nat.lt_of_succ_lt_succ hj
    replace hpage : (assignLine config st dl0).1.page_index =
      ((assignGo config (assignLine config st dl0).2 rest).get ⟨j, hj2⟩).page_index := hpage
    replace hcol : (assignLine config st dl0).1.column_index =
      ((assignGo config (assignLine config st dl0).2 rest).get ⟨j, hj2⟩).column_index := hcol
    replace hpb : ((assignGo config (assignLine config st dl0).2 rest).get
      ⟨j, hj2⟩).is_page_break = false := hpb
    show ((assignGo config (assignLine config st dl0).2 rest).get ⟨j, hj2⟩).y_position +
        effectiveHeight config
          ((assignGo config (assignLine config st dl0).2 rest).get ⟨j, hj2⟩) ≤
      config.content_height
    by_cases h : dl0.is_page_break = true
    · -- a page break: the tail lives on later pages, contradiction
      have hc := assignLine_pb_coords config st dl0 h
      have hmono := assignGo_mono config rest (assignLine config st dl0).2
        ((assignGo config (assignLine config st dl0).2 rest).get ⟨j, hj2⟩)
        (List.get_mem _ _ _)
      rw [hc.2.2] at hmono
      rw [hc.1] at hpage
      rcases hmono with hm | ⟨hm, _⟩ <;> omega
    · rw [Bool.not_eq_true] at h
      have hc := assignLine_out_eq_next config st dl0 h
      exact assignGo_at_state_bound config rest (assignLine config st dl0).2 j hj2
        (hpage.symm.trans hc.1) (hcol.symm.trans hc.2) hpb
  | dl0 :: rest, st, i + 1, j + 1, hi, hj, hij => by
    intro hpage hcol hpb
    have hi2 : i < (assignGo config (assignLine config st dl0).2 rest).length :=
      Nat.lt_of_succ_lt_succ hi
    have hj2 : j < (assignGo config (assignLine config st dl0).2 rest).length :=
      Nat.lt_of_succ_lt_succ hj
    exact assignGo_column_bound config rest (assignLine config st dl0).2 i j hi2 hj2
      (Nat.lt_of_succ_lt_succ hij) hpage hcol hpb

/-- Claim C2, amended main theorem. First part: after
`assign_page_positions`, within one (page, column), every **non-page-break**
line except possibly the first line assigned to that column satisfies
`y + effectiveHeight ≤ content height` (page-break lines are positioned at
the current cursor unconditionally and are exempt). Second part: a
non-page-break line that would overflow is placed at `y = 0` on the next
column if one remains on the page, else on the next page at column 0. -/
theorem assign_page_positions_column_invariant (lines : List DisplayLine)
    (config : LayoutConfig) :
    (∀ (i j : Nat) (hi : i < (assign_page_positions lines config).length)
      (hj : j < (assign_page_positions lines config).length), i < j →
      ((assign_page_positions lines config).get ⟨i, hi⟩).page_index =
        ((assign_page_positions lines config).get ⟨j, hj⟩).page_index →
      ((assign_page_positions lines config).get ⟨i, hi⟩).column_index =
        ((assign_page_positions lines config).get ⟨j, hj⟩).column_index →
      ((assign_page_positions lines config).get ⟨j, hj⟩).is_page_break = false →
      ((assign_page_positions lines config).get ⟨j, hj⟩).y_position +
          effectiveHeight config ((assign_page_positions lines config).get ⟨j, hj⟩) ≤
        config.content_height) ∧
    (∀ (st : PageState) (dl : DisplayLine), dl.is_page_break = false →
      st.y + effectiveHeight config dl > config.content_height →
      (assignLine config st dl).1.y_position = 0 ∧
      (if config.columns > 1 ∧ st.col < config.columns - 1 then
        (assignLine config st dl).1.page_index = st.page ∧
          (assignLine config st dl).1.column_index = st.col + 1
      else
        (assignLine config st dl).1.page_index = st.page + 1 ∧
          (assignLine config st dl).1.column_index = 0)) := by
  constructor
  · exact fun i j hi hj => assignGo_column_bound config lines ⟨0, 0, 0⟩ i j hi hj
  · intro st dl h h2
    by_cases h3 : config.columns > 1 ∧ st.col < config.columns - 1
    · rw [assignLine_overflow_col config st dl h h2 h3, if_pos h3]
      exact ⟨rfl, rfl, rfl⟩
    · rw [assignLine_overflow_page config st dl h h2 h3, if_neg h3]
      exact ⟨rfl, rfl, rfl⟩

/-- Paragraph metadata used by the concrete pagination examples. -/
def cexMeta : ParagraphMeta := ⟨.left, .paragraph, .none, none, none⟩

/-- A page with content height 10, line height 10 and paragraph spacing 5. -/
def cexConfig : LayoutConfig := ⟨100, 10, 0, 0, 0, 0, 1, 0, 10, 1, 0, 5⟩

/-- A last text line of paragraph 0 (receives paragraph spacing). -/
def cexTextLine : DisplayLine := mkTextLine 0 cexMeta 0 1 [Char.ofNat 97] none true none

/-- A page-break line (paragraph 1). -/
def cexPbLine : DisplayLine :=
  mkMarkerLine 1 cexMeta 1 true false none none none .none none false none none

/-- Claim C2, counterexample: with content height 10, a full-height last text
line followed by a page break leaves the page break assigned to the same
(page 0, column 0) at `y = 15` (paragraph spacing pushed the cursor past the
bottom). The page break is the second line of that column, its effective
height in the claim is 0, and `15 + 0 ≤ 10` fails — so a line after the
first of its column does stay assigned past the column height. -/
theorem assign_overflow_claim_cex :
    ((assign_page_positions [cexTextLine, cexPbLine] cexConfig).map
      (fun l => (l.page_index, l.column_index, l.y_position, l.is_page_break))) =
      [(0, 0, (0 : ℚ), false), (0, 0, (15 : ℚ), true)] ∧
    cexConfig.content_height = 10 ∧ ¬((15 : ℚ) + 0 ≤ 10) := by
  refine ⟨?_, by norm_num [cexConfig, LayoutConfig.content_height], by norm_num⟩
  norm_num [assign_page_positions, assignGo, assignLine, effectiveHeight, cexTextLine,
    cexPbLine, cexConfig, mkTextLine, mkMarkerLine, LayoutConfig.content_height,
    LayoutConfig.line_height_px]

/-- A non-last text line used by the C2 witness (no paragraph spacing). -/
def witTextLine : DisplayLine := mkTextLine 0 cexMeta 0 1 [Char.ofNat 97] none false none

/-- A page tall enough to fit several lines. -/
def witConfig : LayoutConfig := ⟨100, 100, 0, 0, 0, 0, 1, 0, 10, 1, 0, 5⟩

theorem assign_pages_len2 :
    (assign_page_positions [witTextLine, witTextLine] witConfig).length = 2 := by
  simp [assign_page_positions, assignGo_length]

/-- Witness for the amended C2 theorem: two consecutive text lines land in
the same (page 0, column 0) and the second one satisfies the height bound. -/
theorem assign_column_invariant_witness :
    ((assign_page_positions [witTextLine, witTextLine] witConfig).get
        ⟨1, by rw [assign_pages_len2]; omega⟩).y_position +
      effectiveHeight witConfig
        ((assign_page_positions [witTextLine, witTextLine] witConfig).get
          ⟨1, by rw [assign_pages_len2]; omega⟩) ≤
      witConfig.content_height := by
  refine (assign_page_positions_column_invariant [witTextLine, witTextLine] witConfig).1
    0 1 (by rw [assign_pages_len2]; omega) (by rw [assign_pages_len2]; omega)
    (by omega) ?_ ?_ ?_
  · norm_num [assign_page_positions, assignGo, assignLine, effectiveHeight, witTextLine,
      witConfig, mkTextLine, LayoutConfig.content_height, LayoutConfig.line_height_px]
  · norm_num [assign_page_positions, assignGo, assignLine, effectiveHeight, witTextLine,
      witConfig, mkTextLine, LayoutConfig.content_height, LayoutConfig.line_height_px]
  · norm_num [assign_page_positions, assignGo, assignLine, effectiveHeight, witTextLine,
      witConfig, mkTextLine, LayoutConfig.content_height, LayoutConfig.line_height_px]

/-! ### Table merge/split (claims C3, C4) -/

theorem mem_rectRange {lo hi x : Nat} : x ∈ rectRange lo hi ↔ lo ≤ x ∧ x ≤ hi := by
  simp only [rectRange, List.mem_map, List.mem_range]
  constructor
  · rintro ⟨k, hk, rfl⟩
    omega
  · rintro ⟨h1, h2⟩
    exact ⟨x - lo, by omega, by omega⟩

theorem mem_rectPairs {r0 c0 r1 c1 r c : Nat} :
    (r, c) ∈ rectPairs r0 c0 r1 c1 ↔ (r0 ≤ r ∧ r ≤ r1) ∧ c0 ≤ c ∧ c ≤ c1 := by
  simp only [rectPairs, List.mem_flatMap, List.mem_map, mem_rectRange]
  constructor
  · rintro ⟨a, ha, b, hb, h⟩
    obtain ⟨rfl, rfl⟩ := (Prod.mk.injEq a b r c).mp h
    exact ⟨ha, hb⟩
  · rintro ⟨hr, hc⟩
    exact ⟨r, hr, c, hc, rfl⟩

/-- The intact-table well-formedness assumption used for merge validation:
a covered cell records a covering origin weakly above and to its left (the
origin of a merge is the top-left corner of its footprint, per the data
model). -/
def CoveredWF (t : DocumentTable) : Prop :=
  ∀ r c cell br bc, t.get_cell r c = some cell → cell.covered = true →
    cell.covered_by_row = some br → cell.covered_by_col = some bc →
    br ≤ r ∧ bc ≤ c

/-- A position strictly outside the rectangle `(r0,c0)..=(r1,c1)`. -/
def outsideRect (r0 c0 r1 c1 r c : Nat) : Prop :=
  r < r0 ∨ r1 < r ∨ c < c0 ∨ c1 < c

/-- Claim C3: `merge_cells` fails and leaves the table unchanged whenever the
rectangle is out of bounds, degenerate (`r0 > r1` or `c0 > c1`), contains a
cell covered by a merge whose origin lies outside the rectangle, or contains
a merge origin whose extent leaves the rectangle. -/
theorem merge_cells_fails_unchanged (t : DocumentTable) (r0 c0 r1 c1 : Nat)
    (hwf : CoveredWF t)
    (h : r1 ≥ t.num_rows ∨ c1 ≥ t.num_cols ∨ r0 > r1 ∨ c0 > c1 ∨
      (∃ r c cell br bc, ((r0 ≤ r ∧ r ≤ r1) ∧ c0 ≤ c ∧ c ≤ c1) ∧
        t.get_cell r c = some cell ∧ cell.covered = true ∧
        cell.covered_by_row = some br ∧ cell.covered_by_col = some bc ∧
        outsideRect r0 c0 r1 c1 br bc) ∨
      (∃ r c cell, ((r0 ≤ r ∧ r ≤ r1) ∧ c0 ≤ c ∧ c ≤ c1) ∧
        t.get_cell r c = some cell ∧ cell.is_merge_origin = true ∧
        (r + cell.row_span - 1 > r1 ∨ c + cell.col_span - 1 > c1))) :
    t.merge_cells r0 c0 r1 c1 = (false, t) := by
  rw [DocumentTable.merge_cells]
  by_cases hA : r1 ≥ t.num_rows ∨ c1 ≥ t.num_cols
  · rw [if_pos hA]
  · rw [if_neg hA]
    by_cases hB : r0 > r1 ∨ c0 > c1
    · rw [if_pos hB]
    · rw [if_neg hB]
      have hbad : ¬((rectPairs r0 c0 r1 c1).all
          (fun p => mergeCellOk t r0 c0 r1 c1 p.1 p.2) = true) := by
        rcases h with h | h | h | h | h | h
        · exact absurd (Or.inl h) hA
        · exact absurd (Or.inr h) hA
        · exact absurd (Or.inl h) hB
        · exact absurd (Or.inr h) hB
        · -- covered by an outside merge
          obtain ⟨r, c, cell, br, bc, hin, hget, hcov, hbr, hbc, hout⟩ := h
          intro hall
          have hok := List.all_eq_true.mp hall (r, c) (mem_rectPairs.mpr hin)
          rw [mergeCellOk, hget] at hok
          have hle := hwf r c cell br bc hget hcov hbr hbc
          have hlt : br < r0 ∨ bc < c0 := by
            rcases hout with h | h | h | h <;> omega
          simp only [hcov, hbr, hbc, if_true, Bool.and_eq_true] at hok
          have hok2 : ¬(br < r0) ∧ ¬(bc < c0) := by simpa using hok.1
          omega
        · -- an origin extending outside
          obtain ⟨r, c, cell, hin, hget, horig, hout⟩ := h
          intro hall
          have hok := List.all_eq_true.mp hall (r, c) (mem_rectPairs.mpr hin)
          rw [mergeCellOk, hget] at hok
          simp only [horig, if_true, Bool.and_eq_true] at hok
          have hok2 : ¬(r + cell.row_span - 1 > r1) ∧ ¬(c + cell.col_span - 1 > c1) := by
            simpa using hok.2
          omega
      rw [if_pos hbad]

/-- A 2×1 table whose single column holds a vertical 2-cell merge. -/
def wCellOrigin : TableCell := ⟨[Char.ofNat 120], [], .left, none, 1, 2, false, none, none⟩

def wCellCovered : TableCell := ⟨[], [], .left, none, 1, 1, true, some 0, some 0⟩

def wTable : DocumentTable :=
  ⟨[Char.ofNat 116], [⟨[wCellOrigin], none⟩, ⟨[wCellCovered], none⟩], [100], 1,
   "#000000", .percentage⟩

theorem wTable_wf : CoveredWF wTable := by
  intro r c cell br bc hget hcov hbr hbc
  rcases r with _ | _ | r <;> rcases c with _ | c <;>
    simp only [DocumentTable.get_cell, wTable, wCellOrigin, wCellCovered,
      List.getElem?_cons_zero, List.getElem?_cons_succ, List.getElem?_nil,
      Option.bind_eq_bind, Option.some_bind, Option.none_bind,
      Option.some.injEq] at hget
  · rw [← hget] at hcov
    exact absurd hcov (by decide)
  · exact absurd hget (by simp)
  · rw [← hget] at hbr hbc
    simp only [wCellCovered] at hbr hbc
    have hbr0 : br = 0 := by exact (Option.some.injEq _ _).mp hbr.symm
    have hbc0 : bc = 0 := by exact (Option.some.injEq _ _).mp hbc.symm
    omega
  · exact absurd hget (by simp)
  · exact absurd hget (by simp)
  · exact absurd hget (by simp)

/-- Witness for C3: merging just the origin cell of an existing 2-cell merge
fails (the origin's extent leaves the rectangle) and the table is returned
unchanged. -/
theorem merge_cells_fails_witness : wTable.merge_cells 0 0 0 0 = (false, wTable) :=
  merge_cells_fails_unchanged wTable 0 0 0 0 wTable_wf
    (Or.inr (Or.inr (Or.inr (Or.inr (Or.inr
      ⟨0, 0, wCellOrigin, ⟨⟨le_refl 0, le_refl 0⟩, le_refl 0, le_refl 0⟩,
        by decide, by decide, Or.inl (by decide)⟩)))))

theorem modifyIdx_getElem? (f : α → α) :
    ∀ (n : Nat) (l : List α) (m : Nat),
      (modifyIdx f n l)[m]? = if n = m then (l[m]?).map f else l[m]?
  | _, [], m => by simp [modifyIdx]
  | 0, x :: xs, 0 => by simp [modifyIdx]
  | 0, x :: xs, m + 1 => by simp [modifyIdx]
  | n + 1, x :: xs, 0 => by simp [modifyIdx]
  | n + 1, x :: xs, m + 1 => by
    simp only [modifyIdx, List.getElem?_cons_succ]
    rw [modifyIdx_getElem? f n xs m]
    by_cases h : n = m
    · simp [h]
    · simp [h, fun hc => h (Nat.succ_injective hc)]

theorem modifyIdx_length (f : α → α) :
    ∀ (n : Nat) (l : List α), (modifyIdx f n l).length = l.length
  | n, [] => by cases n <;> rfl
  | 0, x :: xs => rfl
  | n + 1, x :: xs => by simp [modifyIdx, modifyIdx_length f n xs]

/-- `get_cell` after `setCell`: the targeted cell is mapped, others are
untouched. -/
theorem get_cell_setCell (t : DocumentTable) (r c : Nat) (f : TableCell → TableCell)
    (r2 c2 : Nat) :
    (t.setCell r c f).get_cell r2 c2 =
      if r = r2 ∧ c = c2 then (t.get_cell r2 c2).map f else t.get_cell r2 c2 := by
  show ((modifyIdx (fun row => { row with cells := modifyIdx f c row.cells }) r
    t.rows)[r2]?.bind (fun row => row.cells[c2]?)) = _
  rw [modifyIdx_getElem?]
  by_cases hr : r = r2
  · rw [if_pos hr, DocumentTable.get_cell]
    cases ht : t.rows[r2]? with
    | none =>
      simp only [Option.map_none, Option.none_bind]
      by_cases hc : c = c2 <;> simp [hc]
    | some row =>
      simp only [Option.map_some, Option.some_bind]
      show (modifyIdx f c row.cells)[c2]? = _
      rw [modifyIdx_getElem?]
      by_cases hc : c = c2
      · rw [if_pos hc, if_pos ⟨hr, hc⟩]
      · rw [if_neg hc, if_neg (fun h : r = r2 ∧ c = c2 => hc h.2)]
  · rw [if_neg hr, if_neg (fun h : r = r2 ∧ c = c2 => hr h.1), DocumentTable.get_cell]

/-- `setCell` leaves the grid dimensions unchanged. -/
theorem setCell_struct (t : DocumentTable) (r c : Nat) (f : TableCell → TableCell) :
    (t.setCell r c f).rows.length = t.rows.length ∧
    (∀ i : Nat, ((t.setCell r c f).rows[i]?.map (fun row : TableRow => row.cells.length)) =
      (t.rows[i]?.map (fun row : TableRow => row.cells.length))) ∧
    (t.setCell r c f).column_widths = t.column_widths := by
  refine ⟨modifyIdx_length _ _ _, ?_, rfl⟩
  intro i
  show ((modifyIdx (fun row : TableRow => { row with cells := modifyIdx f c row.cells }) r
      t.rows)[i]?.map (fun row : TableRow => row.cells.length)) =
    (t.rows[i]?.map (fun row : TableRow => row.cells.length))
  rw [modifyIdx_getElem?]
  by_cases h : r = i
  · rw [if_pos h]
    cases t.rows[i]? with
    | none => rfl
    | some row => simp [modifyIdx_length]
  · rw [if_neg h]

/-- The covered/uncovered marking loops of `merge_cells` and `split_cell`:
a fold of `setCell f` over a pair list, skipping the origin `o`. For an
idempotent `f` the result at any position is `f` applied once when the
position is a non-origin member of the list, the original cell otherwise. -/
theorem foldl_setCell_get_cell (f : TableCell → TableCell)
    (hf : ∀ x, f (f x) = f x) (o1 o2 : Nat) :
    ∀ (ps : List (Nat × Nat)) (t : DocumentTable) (r c : Nat),
      (ps.foldl (fun acc p =>
        if p.1 = o1 ∧ p.2 = o2 then acc else acc.setCell p.1 p.2 f) t).get_cell r c =
      if (r, c) ∈ ps ∧ ¬(r = o1 ∧ c = o2) then (t.get_cell r c).map f
      else t.get_cell r c
  | [], t, r, c => by simp
  | p0 :: ps, t, r, c => by
    rw [List.foldl_cons]
    by_cases hp : p0.1 = o1 ∧ p0.2 = o2
    · -- the step skips the origin
      have hstep : (if p0.1 = o1 ∧ p0.2 = o2 then t else t.setCell p0.1 p0.2 f) = t :=
        if_pos hp
      rw [hstep, foldl_setCell_get_cell f hf o1 o2 ps t r c]
      by_cases hmem : (r, c) ∈ ps ∧ ¬(r = o1 ∧ c = o2)
      · rw [if_pos hmem, if_pos ⟨List.mem_cons_of_mem p0 hmem.1, hmem.2⟩]
      · have : ¬((r, c) ∈ p0 :: ps ∧ ¬(r = o1 ∧ c = o2)) := by
          rintro ⟨hm, hno⟩
          rcases List.mem_cons.mp hm with hm | hm
          · exact hno ⟨(congrArg Prod.fst hm).trans hp.1,
              (congrArg Prod.snd hm).trans hp.2⟩
          · exact hmem ⟨hm, hno⟩
        rw [if_neg hmem, if_neg this]
    · have hstep : (if p0.1 = o1 ∧ p0.2 = o2 then t else t.setCell p0.1 p0.2 f) =
          t.setCell p0.1 p0.2 f := if_neg hp
      rw [hstep, foldl_setCell_get_cell f hf o1 o2 ps _ r c, get_cell_setCell]
      by_cases hpc : p0.1 = r ∧ p0.2 = c
      · -- the step touched (r, c); note (r, c) is then not the origin
        have hno : ¬(r = o1 ∧ c = o2) := by
          rintro ⟨h1, h2⟩
          exact hp ⟨hpc.1.trans h1, hpc.2.trans h2⟩
        have hmc : (r, c) ∈ p0 :: ps := by
          have : p0 = (r, c) := Prod.ext hpc.1 hpc.2
          rw [this]
          exact List.mem_cons_self _ _
        rw [if_pos hpc,
          if_pos (⟨hmc, hno⟩ : (r, c) ∈ p0 :: ps ∧ ¬(r = o1 ∧ c = o2))]
        by_cases hmem : (r, c) ∈ ps ∧ ¬(r = o1 ∧ c = o2)
        · rw [if_pos hmem, Option.map_map]
          have hff : f ∘ f = f := funext hf
          rw [hff]
        · rw [if_neg hmem]
      · rw [if_neg hpc]
        by_cases hmem : (r, c) ∈ ps ∧ ¬(r = o1 ∧ c = o2)
        · rw [if_pos hmem, if_pos ⟨List.mem_cons_of_mem p0 hmem.1, hmem.2⟩]
        · have : ¬((r, c) ∈ p0 :: ps ∧ ¬(r = o1 ∧ c = o2)) := by
            rintro ⟨hm, hno⟩
            rcases List.mem_cons.mp hm with hm | hm
            · exact hpc ⟨congrArg Prod.fst hm.symm, congrArg Prod.snd hm.symm⟩
            · exact hmem ⟨hm, hno⟩
          rw [if_neg hmem, if_neg this]

/-- The marking folds leave the grid dimensions unchanged. -/
theorem foldl_setCell_struct (f : TableCell → TableCell) (o1 o2 : Nat) :
    ∀ (ps : List (Nat × Nat)) (t : DocumentTable),
      ((ps.foldl (fun acc p =>
        if p.1 = o1 ∧ p.2 = o2 then acc else acc.setCell p.1 p.2 f) t).rows.length =
        t.rows.length) ∧
      (∀ i : Nat, ((ps.foldl (fun acc p =>
        if p.1 = o1 ∧ p.2 = o2 then acc else acc.setCell p.1 p.2 f) t).rows[i]?.map
          (fun row : TableRow => row.cells.length)) =
        (t.rows[i]?.map (fun row : TableRow => row.cells.length)))
  | [], t => ⟨rfl, fun _ => rfl⟩
  | p0 :: ps, t => by
    rw [List.foldl_cons]
    by_cases hp : p0.1 = o1 ∧ p0.2 = o2
    · rw [if_pos hp]
      exact foldl_setCell_struct f o1 o2 ps t
    · rw [if_neg hp]
      obtain ⟨h1, h2⟩ := foldl_setCell_struct f o1 o2 ps (t.setCell p0.1 p0.2 f)
      obtain ⟨g1, g2, -⟩ := setCell_struct t p0.1 p0.2 f
      exact ⟨h1.trans g1, fun i => (h2 i).trans (g2 i)⟩

/-- The update `merge_cells` applies to the origin cell. -/
def mergeOriginF (t : DocumentTable) (r0 c0 r1 c1 : Nat) : TableCell → TableCell :=
  fun origin =>
    { origin with
        text := mergedText t r0 c0 r1 c1
        row_span := r1 - r0 + 1
        col_span := c1 - c0 + 1
        covered := false
        covered_by_row := none
        covered_by_col := none }

/-- The update `merge_cells` applies to the non-origin cells of the
rectangle. -/
def mergeCoverF (r0 c0 : Nat) : TableCell → TableCell :=
  fun cell =>
    { cell with
        text := []
        covered := true
        covered_by_row := some r0
        covered_by_col := some c0
        row_span := 1
        col_span := 1 }

/-- The span reset `split_cell` applies to the origin. -/
def splitResetF : TableCell → TableCell :=
  fun origin => { origin with row_span := 1, col_span := 1 }

/-- The uncovering update `split_cell` applies to the formerly covered
cells. -/
def splitUncoverF (background : Option String) : TableCell → TableCell :=
  fun c =>
    { c with
        covered := false
        covered_by_row := none
        covered_by_col := none
        background := background }

/-- A successful merge, written with the two mutation functions exposed. -/
theorem merge_cells_eq (t : DocumentTable) (r0 c0 r1 c1 : Nat)
    (h1 : ¬(r1 ≥ t.num_rows ∨ c1 ≥ t.num_cols)) (h2 : ¬(r0 > r1 ∨ c0 > c1))
    (h3 : (rectPairs r0 c0 r1 c1).all
      (fun p => mergeCellOk t r0 c0 r1 c1 p.1 p.2) = true) :
    t.merge_cells r0 c0 r1 c1 =
      (true, (rectPairs r0 c0 r1 c1).foldl
        (fun acc p => if p.1 = r0 ∧ p.2 = c0 then acc
          else acc.setCell p.1 p.2 (mergeCoverF r0 c0))
        (t.setCell r0 c0 (mergeOriginF t r0 c0 r1 c1))) := by
  rw [DocumentTable.merge_cells, if_neg h1, if_neg h2, if_neg (not_not_intro h3)]
  rfl

/-- A successful split, with the mutation functions exposed. -/
theorem split_cell_eq (t : DocumentTable) (r c : Nat) (cell : TableCell)
    (hget : t.get_cell r c = some cell) (horig : cell.is_merge_origin = true) :
    t.split_cell r c =
      (true, (rectPairs r c (r + cell.row_span - 1) (c + cell.col_span - 1)).foldl
        (fun acc p => if p.1 = r ∧ p.2 = c then acc
          else acc.setCell p.1 p.2 (splitUncoverF cell.background))
        (t.setCell r c splitResetF)) := by
  simp only [DocumentTable.split_cell, hget]
  rw [if_neg (by rw [horig]; exact fun h => h rfl)]
  rfl

/-- A split on a non-origin cell fails without mutation. -/
theorem split_cell_fail (t : DocumentTable) (r c : Nat) (cell : TableCell)
    (hget : t.get_cell r c = some cell) (horig : cell.is_merge_origin = false) :
    t.split_cell r c = (false, t) := by
  simp only [DocumentTable.split_cell, hget]
  rw [if_pos (by rw [horig]; exact Bool.false_ne_true)]

/-- Claim C4: on a rectangle with no pre-existing merges, `merge_cells`
succeeds, and following it with `split_cell` at the origin restores the
topology: every cell of the rectangle is uncovered, spans 1×1 and carries no
covered-by pointers, and the grid dimensions are unchanged. (For a 1×1
rectangle the split call fails — the origin is not a merge origin — but the
restored-topology conclusion holds all the same.) -/
theorem merge_then_split_restores (t : DocumentTable) (r0 c0 r1 c1 : Nat)
    (hr1 : r1 < t.num_rows) (hc1 : c1 < t.num_cols) (hr : r0 ≤ r1) (hc : c0 ≤ c1)
    (hplain : ∀ r c cell, ((r0 ≤ r ∧ r ≤ r1) ∧ c0 ≤ c ∧ c ≤ c1) →
      t.get_cell r c = some cell →
      cell.covered = false ∧ cell.row_span = 1 ∧ cell.col_span = 1)
    (cell0 : TableCell) (hexist : t.get_cell r0 c0 = some cell0) :
    (t.merge_cells r0 c0 r1 c1).1 = true ∧
    (∀ r c cell, ((r0 ≤ r ∧ r ≤ r1) ∧ c0 ≤ c ∧ c ≤ c1) →
      ((t.merge_cells r0 c0 r1 c1).2.split_cell r0 c0).2.get_cell r c = some cell →
      cell.covered = false ∧ cell.row_span = 1 ∧ cell.col_span = 1 ∧
        cell.covered_by_row = none ∧ cell.covered_by_col = none) ∧
    ((t.merge_cells r0 c0 r1 c1).2.split_cell r0 c0).2.rows.length = t.rows.length ∧
    (∀ i : Nat, ((((t.merge_cells r0 c0 r1 c1).2.split_cell r0 c0).2.rows[i]?.map
        (fun row : TableRow => row.cells.length))) =
      (t.rows[i]?.map (fun row : TableRow => row.cells.length))) := by
  have h1 : ¬(r1 ≥ t.num_rows ∨ c1 ≥ t.num_cols) := by omega
  have h2 : ¬(r0 > r1 ∨ c0 > c1) := by omega
  have h3 : (rectPairs r0 c0 r1 c1).all
      (fun p => mergeCellOk t r0 c0 r1 c1 p.1 p.2) = true := by
    rw [List.all_eq_true]
    rintro ⟨r, c⟩ hmem
    obtain ⟨hrr, hcc⟩ := mem_rectPairs.mp hmem
    show mergeCellOk t r0 c0 r1 c1 r c = true
    rw [mergeCellOk]
    cases hget : t.get_cell r c with
    | none => rfl
    | some cell =>
      obtain ⟨hcov, hrs, hcs⟩ := hplain r c cell ⟨hrr, hcc⟩ hget
      have horig : cell.is_merge_origin = false := by
        rw [TableCell.is_merge_origin, hcov, hrs, hcs]
        rfl
      simp [hcov, horig]
  have hmc := merge_cells_eq t r0 c0 r1 c1 h1 h2 h3
  have hm2 : (t.merge_cells r0 c0 r1 c1).2 =
      List.foldl (fun acc p => if p.1 = r0 ∧ p.2 = c0 then acc
        else acc.setCell p.1 p.2 (mergeCoverF r0 c0))
        (t.setCell r0 c0 (mergeOriginF t r0 c0 r1 c1)) (rectPairs r0 c0 r1 c1) := by
    rw [hmc]
  have hcoverIdem : ∀ x, mergeCoverF r0 c0 (mergeCoverF r0 c0 x) = mergeCoverF r0 c0 x :=
    fun _ => rfl
  have hMget : ∀ r c : Nat, (t.merge_cells r0 c0 r1 c1).2.get_cell r c =
      if (r, c) ∈ rectPairs r0 c0 r1 c1 ∧ ¬(r = r0 ∧ c = c0) then
        ((if r0 = r ∧ c0 = c then
          (t.get_cell r c).map (mergeOriginF t r0 c0 r1 c1)
          else t.get_cell r c)).map (mergeCoverF r0 c0)
      else (if r0 = r ∧ c0 = c then
        (t.get_cell r c).map (mergeOriginF t r0 c0 r1 c1)
        else t.get_cell r c) := by
    intro r c
    rw [hm2, foldl_setCell_get_cell (mergeCoverF r0 c0) hcoverIdem r0 c0, get_cell_setCell]
  have hMorigin : (t.merge_cells r0 c0 r1 c1).2.get_cell r0 c0 =
      some (mergeOriginF t r0 c0 r1 c1 cell0) := by
    rw [hMget r0 c0, if_neg (fun h => h.2 ⟨rfl, rfl⟩), if_pos ⟨rfl, rfl⟩, hexist]
    rfl
  have hMstruct : (t.merge_cells r0 c0 r1 c1).2.rows.length = t.rows.length ∧
      (∀ i : Nat, ((t.merge_cells r0 c0 r1 c1).2.rows[i]?.map
        (fun row : TableRow => row.cells.length)) =
        (t.rows[i]?.map (fun row : TableRow => row.cells.length))) := by
    rw [hm2]
    obtain ⟨f1, f2⟩ := foldl_setCell_struct (mergeCoverF r0 c0) r0 c0
      (rectPairs r0 c0 r1 c1) (t.setCell r0 c0 (mergeOriginF t r0 c0 r1 c1))
    obtain ⟨g1, g2, -⟩ := setCell_struct t r0 c0 (mergeOriginF t r0 c0 r1 c1)
    exact ⟨f1.trans g1, fun i => (f2 i).trans (g2 i)⟩
  refine ⟨by rw [hmc], ?_⟩
  by_cases hsingle : r0 = r1 ∧ c0 = c1
  · -- 1×1 rectangle: the merge is degenerate and the split fails, but the
    -- origin cell already has the restored shape
    have hnorig : (mergeOriginF t r0 c0 r1 c1 cell0).is_merge_origin = false := by
      rw [TableCell.is_merge_origin]
      have e1 : (mergeOriginF t r0 c0 r1 c1 cell0).row_span = r1 - r0 + 1 := rfl
      have e2 : (mergeOriginF t r0 c0 r1 c1 cell0).col_span = c1 - c0 + 1 := rfl
      have e3 : (mergeOriginF t r0 c0 r1 c1 cell0).covered = false := rfl
      rw [e1, e2, e3]
      have : r1 - r0 + 1 = 1 := by omega
      rw [this]
      have : c1 - c0 + 1 = 1 := by omega
      rw [this]
      rfl
    have hsplit := split_cell_fail (t.merge_cells r0 c0 r1 c1).2 r0 c0 _ hMorigin hnorig
    rw [hsplit]
    refine ⟨?_, hMstruct.1, hMstruct.2⟩
    intro r c cell hin hget
    have hre : r = r0 := by omega
    have hce : c = c0 := by omega
    rw [hre, hce, hMorigin] at hget
    obtain rfl := (Option.some.injEq _ _).mp hget.symm
    refine ⟨rfl, ?_, ?_, rfl, rfl⟩
    · show r1 - r0 + 1 = 1
      omega
    · show c1 - c0 + 1 = 1
      omega
  · -- a genuine merge: the split succeeds and uncovers the rectangle
    have horig : (mergeOriginF t r0 c0 r1 c1 cell0).is_merge_origin = true := by
      rw [TableCell.is_merge_origin]
      have e1 : (mergeOriginF t r0 c0 r1 c1 cell0).row_span = r1 - r0 + 1 := rfl
      have e2 : (mergeOriginF t r0 c0 r1 c1 cell0).col_span = c1 - c0 + 1 := rfl
      have e3 : (mergeOriginF t r0 c0 r1 c1 cell0).covered = false := rfl
      rw [e1, e2, e3]
      have hd : (c1 - c0 + 1 > 1) ∨ (r1 - r0 + 1 > 1) := by omega
      rcases hd with hd | hd <;> simp [hd]
    have hsplit := split_cell_eq (t.merge_cells r0 c0 r1 c1).2 r0 c0 _ hMorigin horig
    have erow : r0 + (mergeOriginF t r0 c0 r1 c1 cell0).row_span - 1 = r1 := by
      show r0 + (r1 - r0 + 1) - 1 = r1
      omega
    have ecol : c0 + (mergeOriginF t r0 c0 r1 c1 cell0).col_span - 1 = c1 := by
      show c0 + (c1 - c0 + 1) - 1 = c1
      omega
    rw [erow, ecol] at hsplit
    have ebg : (mergeOriginF t r0 c0 r1 c1 cell0).background = cell0.background := rfl
    rw [ebg] at hsplit
    have huncIdem : ∀ x, splitUncoverF cell0.background (splitUncoverF cell0.background x) =
        splitUncoverF cell0.background x := fun _ => rfl
    have hs2 : ((t.merge_cells r0 c0 r1 c1).2.split_cell r0 c0).2 =
        List.foldl (fun acc p => if p.1 = r0 ∧ p.2 = c0 then acc
          else acc.setCell p.1 p.2 (splitUncoverF cell0.background))
          ((t.merge_cells r0 c0 r1 c1).2.setCell r0 c0 splitResetF)
          (rectPairs r0 c0 r1 c1) := by
      rw [hsplit]
    have hSget : ∀ r c : Nat,
        ((t.merge_cells r0 c0 r1 c1).2.split_cell r0 c0).2.get_cell r c =
        if (r, c) ∈ rectPairs r0 c0 r1 c1 ∧ ¬(r = r0 ∧ c = c0) then
          ((if r0 = r ∧ c0 = c then
            ((t.merge_cells r0 c0 r1 c1).2.get_cell r c).map splitResetF
            else (t.merge_cells r0 c0 r1 c1).2.get_cell r c)).map
            (splitUncoverF cell0.background)
        else (if r0 = r ∧ c0 = c then
          ((t.merge_cells r0 c0 r1 c1).2.get_cell r c).map splitResetF
          else (t.merge_cells r0 c0 r1 c1).2.get_cell r c) := by
      intro r c
      rw [hs2, foldl_setCell_get_cell (splitUncoverF cell0.background) huncIdem r0 c0,
        get_cell_setCell]
    refine ⟨?_, ?_, ?_⟩
    · intro r c cell hin hget
      rw [hSget r c] at hget
      by_cases ho : r = r0 ∧ c = c0
      · obtain ⟨rfl, rfl⟩ := ho
        rw [if_neg (fun h => h.2 ⟨rfl, rfl⟩), if_pos ⟨rfl, rfl⟩, hMorigin] at hget
        obtain rfl := (Option.some.injEq _ _).mp hget.symm
        exact ⟨rfl, rfl, rfl, rfl, rfl⟩
      · have hmem : (r, c) ∈ rectPairs r0 c0 r1 c1 := mem_rectPairs.mpr hin
        have hne : ¬(r0 = r ∧ c0 = c) := fun h => ho ⟨h.1.symm, h.2.symm⟩
        rw [if_pos ⟨hmem, ho⟩, if_neg hne, hMget r c, if_pos ⟨hmem, ho⟩, if_neg hne] at hget
        cases htc : t.get_cell r c with
        | none =>
          rw [htc] at hget
          exact absurd hget (by simp)
        | some x =>
          rw [htc] at hget
          obtain rfl := (Option.some.injEq _ _).mp hget.symm
          exact ⟨rfl, rfl, rfl, rfl, rfl⟩
    · rw [hs2]
      obtain ⟨f1, f2⟩ := foldl_setCell_struct (splitUncoverF cell0.background) r0 c0
        (rectPairs r0 c0 r1 c1) ((t.merge_cells r0 c0 r1 c1).2.setCell r0 c0 splitResetF)
      obtain ⟨g1, -, -⟩ := setCell_struct (t.merge_cells r0 c0 r1 c1).2 r0 c0 splitResetF
      exact (f1.trans g1).trans hMstruct.1
    · intro i
      rw [hs2]
      obtain ⟨f1, f2⟩ := foldl_setCell_struct (splitUncoverF cell0.background) r0 c0
        (rectPairs r0 c0 r1 c1) ((t.merge_cells r0 c0 r1 c1).2.setCell r0 c0 splitResetF)
      obtain ⟨-, g2, -⟩ := setCell_struct (t.merge_cells r0 c0 r1 c1).2 r0 c0 splitResetF
      exact ((f2 i).trans (g2 i)).trans (hMstruct.2 i)

/-- A plain 2×2 table (no merges). -/
def pTable : DocumentTable :=
  ⟨[Char.ofNat 113], [⟨[TableCell.new, TableCell.new], none⟩,
    ⟨[TableCell.new, TableCell.new], none⟩], [50, 50], 1, "#000000", .percentage⟩

theorem pTable_plain : ∀ r c cell, ((0 ≤ r ∧ r ≤ 1) ∧ 0 ≤ c ∧ c ≤ 1) →
    pTable.get_cell r c = some cell →
    cell.covered = false ∧ cell.row_span = 1 ∧ cell.col_span = 1 := by
  intro r c cell hb hget
  have hr : r ≤ 1 := hb.1.2
  have hc : c ≤ 1 := hb.2.2
  interval_cases r <;> interval_cases c <;>
    simp only [pTable, DocumentTable.get_cell, List.getElem?_cons_zero,
      List.getElem?_cons_succ, Option.bind_eq_bind, Option.some_bind,
      Option.some.injEq] at hget <;>
    rw [← hget] <;> exact ⟨rfl, rfl, rfl⟩

/-- Witness for C4 on a concrete plain 2×2 table merged over the full grid
and split again. -/
theorem merge_then_split_witness :
    (pTable.merge_cells 0 0 1 1).1 = true ∧
    (∀ r c cell, ((0 ≤ r ∧ r ≤ 1) ∧ 0 ≤ c ∧ c ≤ 1) →
      ((pTable.merge_cells 0 0 1 1).2.split_cell 0 0).2.get_cell r c = some cell →
      cell.covered = false ∧ cell.row_span = 1 ∧ cell.col_span = 1 ∧
        cell.covered_by_row = none ∧ cell.covered_by_col = none) ∧
    ((pTable.merge_cells 0 0 1 1).2.split_cell 0 0).2.rows.length = pTable.rows.length ∧
    (∀ i : Nat, ((((pTable.merge_cells 0 0 1 1).2.split_cell 0 0).2.rows[i]?.map
        (fun row : TableRow => row.cells.length))) =
      (pTable.rows[i]?.map (fun row : TableRow => row.cells.length))) :=
  merge_then_split_restores pTable 0 0 1 1 (by decide) (by decide) (by decide) (by decide)
    pTable_plain TableCell.new (by decide)

/-! ### List numbering (claim C7) -/

def c7Meta (lt : ListType) : ParagraphMeta := ⟨.left, .paragraph, lt, none, none⟩

def c7Config : LayoutConfig := ⟨100, 1000, 0, 0, 0, 0, 1, 0, 16, 1, 0, 0⟩

/-- numbered "a", bullet "b", numbered "c". -/
def docC7 : Document :=
  ⟨1, [⟨[Char.ofNat 97], c7Meta .numbered, []⟩, ⟨[Char.ofNat 98], c7Meta .bullet, []⟩,
    ⟨[Char.ofNat 99], c7Meta .numbered, []⟩], [], []⟩

/-- Claim C7, counterexample: a numbered paragraph, then a bullet paragraph,
then a numbered paragraph. The claim says the bullet clears the running
count, so the last paragraph should be numbered 1; the engine numbers it 2
(a bullet paragraph leaves the counter untouched — only list type `none`
clears it). -/
theorem bullet_resets_counter_cex :
    (compute_layout docC7 c7Config measureErr).map
      (fun ls => ls.map (fun l => l.list_number)) = some [some 1, none, some 2] ∧
    (some 2 : Option Nat) ≠ some 1 := by
  refine ⟨?_, by decide⟩
  have u97 : (Char.ofNat 97).utf8Size = 1 := rfl
  have u98 : (Char.ofNat 98).utf8Size = 1 := rfl
  have u99 : (Char.ofNat 99).utf8Size = 1 := rfl
  have n97 : ¬(Char.ofNat 97 = Char.ofNat 0xFFFD) := by decide
  have n98 : ¬(Char.ofNat 98 = Char.ofNat 0xFFFD) := by decide
  have n99 : ¬(Char.ofNat 99 = Char.ofNat 0xFFFD) := by decide
  have ln : ListType.numbered ≠ ListType.none := by decide
  have lb : ListType.bullet ≠ ListType.none := by decide
  norm_num [compute_layout, layoutParagraphsGo, layout_paragraph, docC7, c7Config, c7Meta,
    prePassFloats, Paragraph.is_page_break, Paragraph.is_image, Paragraph.is_table,
    Paragraph.table_id, Paragraph.image_id, updateListCounters, wrapGo, markLast,
    measure_text, measureErr, byteLen, get_float_reduction, LayoutConfig.column_width,
    LayoutConfig.content_width, LayoutConfig.line_height_px, mkTextLine,
    assign_page_positions, assignGo, assignLine, effectiveHeight,
    LayoutConfig.content_height, BlockType.font_size_multiplier,
    u97, u98, u99, n97, n98, n99, ln, lb]

/-- Claim C7, amended: during the wrapping pass the numbered-list counter
(the last entry of `list_counters`) is incremented by each numbered
paragraph, cleared by a list-type-`none` paragraph, and left untouched by a
bullet paragraph — numbering therefore resumes (does not restart at 1)
after a bullet. Non-marker paragraphs thread their counters exactly through
`updateListCounters`. -/
theorem list_counter_rules :
    (∀ cs : List Nat,
      (updateListCounters .numbered cs).1 = some ((cs.getLast?.getD 0) + 1) ∧
      (updateListCounters .numbered cs).2.getLast? = some ((cs.getLast?.getD 0) + 1)) ∧
    (∀ cs : List Nat, updateListCounters .bullet cs = (none, cs)) ∧
    (∀ cs : List Nat, updateListCounters .none cs = (none, [])) ∧
    (∀ cs : List Nat,
      (updateListCounters .numbered (updateListCounters .bullet cs).2).1 =
        some ((cs.getLast?.getD 0) + 1)) ∧
    (∀ (m : MeasureFn) (config : LayoutConfig) (para_idx : Nat) (para : Paragraph)
      (document : Document) (floats : List ActiveFloat) (cs : List Nat) (count : Nat)
      (ls : List DisplayLine) (fl : List ActiveFloat) (cs2 : List Nat),
      para.is_page_break = false → para.is_table = false → para.is_image = false →
      layout_paragraph m config para_idx para document floats cs count =
        some (ls, fl, cs2) →
      cs2 = (updateListCounters para.meta.list_type cs).2) := by
  refine ⟨?_, fun _ => rfl, fun _ => rfl, ?_, ?_⟩
  · intro cs
    refine ⟨rfl, ?_⟩
    show (if cs.isEmpty then [cs.getLast?.getD 0 + 1]
      else cs.dropLast ++ [cs.getLast?.getD 0 + 1]).getLast? = _
    cases cs with
    | nil => rfl
    | cons a as =>
      rw [if_neg (by simp)]
      simp
  · intro cs
    rfl
  · intro m config para_idx para document floats cs count ls fl cs2 hpb htab himg h
    rw [layout_paragraph] at h
    simp only [hpb, Bool.false_eq_true, if_false, Paragraph.table_id, htab,
      Paragraph.image_id, himg, Option.none_bind] at h
    by_cases htext : para.text = []
    · rw [if_pos htext] at h
      exact (congrArg (fun p : List DisplayLine × List ActiveFloat × List Nat => p.2.2)
        ((Option.some.injEq _ _).mp h)).symm
    · rw [if_neg htext] at h
      obtain ⟨w, -, hw⟩ := Option.map_eq_some'.mp h
      exact (congrArg (fun p : List DisplayLine × List ActiveFloat × List Nat => p.2.2)
        hw).symm

/-- An empty numbered paragraph and an empty document, for the C7 witness. -/
def c7NumPara : Paragraph := ⟨[], c7Meta .numbered, []⟩

def c7EmptyDoc : Document := ⟨1, [c7NumPara], [], []⟩

/-- Witness for the amended C7 theorem: laying out an empty numbered
paragraph from empty counters leaves the counter stack at `[1]`, as
`updateListCounters` prescribes. -/
theorem list_counter_rules_witness :
    (layout_paragraph measureErr LayoutConfig.default 0 c7NumPara c7EmptyDoc [] [] 0).map
      (fun r => r.2.2) = some (updateListCounters ListType.numbered []).2 := by
  have hev : layout_paragraph measureErr LayoutConfig.default 0 c7NumPara c7EmptyDoc
      [] [] 0 = some ([mkTextLine 0 (c7Meta .numbered) 0 0 [] (some 1) true none], [], [1]) := by
    rfl
  rw [hev]
  show some ([1] : List Nat) = some (updateListCounters ListType.numbered []).2
  exact congrArg some (list_counter_rules.2.2.2.2 measureErr LayoutConfig.default 0
    c7NumPara c7EmptyDoc [] [] 0 _ _ _ rfl rfl rfl hev).symm

/-! ### Structure of the wrapped output (claims C1, C8, C10) -/

theorem byteLen_append (a b : List Char) : byteLen (a ++ b) = byteLen a + byteLen b := by
  simp [byteLen]

theorem byteLen_cons (c : Char) (l : List Char) :
    byteLen (c :: l) = c.utf8Size + byteLen l := by
  simp [byteLen]

theorem takeBytes_spec :
    ∀ (l : List Char) (n : Nat) (a b : List Char),
      takeBytes n l = some (a, b) → a ++ b = l ∧ byteLen a = n
  | l, 0, a, b => by
    intro h
    rw [takeBytes] at h
    obtain ⟨rfl, rfl⟩ := Prod.mk.injEq .. ▸ (Option.some.injEq _ _).mp h
    exact ⟨rfl, rfl⟩
  | [], n + 1, a, b => by
    intro h
    rw [takeBytes] at h
    exact absurd h (by simp)
  | c :: rest, n + 1, a, b => by
    intro h
    rw [takeBytes] at h
    by_cases hsz : c.utf8Size ≤ n + 1
    · rw [if_pos hsz] at h
      obtain ⟨⟨a2, b2⟩, h1, h2⟩ := Option.map_eq_some'.mp h
      obtain ⟨ha, hb⟩ := Prod.mk.injEq .. ▸ h2
      obtain ⟨hab, hlen⟩ := takeBytes_spec rest (n + 1 - c.utf8Size) a2 b2 h1
      have hu : c.utf8Size ≥ 1 := Char.utf8Size_pos c
      subst ha hb
      constructor
      · rw [List.cons_append, hab]
      · rw [byteLen_cons, hlen]
        omega
    · rw [if_neg hsz] at h
      exact absurd h (by simp)

theorem findLineEnd_gt (m : MeasureFn) (fs ls avail : ℚ) (cs : Nat) (remaining : List Char) :
    cs < findLineEnd m fs ls avail cs remaining := by
  rw [findLineEnd]
  by_cases h : findLineEndGo m fs ls avail cs remaining [] cs cs cs ≤ cs
  · rw [if_pos h]
    omega
  · rw [if_neg h]
    omega

/-- `markLast` only modifies the final line, and only its flag. -/
theorem markLast_map_core (f : DisplayLine → α)
    (hf : ∀ l, f { l with is_last_line := true } = f l) :
    ∀ ls : List DisplayLine, (markLast ls).map f = ls.map f
  | [] => rfl
  | [l] => by simp [markLast, hf]
  | l :: l2 :: rest => by
    simp only [markLast, List.map_cons]
    rw [show (markLast (l2 :: rest)).map f = (l2 :: rest).map f from
      markLast_map_core f hf (l2 :: rest)]
    simp

theorem markLast_length : ∀ ls : List DisplayLine, (markLast ls).length = ls.length
  | [] => rfl
  | [l] => rfl
  | l :: l2 :: rest => by
    simp only [markLast, List.length_cons]
    rw [markLast_length (l2 :: rest)]
    simp

theorem markLast_getLast_flag :
    ∀ (ls : List DisplayLine) (l : DisplayLine),
      (markLast ls).getLast? = some l → l.is_last_line = true
  | [], l => by simp [markLast]
  | [l0], l => by
    intro h
    simp only [markLast, List.getLast?_singleton, Option.some.injEq] at h
    rw [← h]
  | l0 :: l1 :: rest, l => by
    intro h
    simp only [markLast] at h
    cases hrest : markLast (l1 :: rest) with
    | nil =>
      have hlen := markLast_length (l1 :: rest)
      rw [hrest] at hlen
      simp at hlen
    | cons x xs =>
      rw [hrest, List.getLast?_cons_cons] at h
      exact markLast_getLast_flag (l1 :: rest) l (by rw [hrest]; exact h)

/-- Shape of the output of the wrapping loop: lines carry the paragraph
index, tile the byte range `[cs, tlen]` contiguously (each covering exactly
its own text), concatenate back to the remaining text, and only the final
line may carry the last-line flag. -/
theorem wrapGo_spec (m : MeasureFn) (config : LayoutConfig) (para_idx : Nat)
    (meta : ParagraphMeta) (ln : Option Nat) (fs baw lh cw : ℚ)
    (floats : List ActiveFloat) (count tlen : Nat) :
    ∀ (fuel : Nat) (remaining : List Char) (cs k : Nat) (ls : List DisplayLine),
      cs + byteLen remaining = tlen →
      wrapGo m config para_idx meta ln fs baw lh cw floats count tlen
        fuel remaining cs k = some ls →
      (remaining = [] → ls = []) ∧ (remaining ≠ [] → ls ≠ []) ∧
      (∀ l ∈ ls, l.para_index = para_idx ∧ l.is_page_break = false ∧
        l.is_image = false ∧ l.is_table = false ∧
        l.start_offset + byteLen l.text = l.end_offset) ∧
      (∀ l, ls.head? = some l → l.start_offset = cs) ∧
      ls.Chain' (fun a b => a.end_offset = b.start_offset) ∧
      (∀ l, ls.getLast? = some l → l.end_offset = tlen) ∧
      ((ls.map (fun l => l.text)).flatten = remaining) ∧
      (∀ (i : Nat) (hi : i < ls.length), i + 1 < ls.length →
        (ls.get ⟨i, hi⟩).is_last_line = false)
  | 0, remaining, cs, k, ls => by
    intro _ h
    exact absurd h (by rw [wrapGo]; simp)
  | fuel + 1, [], cs, k, ls => by
    intro htlen h
    rw [wrapGo] at h
    obtain rfl := (Option.some.injEq _ _).mp h
    refine ⟨fun _ => rfl, fun hne => absurd rfl hne, by simp, by simp, by simp, by simp,
      rfl, ?_⟩
    intro i hi
    simp at hi
  | fuel + 1, c0 :: rem, cs, k, ls => by
    intro htlen h
    simp only [wrapGo] at h
    split at h
    · -- the remaining text fits: a single final line
      obtain rfl := (Option.some.injEq _ _).mp h
      refine ⟨fun hc => absurd hc (by simp), fun _ => by simp, ?_, ?_, ?_, ?_, ?_, ?_⟩
      · intro l hl
        rw [List.mem_singleton] at hl
        subst hl
        exact ⟨rfl, rfl, rfl, rfl, htlen⟩
      · intro l hl
        obtain rfl := (Option.some.injEq _ _).mp hl
        rfl
      · simp
      · intro l hl
        simp only [List.getLast?_singleton, Option.some.injEq] at hl
        rw [← hl]
        rfl
      · simp [mkTextLine]
      · intro i hi h2
        simp only [List.length_singleton] at hi h2
        omega
    · -- break the line
      rename_i hfit
      split at h
      · exact absurd h (by simp)
      · rename_i taken rest heq
        obtain ⟨ls2, hw, rfl⟩ := Option.map_eq_some'.mp h
        obtain ⟨hcat, hlen⟩ := takeBytes_spec _ _ _ _ heq
        set fr := get_float_reduction floats (count + k) (((count + k : ℕ) : ℚ) * lh) lh cw
          with hfr
        set aw : ℚ := baw - (Option.map (fun f => f.width + (10 : ℚ)) fr).getD 0 with haw
        set le := findLineEnd m fs config.letter_spacing aw cs (c0 :: rem) with hle
        have hgt : cs < le := hle ▸ findLineEnd_gt m fs config.letter_spacing aw cs (c0 :: rem)
        have hblen : byteLen taken + byteLen rest = byteLen (c0 :: rem) := by
          rw [← hcat, byteLen_append]
        have htlen2 : le + byteLen rest = tlen := by omega
        obtain ⟨ihA, ihB, ihC, ihD, ihE, ihF, ihG, ihH⟩ :=
          wrapGo_spec m config para_idx meta ln fs baw lh cw floats count tlen
            fuel rest le (k + 1) ls2 htlen2 hw
        have hnlstart : (mkTextLine para_idx meta cs le taken
            (if k = 0 then ln else none) false fr).start_offset = cs := rfl
        have hnlend : (mkTextLine para_idx meta cs le taken
            (if k = 0 then ln else none) false fr).end_offset = le := rfl
        have hnltext : (mkTextLine para_idx meta cs le taken
            (if k = 0 then ln else none) false fr).text = taken := rfl
        refine ⟨fun hc => absurd hc (by simp), fun _ => by simp, ?_, ?_, ?_, ?_, ?_, ?_⟩
        · intro l hl
          rcases List.mem_cons.mp hl with rfl | hl
          · exact ⟨rfl, rfl, rfl, rfl, by rw [hnlstart, hnltext, hnlend]; omega⟩
          · exact ihC l hl
        · intro l hl
          obtain rfl := (Option.some.injEq _ _).mp hl
          exact hnlstart
        · rw [List.chain'_cons']
          refine ⟨?_, ihE⟩
          intro b hb
          rw [hnlend, ihD b hb]
        · intro l hl
          cases hls2 : ls2 with
          | nil =>
            rw [hls2] at hl
            simp only [List.getLast?_singleton, Option.some.injEq] at hl
            have hrest : rest = [] := by
              have := ihG
              rw [hls2] at this
              simpa using this.symm
            rw [← hl, hnlend]
            rw [hrest] at htlen2
            simpa [byteLen] using htlen2
          | cons x xs =>
            rw [hls2, List.getLast?_cons_cons] at hl
            exact ihF l (by rw [hls2]; exact hl)
        · simp only [List.map_cons, List.flatten_cons, hnltext, ihG]
          exact hcat
        · intro i hi h2
          cases i with
          | zero => rfl
          | succ i =>
            simp only [List.length_cons] at hi h2
            exact ihH i (by omega) (by omega)

theorem markLast_mem :
    ∀ (ls : List DisplayLine) (l : DisplayLine), l ∈ markLast ls →
      ∃ l0 ∈ ls, l = l0 ∨ l = { l0 with is_last_line := true }
  | [], l, h => by simp [markLast] at h
  | [l0], l, h => by
    simp only [markLast, List.mem_singleton] at h
    exact ⟨l0, List.mem_singleton_self l0, Or.inr h⟩
  | l0 :: l1 :: rest, l, h => by
    simp only [markLast, List.mem_cons] at h
    rcases h with rfl | h
    · exact ⟨l, List.mem_cons_self _ _, Or.inl rfl⟩
    · obtain ⟨x, hx, hor⟩ := markLast_mem (l1 :: rest) l h
      exact ⟨x, List.mem_cons_of_mem l0 hx, hor⟩

theorem markLast_head? :
    ∀ (ls : List DisplayLine) (l : DisplayLine), (markLast ls).head? = some l →
      ∃ l0, ls.head? = some l0 ∧ (l = l0 ∨ l = { l0 with is_last_line := true })
  | [], l, h => by simp [markLast] at h
  | [l0], l, h => by
    simp only [markLast, List.head?_cons, Option.some.injEq] at h
    exact ⟨l0, rfl, Or.inr h.symm⟩
  | l0 :: l1 :: rest, l, h => by
    simp only [markLast, List.head?_cons, Option.some.injEq] at h
    exact ⟨l0, rfl, Or.inl h.symm⟩

theorem markLast_chain :
    ∀ ls : List DisplayLine, ls.Chain' (fun a b => a.end_offset = b.start_offset) →
      (markLast ls).Chain' (fun a b => a.end_offset = b.start_offset)
  | [], _ => by simp [markLast]
  | [l0], _ => by simp [markLast]
  | l0 :: l1 :: rest, h => by
    rw [List.chain'_cons'] at h
    simp only [markLast]
    rw [List.chain'_cons']
    refine ⟨?_, markLast_chain (l1 :: rest) h.2⟩
    intro b hb
    obtain ⟨b0, hb0, hor⟩ := markLast_head? (l1 :: rest) b hb
    have := h.1 b0 hb0
    rcases hor with rfl | rfl
    · exact this
    · exact this

theorem markLast_getLast? :
    ∀ (ls : List DisplayLine) (l : DisplayLine), (markLast ls).getLast? = some l →
      ∃ l0, ls.getLast? = some l0 ∧ l = { l0 with is_last_line := true }
  | [], l, h => by simp [markLast] at h
  | [l0], l, h => by
    simp only [markLast, List.getLast?_singleton, Option.some.injEq] at h
    exact ⟨l0, rfl, h.symm⟩
  | l0 :: l1 :: rest, l, h => by
    simp only [markLast] at h
    cases hrest : markLast (l1 :: rest) with
    | nil =>
      have hlen := markLast_length (l1 :: rest)
      rw [hrest] at hlen
      simp at hlen
    | cons x xs =>
      rw [hrest, List.getLast?_cons_cons] at h
      obtain ⟨l0b, hl0b, heq⟩ := markLast_getLast? (l1 :: rest) l (by rw [hrest]; exact h)
      exact ⟨l0b, by rw [List.getLast?_cons_cons]; exact hl0b, heq⟩

theorem markLast_get_of_not_last :
    ∀ (ls : List DisplayLine) (i : Nat) (hi : i < (markLast ls).length)
      (hi2 : i < ls.length), i + 1 < ls.length →
      (markLast ls).get ⟨i, hi⟩ = ls.get ⟨i, hi2⟩
  | [], i, hi, hi2, h => by simp at hi2
  | [l0], i, hi, hi2, h => by
    simp only [List.length_singleton] at h
    omega
  | l0 :: l1 :: rest, 0, hi, hi2, h => rfl
  | l0 :: l1 :: rest, i + 1, hi, hi2, h => by
    have hi3 : i < (markLast (l1 :: rest)).length := by
      rw [markLast_length]
      simp only [List.length_cons] at hi2 ⊢
      omega
    have hi4 : i < (l1 :: rest).length := by
      simp only [List.length_cons] at hi2 ⊢
      omega
    show (markLast (l1 :: rest)).get ⟨i, hi3⟩ = (l1 :: rest).get ⟨i, hi4⟩
    exact markLast_get_of_not_last (l1 :: rest) i hi3 hi4 (by
      simp only [List.length_cons] at h ⊢
      omega)

/-- A paragraph handled by the plain-text wrapping path of
`layout_paragraph`: neither a page break, nor a marker that resolves to an
existing table or image. Dangling markers fall through to this path. -/
def isTextPath (document : Document) (para : Paragraph) : Prop :=
  para.is_page_break = false ∧
  (para.table_id.bind (fun tid =>
    (document.tables.find? (fun t => t.id == tid)).map (fun t => (tid, t)))) = none ∧
  (para.image_id.bind (fun iid =>
    (document.images.find? (fun img => img.id == iid)).map (fun img => (iid, img)))) = none

theorem byteLen_pos_of_ne_nil {l : List Char} (h : l ≠ []) : 0 < byteLen l := by
  cases l with
  | nil => exact absurd rfl h
  | cons c rest =>
    rw [byteLen_cons]
    have := Char.utf8Size_pos c
    omega

/-- Output shape of `layout_paragraph`: at least one line, all lines carry
the paragraph index; on the text path the lines tile `[0, byteLen text]`
contiguously and carry the text, with exactly the last line flagged; marker
lines are empty with a positive end offset. -/
theorem layout_paragraph_spec (m : MeasureFn) (config : LayoutConfig) (para_idx : Nat)
    (para : Paragraph) (document : Document) (floats : List ActiveFloat)
    (cs : List Nat) (count : Nat) (ls : List DisplayLine) (fl : List ActiveFloat)
    (cs2 : List Nat)
    (h : layout_paragraph m config para_idx para document floats cs count =
      some (ls, fl, cs2)) :
    ls ≠ [] ∧
    (∀ l ∈ ls, l.para_index = para_idx) ∧
    (isTextPath document para →
      (∀ l ∈ ls, l.is_page_break = false ∧ l.is_image = false ∧ l.is_table = false ∧
        l.start_offset + byteLen l.text = l.end_offset) ∧
      (∀ l, ls.head? = some l → l.start_offset = 0) ∧
      ls.Chain' (fun a b => a.end_offset = b.start_offset) ∧
      (∀ l, ls.getLast? = some l → l.end_offset = byteLen para.text) ∧
      ((ls.map (fun l => l.text)).flatten = para.text) ∧
      (∀ l, ls.getLast? = some l → l.is_last_line = true) ∧
      (∀ (i : Nat) (hi : i < ls.length), i + 1 < ls.length →
        (ls.get ⟨i, hi⟩).is_last_line = false)) ∧
    (¬isTextPath document para →
      ∀ l ∈ ls, l.text = [] ∧ l.start_offset = 0 ∧ 0 < l.end_offset) := by
  have goalOf : ∀ ls2 : List DisplayLine, ls2 = ls → True := fun _ _ => trivial
  clear goalOf
  rw [layout_paragraph] at h
  split at h
  · -- page break marker
    obtain rfl : ls = [mkMarkerLine para_idx para.meta 1 true false none none none
      para.meta.list_type none false none none] :=
      (congrArg Prod.fst ((Option.some.injEq _ _).mp h)).symm
    rename_i hpb
    refine ⟨by simp, ?_, ?_, ?_⟩
    · intro l hl
      rw [List.mem_singleton] at hl
      rw [hl]
      rfl
    · intro htp
      rw [htp.1] at hpb
      exact absurd hpb (by simp)
    · intro _ l hl
      rw [List.mem_singleton] at hl
      rw [hl]
      exact ⟨rfl, rfl, Nat.one_pos⟩
  · rename_i hpb
    split at h
    · -- resolved table marker
      rename_i p htab
      obtain ⟨tid, table⟩ := p
      obtain ⟨tl, -, heq⟩ := Option.map_eq_some'.mp h
      obtain rfl : ls = [mkMarkerLine para_idx para.meta (byteLen para.text) false false
          none (some (tl.total_height / config.line_height_px)) none .none none
          true (some tid) (some tl)] :=
        (congrArg Prod.fst heq).symm
      have htext : para.text ≠ [] := by
        by_contra hc
        have h1 : para.is_table = false := by
          rw [Paragraph.is_table, hc]
        rw [Paragraph.table_id, if_neg (by rw [h1]; simp)] at htab
        simp at htab
      refine ⟨by simp, ?_, ?_, ?_⟩
      · intro l hl
        rw [List.mem_singleton] at hl
        rw [hl]
        rfl
      · intro htp
        exact absurd (htab.symm.trans htp.2.1) (by simp)
      · intro _ l hl
        rw [List.mem_singleton] at hl
        rw [hl]
        exact ⟨rfl, rfl, byteLen_pos_of_ne_nil htext⟩
    · rename_i htab
      split at h
      · -- resolved image marker (four sub-branches, same line shape)
        rename_i p himg
        have htext : para.text ≠ [] := by
          by_contra hc
          have h1 : para.is_image = false := by
            rw [Paragraph.is_image, hc]
          rw [Paragraph.image_id, if_neg (by rw [h1]; simp)] at himg
          simp at himg
        have hmk : ∀ ih : Option ℚ,
            ls = [mkMarkerLine para_idx para.meta (byteLen para.text) false true (some p.1)
              ih none .none none false none none] →
            ls ≠ [] ∧
            (∀ l ∈ ls, l.para_index = para_idx) ∧
            (isTextPath document para →
              (∀ l ∈ ls, l.is_page_break = false ∧ l.is_image = false ∧ l.is_table = false ∧
                l.start_offset + byteLen l.text = l.end_offset) ∧
              (∀ l, ls.head? = some l → l.start_offset = 0) ∧
              ls.Chain' (fun a b => a.end_offset = b.start_offset) ∧
              (∀ l, ls.getLast? = some l → l.end_offset = byteLen para.text) ∧
              ((ls.map (fun l => l.text)).flatten = para.text) ∧
              (∀ l, ls.getLast? = some l → l.is_last_line = true) ∧
              (∀ (i : Nat) (hi : i < ls.length), i + 1 < ls.length →
                (ls.get ⟨i, hi⟩).is_last_line = false)) ∧
            (¬isTextPath document para →
              ∀ l ∈ ls, l.text = [] ∧ l.start_offset = 0 ∧ 0 < l.end_offset) := by
          intro ih hls
          subst hls
          refine ⟨by simp, ?_, ?_, ?_⟩
          · intro l hl
            rw [List.mem_singleton] at hl
            rw [hl]
            rfl
          · intro htp
            exact absurd (himg.symm.trans htp.2.2) (by simp)
          · intro _ l hl
            rw [List.mem_singleton] at hl
            rw [hl]
            exact ⟨rfl, rfl, byteLen_pos_of_ne_nil htext⟩
        split at h
        · exact hmk (some 0) (congrArg Prod.fst ((Option.some.injEq _ _).mp h)).symm
        · split at h
          · exact hmk (some 0) (congrArg Prod.fst ((Option.some.injEq _ _).mp h)).symm
          · split at h
            · exact hmk (some 0) (congrArg Prod.fst ((Option.some.injEq _ _).mp h)).symm
            · exact hmk _ (congrArg Prod.fst ((Option.some.injEq _ _).mp h)).symm
      · rename_i himg
        have htp : isTextPath document para := ⟨by rw [Bool.not_eq_true] at hpb; exact hpb,
          htab, himg⟩
        replace h : (if para.text = [] then
            some ([mkTextLine para_idx para.meta 0 0 []
                (updateListCounters para.meta.list_type cs).1 true
                (get_float_reduction floats count ((count : ℚ) * config.line_height_px)
                  config.line_height_px config.column_width)], floats,
              (updateListCounters para.meta.list_type cs).2)
          else
            (wrapGo m config para_idx para.meta
                (updateListCounters para.meta.list_type cs).1
                ((para.meta.font_size.getD config.font_size) *
                  para.meta.block_type.font_size_multiplier)
                (config.column_width -
                  (if para.meta.list_type ≠ .none then
                    (para.meta.font_size.getD config.font_size) *
                      para.meta.block_type.font_size_multiplier * (3/2) else 0))
                config.line_height_px config.column_width floats count
                (byteLen para.text) (para.text.length + 1) para.text 0 0).map
              (fun lines => (markLast lines, floats,
                (updateListCounters para.meta.list_type cs).2))) = some (ls, fl, cs2) := h
        by_cases htext : para.text = []
        · -- empty paragraph: a single empty line
          rw [if_pos htext] at h
          obtain rfl : ls = [mkTextLine para_idx para.meta 0 0 []
              (updateListCounters para.meta.list_type cs).1 true
              (get_float_reduction floats count ((count : ℚ) * config.line_height_px)
                config.line_height_px config.column_width)] :=
            (congrArg Prod.fst ((Option.some.injEq _ _).mp h)).symm
          refine ⟨by simp, ?_, ?_, fun hc => absurd htp hc⟩
          · intro l hl
            rw [List.mem_singleton] at hl
            rw [hl]
            rfl
          · intro _
            rw [htext]
            refine ⟨?_, ?_, by simp, ?_, by simp [mkTextLine, byteLen], ?_, ?_⟩
            · intro l hl
              rw [List.mem_singleton] at hl
              rw [hl]
              exact ⟨rfl, rfl, rfl, rfl⟩
            · intro l hl
              obtain rfl := (Option.some.injEq _ _).mp hl
              rfl
            · intro l hl
              simp only [List.getLast?_singleton, Option.some.injEq] at hl
              rw [← hl]
              rfl
            · intro l hl
              simp only [List.getLast?_singleton, Option.some.injEq] at hl
              rw [← hl]
              rfl
            · intro i hi h2
              simp only [List.length_singleton] at hi h2
              omega
        · rw [if_neg htext] at h
          obtain ⟨ls0, hw, heq⟩ := Option.map_eq_some'.mp h
          obtain rfl : ls = markLast ls0 := (congrArg Prod.fst heq).symm
          obtain ⟨wA, wB, wC, wD, wE, wF, wG, wH⟩ :=
            wrapGo_spec m config para_idx para.meta
              (updateListCounters para.meta.list_type cs).1
              ((para.meta.font_size.getD config.font_size) *
                para.meta.block_type.font_size_multiplier)
              (config.column_width -
                (if para.meta.list_type ≠ .none then
                  (para.meta.font_size.getD config.font_size) *
                    para.meta.block_type.font_size_multiplier * (3/2) else 0))
              config.line_height_px config.column_width floats count
              (byteLen para.text) (para.text.length + 1) para.text 0 0 ls0
              (by omega) hw
          have hne : markLast ls0 ≠ [] := by
            intro hc
            have hlen := markLast_length ls0
            rw [hc] at hlen
            exact (wB htext) (List.length_eq_zero.mp hlen.symm)
          refine ⟨hne, ?_, ?_, fun hc => absurd htp hc⟩
          · intro l hl
            obtain ⟨l0, hl0, hor⟩ := markLast_mem ls0 l hl
            rcases hor with rfl | rfl
            · exact (wC l hl0).1
            · exact (wC l0 hl0).1
          · intro _
            refine ⟨?_, ?_, markLast_chain ls0 wE, ?_, ?_, markLast_getLast_flag ls0, ?_⟩
            · intro l hl
              obtain ⟨l0, hl0, hor⟩ := markLast_mem ls0 l hl
              rcases hor with rfl | rfl
              · exact ⟨(wC l hl0).2.1, (wC l hl0).2.2.1, (wC l hl0).2.2.2.1,
                  (wC l hl0).2.2.2.2⟩
              · exact ⟨(wC l0 hl0).2.1, (wC l0 hl0).2.2.1, (wC l0 hl0).2.2.2.1,
                  (wC l0 hl0).2.2.2.2⟩
            · intro l hl
              obtain ⟨l0, hl0, hor⟩ := markLast_head? ls0 l hl
              rcases hor with rfl | rfl
              · exact wD l hl0
              · exact wD l0 hl0
            · intro l hl
              obtain ⟨l0, hl0, rfl⟩ := markLast_getLast? ls0 l hl
              exact wF l0 hl0
            · have hmap := markLast_map_core (fun l => l.text) (fun l => rfl) ls0
              rw [hmap]
              exact wG
            · intro i hi h2
              have hi2 : i < ls0.length := by
                rw [markLast_length] at hi
                exact hi
              rw [markLast_get_of_not_last ls0 i hi hi2 (by
                rw [markLast_length] at h2
                exact h2)]
              exact wH i hi2 (by
                rw [markLast_length] at h2
                exact h2)

/-! ## Structure of the whole-document layout output -/

/-- The per-line fields that `assign_page_positions` never touches: everything
except page/column/x/y placement. -/
structure LineCore where
  para_index : Nat
  start_offset : Nat
  end_offset : Nat
  text : List Char
  is_last_line : Bool
  is_page_break : Bool
  is_image : Bool
  is_table : Bool
deriving DecidableEq, Repr

/-- Project a display line to its placement-independent core. -/
def lineCore (l : DisplayLine) : LineCore :=
  ⟨l.para_index, l.start_offset, l.end_offset, l.text, l.is_last_line,
   l.is_page_break, l.is_image, l.is_table⟩

theorem assignLine_core (config : LayoutConfig) (st : PageState) (dl : DisplayLine) :
    lineCore (assignLine config st dl).1 = lineCore dl := by
  rw [assignLine]
  split
  · rfl
  · split
    · rfl
    · rfl

theorem assignGo_map_core (config : LayoutConfig) :
    ∀ (lines : List DisplayLine) (st : PageState),
      (assignGo config st lines).map lineCore = lines.map lineCore
  | [], st => rfl
  | dl :: rest, st => by
    rw [assignGo]
    simp only [List.map_cons]
    rw [assignLine_core, assignGo_map_core config rest (assignLine config st dl).2]

/-- The shape of the block of (core-projected) display lines of one plain-text
paragraph: marker flags all clear, offsets tile `[0, byteLen text]`
contiguously, texts concatenate back to the paragraph text, and exactly the
last line carries `is_last_line`. -/
def CoreBlockShape (para : Paragraph) (b : List LineCore) : Prop :=
  (∀ c ∈ b, c.is_page_break = false ∧ c.is_image = false ∧ c.is_table = false ∧
    c.start_offset + byteLen c.text = c.end_offset) ∧
  (∀ c, b.head? = some c → c.start_offset = 0) ∧
  b.Chain' (fun a b2 => a.end_offset = b2.start_offset) ∧
  (∀ c, b.getLast? = some c → c.end_offset = byteLen para.text) ∧
  ((b.map (fun c => c.text)).flatten = para.text) ∧
  (∀ c, b.getLast? = some c → c.is_last_line = true) ∧
  (∀ (i : Nat) (hi : i < b.length), i + 1 < b.length →
    (b.get ⟨i, hi⟩).is_last_line = false)

theorem coreBlockShape_of (para : Paragraph) (b : List DisplayLine)
    (h1 : ∀ l ∈ b, l.is_page_break = false ∧ l.is_image = false ∧ l.is_table = false ∧
      l.start_offset + byteLen l.text = l.end_offset)
    (h2 : ∀ l, b.head? = some l → l.start_offset = 0)
    (h3 : b.Chain' (fun a b2 => a.end_offset = b2.start_offset))
    (h4 : ∀ l, b.getLast? = some l → l.end_offset = byteLen para.text)
    (h5 : (b.map (fun l => l.text)).flatten = para.text)
    (h6 : ∀ l, b.getLast? = some l → l.is_last_line = true)
    (h7 : ∀ (i : Nat) (hi : i < b.length), i + 1 < b.length →
      (b.get ⟨i, hi⟩).is_last_line = false) :
    CoreBlockShape para (b.map lineCore) := by
  refine ⟨?_, ?_, ?_, ?_, ?_, ?_, ?_⟩
  · intro c hc
    obtain ⟨l, hl, rfl⟩ := List.mem_map.mp hc
    exact h1 l hl
  · intro c hc
    rw [List.head?_map] at hc
    obtain ⟨l, hl, rfl⟩ := Option.map_eq_some'.mp hc
    exact h2 l hl
  · exact (List.chain'_map lineCore).mpr h3
  · intro c hc
    rw [List.getLast?_map] at hc
    obtain ⟨l, hl, rfl⟩ := Option.map_eq_some'.mp hc
    exact h4 l hl
  · rw [List.map_map]
    exact h5
  · intro c hc
    rw [List.getLast?_map] at hc
    obtain ⟨l, hl, rfl⟩ := Option.map_eq_some'.mp hc
    exact h6 l hl
  · intro i hi hi1
    rw [List.length_map] at hi hi1
    have : (b.map lineCore).get ⟨i, by rw [List.length_map]; exact hi⟩ =
        lineCore (b.get ⟨i, hi⟩) := by
      rw [List.get_map]
    rw [this]
    exact h7 i hi hi1

theorem chain'_le_of_const (i : Nat) :
    ∀ ls : List DisplayLine, (∀ l ∈ ls, l.para_index = i) →
      ls.Chain' (fun a b => a.para_index ≤ b.para_index)
  | [], _ => List.chain'_nil
  | [l], _ => List.chain'_singleton l
  | a :: b :: rest, h => by
    rw [List.chain'_cons]
    refine ⟨?_, chain'_le_of_const i (b :: rest) ?_⟩
    · rw [h a (by simp), h b (by simp)]
    · intro l hl
      exact h l (List.mem_cons_of_mem a hl)

theorem filter_map_core (q : LineCore → Bool) :
    ∀ l1 l2 : List DisplayLine, l1.map lineCore = l2.map lineCore →
      (l1.filter (fun l => q (lineCore l))).map lineCore =
        (l2.filter (fun l => q (lineCore l))).map lineCore
  | [], [], _ => rfl
  | [], b :: l2, h => by simp at h
  | a :: l1, [], h => by simp at h
  | a :: l1, b :: l2, h => by
    simp only [List.map_cons, List.cons.injEq] at h
    obtain ⟨hab, hrest⟩ := h
    rw [List.filter_cons, List.filter_cons, hab]
    by_cases hq : q (lineCore b) = true
    · rw [if_pos hq, if_pos hq]
      simp only [List.map_cons, hab]
      rw [filter_map_core q l1 l2 hrest]
    · rw [if_neg hq, if_neg hq]
      exact filter_map_core q l1 l2 hrest

/-- Block decomposition of the paragraph-layout loop: the filtered block of
each input paragraph is nonempty, `para_index` is nondecreasing across the
output, and each block has the text-path shape or the marker shape. -/
theorem layoutParagraphsGo_spec (m : MeasureFn) (config : LayoutConfig)
    (document : Document) :
    ∀ (paras : List Paragraph) (idx count : Nat) (floats : List ActiveFloat)
      (counters : List Nat) (lines : List DisplayLine),
      layoutParagraphsGo m config document paras idx count floats counters =
        some lines →
      (∀ l ∈ lines, idx ≤ l.para_index ∧ l.para_index < idx + paras.length) ∧
      lines.Chain' (fun a b => a.para_index ≤ b.para_index) ∧
      (∀ (j : Nat) (para : Paragraph), paras.get? j = some para →
        lines.filter (fun l => l.para_index == idx + j) ≠ [] ∧
        (isTextPath document para →
          CoreBlockShape para
            ((lines.filter (fun l => l.para_index == idx + j)).map lineCore)) ∧
        (¬isTextPath document para →
          ∀ l ∈ lines.filter (fun l => l.para_index == idx + j),
            l.text = [] ∧ l.start_offset = 0 ∧ 0 < l.end_offset))
  | [], idx, count, floats, counters, lines => by
    intro h
    rw [layoutParagraphsGo] at h
    obtain rfl := (Option.some.injEq _ _).mp h
    refine ⟨by simp, by simp, ?_⟩
    intro j para hj
    simp [List.get?_eq_none] at hj
  | para :: rest, idx, count, floats, counters, lines => by
    intro h
    rw [layoutParagraphsGo] at h
    cases hlp : layout_paragraph m config idx para document floats counters count with
    | none =>
      rw [hlp] at h
      exact absurd h (by simp)
    | some r =>
      obtain ⟨ls, fl2, cnt2⟩ := r
      rw [hlp] at h
      obtain ⟨tail, htail, heq⟩ := Option.map_eq_some'.mp h
      obtain rfl : lines = ls ++ tail := heq.symm
      obtain ⟨pNe, pIdx, pText, pMark⟩ :=
        layout_paragraph_spec m config idx para document floats counters count
          ls fl2 cnt2 hlp
      obtain ⟨ihA, ihB, ihC⟩ := layoutParagraphsGo_spec m config document rest
        (idx + 1) (count + ls.length) fl2 cnt2 tail htail
      refine ⟨?_, ?_, ?_⟩
      · intro l hl
        rw [List.mem_append] at hl
        simp only [List.length_cons]
        rcases hl with hl | hl
        · rw [pIdx l hl]
          omega
        · have := ihA l hl
          omega
      · rw [List.chain'_append]
        refine ⟨chain'_le_of_const idx ls pIdx, ihB, ?_⟩
        intro x hx y hy
        rw [pIdx x (List.mem_of_mem_getLast? hx)]
        have := (ihA y (List.mem_of_mem_head? hy)).1
        omega
      · intro j pj hj
        cases j with
        | zero =>
          rw [List.get?_cons_zero] at hj
          obtain rfl := (Option.some.injEq _ _).mp hj
          have hfl : (ls ++ tail).filter (fun l => l.para_index == idx + 0) = ls := by
            rw [List.filter_append]
            have hl1 : ls.filter (fun l => l.para_index == idx + 0) = ls :=
              List.filter_eq_self.mpr (fun l hl => by
                rw [pIdx l hl]
                simp)
            have hl2 : tail.filter (fun l => l.para_index == idx + 0) = [] :=
              List.filter_eq_nil_iff.mpr (fun l hl => by
                have := (ihA l hl).1
                simp only [beq_iff_eq]
                omega)
            rw [hl1, hl2, List.append_nil]
          rw [hfl]
          refine ⟨pNe, ?_, pMark⟩
          intro htp
          obtain ⟨t1, t2, t3, t4, t5, t6, t7⟩ := pText htp
          exact coreBlockShape_of para ls t1 t2 t3 t4 t5 t6 t7
        | succ j2 =>
          rw [List.get?_cons_succ] at hj
          have hfl : (ls ++ tail).filter (fun l => l.para_index == idx + (j2 + 1)) =
              tail.filter (fun l => l.para_index == idx + 1 + j2) := by
            rw [List.filter_append]
            have hl1 : ls.filter (fun l => l.para_index == idx + (j2 + 1)) = [] :=
              List.filter_eq_nil_iff.mpr (fun l hl => by
                rw [pIdx l hl]
                simp only [beq_iff_eq]
                omega)
            have hl2 : idx + (j2 + 1) = idx + 1 + j2 := by omega
            rw [hl1, List.nil_append, hl2]
          rw [hfl]
          exact ihC j2 pj hj

/-- C10: every paragraph of the document contributes at least one display
line to the output of `compute_layout`; `para_index` is nondecreasing in
output order; every plain-text paragraph's block of lines tiles its text
contiguously (first line starts at char offset 0, each line ends where the
next starts, the last line ends at the paragraph's byte length, the line
texts concatenate back to the paragraph text) and exactly the last line of
the block is flagged `is_last_line`; marker paragraphs contribute only
empty-text lines with `start_offset = 0` and a positive `end_offset`. -/
theorem compute_layout_block_structure (document : Document) (config : LayoutConfig)
    (m : MeasureFn) (lines : List DisplayLine)
    (h : compute_layout document config m = some lines) :
    lines.Chain' (fun a b => a.para_index ≤ b.para_index) ∧
    (∀ (j : Nat) (para : Paragraph), document.paragraphs.get? j = some para →
      lines.filter (fun l => l.para_index == j) ≠ [] ∧
      (isTextPath document para →
        CoreBlockShape para
          ((lines.filter (fun l => l.para_index == j)).map lineCore)) ∧
      (¬isTextPath document para →
        ∀ l ∈ lines.filter (fun l => l.para_index == j),
          l.text = [] ∧ l.start_offset = 0 ∧ 0 < l.end_offset)) := by
  rw [compute_layout] at h
  obtain ⟨pre, hpre, heq⟩ := Option.map_eq_some'.mp h
  have hmap : lines.map lineCore = pre.map lineCore := by
    rw [← heq, assign_page_positions]
    exact assignGo_map_core config pre ⟨0, 0, 0⟩
  obtain ⟨sA, sB, sC⟩ := layoutParagraphsGo_spec m config document
    document.paragraphs 0 0 (prePassFloats document config) [] pre hpre
  refine ⟨?_, ?_⟩
  · have hch : (lines.map lineCore).Chain'
        (fun a b => a.para_index ≤ b.para_index) := by
      rw [hmap]
      exact (List.chain'_map lineCore).mpr sB
    exact (List.chain'_map lineCore).mp hch
  · intro j para hj
    obtain ⟨cNe, cText, cMark⟩ := sC j para hj
    have h0j : (0 : Nat) + j = j := Nat.zero_add j
    rw [h0j] at cNe cText cMark
    have hfeq : (lines.filter (fun l => l.para_index == j)).map lineCore =
        (pre.filter (fun l => l.para_index == j)).map lineCore :=
      filter_map_core (fun c => c.para_index == j) lines pre hmap
    refine ⟨?_, ?_, ?_⟩
    · intro hc
      have hm : (pre.filter (fun l => l.para_index == j)).map lineCore = [] := by
        rw [← hfeq, hc]
        rfl
      exact cNe (List.map_eq_nil_iff.mp hm)
    · intro htp
      rw [hfeq]
      exact cText htp
    · intro hntp l hl
      have hmem : lineCore l ∈
          (pre.filter (fun l2 => l2.para_index == j)).map lineCore := by
        rw [← hfeq]
        exact List.mem_map_of_mem lineCore hl
      obtain ⟨l2, hl2, hcore⟩ := List.mem_map.mp hmem
      obtain ⟨f1, f2, f3⟩ := cMark hntp l2 hl2
      refine ⟨?_, ?_, ?_⟩
      · have ht : l.text = (lineCore l).text := rfl
        rw [ht, ← hcore]
        exact f1
      · have ht : l.start_offset = (lineCore l).start_offset := rfl
        rw [ht, ← hcore]
        exact f2
      · have ht : l.end_offset = (lineCore l).end_offset := rfl
        rw [ht, ← hcore]
        exact f3

/-- A one-paragraph document ("a", no list) for the C10 witness. -/
def c10Meta : ParagraphMeta := ⟨.left, .paragraph, .none, none, none⟩

def docC10 : Document := ⟨1, [⟨[Char.ofNat 97], c10Meta, []⟩], [], []⟩

def c10Config : LayoutConfig := ⟨100, 1000, 0, 0, 0, 0, 1, 0, 16, 1, 0, 0⟩

/-- The layout the engine computes for `docC10`. -/
def linesC10 : List DisplayLine :=
  [⟨0, 0, 1, [Char.ofNat 97], 0, 0, 0, 0, false, false, none, none, none, true,
    .paragraph, .none, none, false, none, none⟩]

/-- Witness for C10 on the concrete document `docC10`. -/
theorem compute_layout_block_structure_witness :
    compute_layout docC10 c10Config measureErr = some linesC10 ∧
    (linesC10.Chain' (fun a b => a.para_index ≤ b.para_index) ∧
    (∀ (j : Nat) (para : Paragraph), docC10.paragraphs.get? j = some para →
      linesC10.filter (fun l => l.para_index == j) ≠ [] ∧
      (isTextPath docC10 para →
        CoreBlockShape para
          ((linesC10.filter (fun l => l.para_index == j)).map lineCore)) ∧
      (¬isTextPath docC10 para →
        ∀ l ∈ linesC10.filter (fun l => l.para_index == j),
          l.text = [] ∧ l.start_offset = 0 ∧ 0 < l.end_offset))) := by
  have u97 : (Char.ofNat 97).utf8Size = 1 := rfl
  have n97 : ¬(Char.ofNat 97 = Char.ofNat 0xFFFD) := by decide
  have hev : compute_layout docC10 c10Config measureErr = some linesC10 := by
    norm_num [compute_layout, layoutParagraphsGo, layout_paragraph, docC10, c10Config,
      c10Meta, linesC10, prePassFloats, Paragraph.is_page_break, Paragraph.is_image,
      Paragraph.is_table, Paragraph.table_id, Paragraph.image_id, updateListCounters,
      wrapGo, markLast, measure_text, measureErr, byteLen, get_float_reduction,
      LayoutConfig.column_width, LayoutConfig.content_width, LayoutConfig.line_height_px,
      mkTextLine, assign_page_positions, assignGo, assignLine, effectiveHeight,
      LayoutConfig.content_height, BlockType.font_size_multiplier, u97, n97]
  exact ⟨hev, compute_layout_block_structure docC10 c10Config measureErr linesC10 hev⟩

/-! ## Dangling marker paragraphs (claim C8) -/

/-- A marker paragraph referencing image id "x". -/
def pC8 : Paragraph := ⟨['\uFFFC', 'x'], c10Meta, []⟩

/-- A document whose only paragraph is an image marker with a dangling id:
the image list is empty. -/
def docC8 : Document := ⟨1, [pC8], [], []⟩

/-- The layout the engine computes for `docC8`: one line carrying the raw
marker text. -/
def linesC8 : List DisplayLine :=
  [⟨0, 0, 4, ['\uFFFC', 'x'], 0, 0, 0, 0, false, false, none, none,
    none, true, .paragraph, .none, none, false, none, none⟩]

/-- Claim C8, counterexample: a paragraph that is an image marker (its
`image_id` is the dangling id "x", and the document has no images) is laid
out as a visible text line whose text is the raw marker text — the claim
says no line carrying renderable text content is emitted for it. -/
theorem dangling_marker_cex :
    pC8.image_id = some ['x'] ∧
    docC8.images = [] ∧
    compute_layout docC8 c10Config measureErr = some linesC8 ∧
    linesC8.map (fun l => l.text) = [['\uFFFC', 'x']] ∧
    (['\uFFFC', 'x'] : List Char) ≠ [] := by
  refine ⟨by decide, rfl, ?_, rfl, by decide⟩
  have uFFFC : ('\uFFFC').utf8Size = 3 := rfl
  have u120 : ('x').utf8Size = 1 := rfl
  have n1 : ¬(('\uFFFC' : Char) = '\uFFFD') := by decide
  have n2 : ¬(('\uFFFC' : Char) = '\uFFFB') := by decide
  have n3 : ¬(('x' : Char) = '\uFFFD') := by decide
  have hne : ¬((['\uFFFC', 'x'] : List Char) = []) := by decide
  norm_num [compute_layout, layoutParagraphsGo, layout_paragraph, docC8, c10Config,
    c10Meta, linesC8, pC8, prePassFloats, Paragraph.is_page_break, Paragraph.is_image,
    Paragraph.is_table, Paragraph.table_id, Paragraph.image_id, updateListCounters,
    wrapGo, markLast, measure_text, measureErr, byteLen, get_float_reduction,
    LayoutConfig.column_width, LayoutConfig.content_width, LayoutConfig.line_height_px,
    mkTextLine, assign_page_positions, assignGo, assignLine, effectiveHeight,
    LayoutConfig.content_height, BlockType.font_size_multiplier, uFFFC, u120,
    n1, n2, n3, hne]

/-- C8, amended: a marker paragraph whose referenced image/table id does not
resolve falls through to the plain-text path. It still contributes at least
one line and its lines tile `[0, byteLen text]` contiguously (so position
mapping stays continuous over it), but the lines carry the raw marker text
as renderable line text — the flattened block text equals the (nonempty)
marker text, so a visible line IS emitted. -/
theorem dangling_marker_layout (m : MeasureFn) (config : LayoutConfig)
    (para_idx : Nat) (para : Paragraph) (document : Document)
    (floats : List ActiveFloat) (cs : List Nat) (count : Nat)
    (ls : List DisplayLine) (fl : List ActiveFloat) (cs2 : List Nat)
    (hmarker : para.image_id.isSome = true ∨ para.table_id.isSome = true)
    (hdangling : isTextPath document para)
    (h : layout_paragraph m config para_idx para document floats cs count =
      some (ls, fl, cs2)) :
    ls ≠ [] ∧
    (∀ l ∈ ls, l.para_index = para_idx) ∧
    (∀ l, ls.head? = some l → l.start_offset = 0) ∧
    ls.Chain' (fun a b => a.end_offset = b.start_offset) ∧
    (∀ l, ls.getLast? = some l → l.end_offset = byteLen para.text) ∧
    ((ls.map (fun l => l.text)).flatten = para.text) ∧
    para.text ≠ [] := by
  have htext : para.text ≠ [] := by
    intro hc
    rcases hmarker with hm | hm
    · rw [Paragraph.image_id, Paragraph.is_image, hc] at hm
      simp at hm
    · rw [Paragraph.table_id, Paragraph.is_table, hc] at hm
      simp at hm
  obtain ⟨pNe, pIdx, pText, -⟩ :=
    layout_paragraph_spec m config para_idx para document floats cs count
      ls fl cs2 h
  obtain ⟨-, t2, t3, t4, t5, -, -⟩ := pText hdangling
  exact ⟨pNe, pIdx, t2, t3, t4, t5, htext⟩

/-- Witness for the amended C8 theorem on `docC8`. -/
theorem dangling_marker_layout_witness :
    (pC8.image_id.isSome = true ∨ pC8.table_id.isSome = true) ∧
    isTextPath docC8 pC8 ∧
    layout_paragraph measureErr c10Config 0 pC8 docC8 [] [] 0 =
      some (linesC8, [], []) ∧
    (linesC8 ≠ [] ∧
     (∀ l ∈ linesC8, l.para_index = 0) ∧
     (∀ l, linesC8.head? = some l → l.start_offset = 0) ∧
     linesC8.Chain' (fun a b => a.end_offset = b.start_offset) ∧
     (∀ l, linesC8.getLast? = some l → l.end_offset = byteLen pC8.text) ∧
     ((linesC8.map (fun l => l.text)).flatten = pC8.text) ∧
     pC8.text ≠ []) := by
  have hm : pC8.image_id.isSome = true ∨ pC8.table_id.isSome = true := by
    left
    decide
  have htp : isTextPath docC8 pC8 := by
    refine ⟨by decide, ?_, ?_⟩
    · rfl
    · rfl
  have hev : layout_paragraph measureErr c10Config 0 pC8 docC8 [] [] 0 =
      some (linesC8, [], []) := by
    have uFFFC : ('\uFFFC').utf8Size = 3 := rfl
    have u120 : ('x').utf8Size = 1 := rfl
    have n1 : ¬(('\uFFFC' : Char) = '\uFFFD') := by decide
    have n2 : ¬(('\uFFFC' : Char) = '\uFFFB') := by decide
    have n3 : ¬(('x' : Char) = '\uFFFD') := by decide
    have hne : ¬((['\uFFFC', 'x'] : List Char) = []) := by decide
    norm_num [layout_paragraph, docC8, c10Config, c10Meta, linesC8, pC8,
      Paragraph.is_page_break, Paragraph.is_image, Paragraph.is_table,
      Paragraph.table_id, Paragraph.image_id, updateListCounters, wrapGo, markLast,
      measure_text, measureErr, byteLen, get_float_reduction,
      LayoutConfig.column_width, LayoutConfig.content_width,
      LayoutConfig.line_height_px, mkTextLine, BlockType.font_size_multiplier,
      uFFFC, u120, n1, n2, n3, hne]
  exact ⟨hm, htp, hev,
    dangling_marker_layout measureErr c10Config 0 pC8 docC8 [] [] 0
      linesC8 [] [] hm htp hev⟩

/-! ## Position-mapping round trip (claim C1) -/

/-- Soundness of the scan of `para_to_display_pos`: a hit is some index `j`
whose line matches the paragraph and contains the offset in its inclusive
range, and the column is the offset minus the line start. -/
theorem paraToDisplayGo_sound (p o : Nat) :
    ∀ (lines : List DisplayLine) (k : Nat) (d : DisplayPosition),
      paraToDisplayGo p o lines k = some d →
      ∃ (j : Nat) (hj : j < lines.length),
        d.line = k + j ∧
        d.col = o - (lines.get ⟨j, hj⟩).start_offset ∧
        (lines.get ⟨j, hj⟩).para_index = p ∧
        (lines.get ⟨j, hj⟩).start_offset ≤ o ∧ o ≤ (lines.get ⟨j, hj⟩).end_offset
  | [], k, d => by
    intro h
    rw [paraToDisplayGo] at h
    exact absurd h (by simp)
  | dl :: rest, k, d => by
    intro h
    rw [paraToDisplayGo] at h
    split at h
    · rename_i hc
      obtain rfl := ((Option.some.injEq _ _).mp h).symm
      exact ⟨0, by simp, rfl, rfl, hc.1, hc.2.1, hc.2.2⟩
    · obtain ⟨j, hj, h1, h2, h3, h4, h5⟩ := paraToDisplayGo_sound p o rest (k + 1) d h
      refine ⟨j + 1, by simp only [List.length_cons]; omega, by rw [h1]; omega,
        h2, h3, h4, h5⟩

/-- The scan succeeds whenever some line matches. -/
theorem paraToDisplayGo_isSome (p o : Nat) :
    ∀ (lines : List DisplayLine) (k : Nat),
      (∃ l ∈ lines, l.para_index = p ∧ l.start_offset ≤ o ∧ o ≤ l.end_offset) →
      ∃ d, paraToDisplayGo p o lines k = some d
  | [], k => by
    intro hex
    obtain ⟨l, hl, -⟩ := hex
    simp at hl
  | dl :: rest, k => by
    intro hex
    obtain ⟨l, hl, hc⟩ := hex
    rw [paraToDisplayGo]
    by_cases hdl : dl.para_index = p ∧ dl.start_offset ≤ o ∧ o ≤ dl.end_offset
    · exact ⟨_, by rw [if_pos hdl]⟩
    · rw [if_neg hdl]
      apply paraToDisplayGo_isSome p o rest (k + 1)
      rcases List.mem_cons.mp hl with rfl | hl2
      · exact absurd hc hdl
      · exact ⟨l, hl2, hc⟩

/-- A document whose only paragraph is a page break, for the C1
counterexample. -/
def docC1 : Document := ⟨1, [⟨['\uFFFD'], c10Meta, []⟩], [], []⟩

/-- The one display line of the page-break marker: offsets `[0, 1]`, empty
text. -/
def lineC1 : DisplayLine :=
  ⟨0, 0, 1, [], 0, 0, 0, 0, true, false, none, none, none, true,
    .paragraph, .none, none, false, none, none⟩

def linesC1 : List DisplayLine := [lineC1]

/-- Claim C1, counterexample: on the layout of a single page-break
paragraph, offset 1 of paragraph 0 is within the covered range `[0, 1]` of
its display line, yet the round trip returns offset 0: `display_to_para`
clamps the column to the line's text byte length (0 for a marker line), so
`displayToPara(paraToDisplay(0, 1)) = (0, 0) ≠ (0, 1)`. -/
theorem display_para_round_trip_cex :
    compute_layout docC1 c10Config measureErr = some linesC1 ∧
    lineC1 ∈ linesC1 ∧
    lineC1.para_index = 0 ∧ lineC1.start_offset ≤ 1 ∧ 1 ≤ lineC1.end_offset ∧
    para_to_display_pos linesC1 0 1 = ⟨0, 1⟩ ∧
    display_to_para linesC1 0 1 = ⟨0, 0⟩ ∧
    (⟨0, 0⟩ : ParagraphPosition) ≠ ⟨0, 1⟩ := by
  refine ⟨rfl, List.mem_singleton.mpr rfl, rfl, by decide, by decide, rfl, rfl,
    by decide⟩

/-- C1, amended: the round trip is exact on display-line lists all of whose
lines cover exactly their text's byte length (`start + byteLen text = end`)
— true of every line of a plain-text paragraph, but false for marker lines,
whose text is empty while their range is not. If some line of paragraph `p`
contains offset `o` in its inclusive range, then
`display_to_para (para_to_display_pos p o) = (p, o)`. -/
theorem display_para_round_trip (lines : List DisplayLine) (p o : Nat)
    (hall : ∀ l ∈ lines, l.start_offset + byteLen l.text = l.end_offset)
    (hex : ∃ l ∈ lines, l.para_index = p ∧ l.start_offset ≤ o ∧ o ≤ l.end_offset) :
    display_to_para lines (para_to_display_pos lines p o).line
      (para_to_display_pos lines p o).col = ⟨p, o⟩ := by
  obtain ⟨d, hd⟩ := paraToDisplayGo_isSome p o lines 0 hex
  obtain ⟨j, hj, h1, h2, h3, h4, h5⟩ := paraToDisplayGo_sound p o lines 0 d hd
  have hpd : para_to_display_pos lines p o = d := by
    rw [para_to_display_pos, hd]
  rw [hpd]
  have h1j : d.line = j := by omega
  rw [display_to_para, h1j, h2]
  rw [if_neg (by omega : ¬ j ≥ lines.length)]
  rw [List.getElem?_eq_getElem hj]
  show ParagraphPosition.mk (lines.get ⟨j, hj⟩).para_index
    ((lines.get ⟨j, hj⟩).start_offset +
      min (o - (lines.get ⟨j, hj⟩).start_offset)
        (byteLen (lines.get ⟨j, hj⟩).text)) = ⟨p, o⟩
  have hb := hall (lines.get ⟨j, hj⟩) (List.get_mem lines j hj)
  have hmin : min (o - (lines.get ⟨j, hj⟩).start_offset)
      (byteLen (lines.get ⟨j, hj⟩).text) =
      o - (lines.get ⟨j, hj⟩).start_offset := Nat.min_eq_left (by omega)
  rw [hmin, h3]
  have hoff : (lines.get ⟨j, hj⟩).start_offset +
      (o - (lines.get ⟨j, hj⟩).start_offset) = o := by omega
  rw [hoff]

/-- Witness for the amended C1 theorem on the one-line layout of a
one-character paragraph. -/
theorem display_para_round_trip_witness :
    (∀ l ∈ linesC10, l.start_offset + byteLen l.text = l.end_offset) ∧
    (∃ l ∈ linesC10, l.para_index = 0 ∧ l.start_offset ≤ 1 ∧ 1 ≤ l.end_offset) ∧
    display_to_para linesC10 (para_to_display_pos linesC10 0 1).line
      (para_to_display_pos linesC10 0 1).col = ⟨0, 1⟩ := by
  have h1 : ∀ l ∈ linesC10, l.start_offset + byteLen l.text = l.end_offset := by
    intro l hl
    rw [linesC10, List.mem_singleton] at hl
    subst hl
    rfl
  have h2 : ∃ l ∈ linesC10, l.para_index = 0 ∧ l.start_offset ≤ 1 ∧
      1 ≤ l.end_offset := by
    refine ⟨_, List.mem_singleton.mpr rfl, rfl, by decide, by decide⟩
  exact ⟨h1, h2, display_para_round_trip linesC10 0 1 h1 h2⟩

/-! ## The style engine (claims C5, C6) -/

theorem applyA_idem (m : Modifier) (a : Attrs) :
    m.applyA (m.applyA a) = m.applyA a := by
  rw [Modifier.applyA, Modifier.applyA]
  cases m.bold <;> cases m.italic <;> cases m.underline <;>
    cases m.strikethrough <;> cases m.color <;> cases m.background <;> rfl

theorem applyA_of_unformatted (m : Modifier) (a : Attrs)
    (h : (m.applyA a).has_formatting = false) :
    m.applyA Attrs.default = m.applyA a := by
  have key : ∀ (o : Option Bool) (x : Bool), o.getD x = false → o.getD false = o.getD x := by
    intro o x hx
    cases o with
    | some v => rfl
    | none =>
      simp only [Option.getD_none] at hx ⊢
      exact hx.symm
  have key2 : ∀ (o : Option (Option String)) (x : Option String),
      (o.getD x).isSome = false → o.getD none = o.getD x := by
    intro o x hx
    cases o with
    | some v => rfl
    | none =>
      cases x with
      | some v => simp at hx
      | none => rfl
  rw [Attrs.has_formatting] at h
  simp only [Bool.or_eq_false_iff] at h
  obtain ⟨⟨⟨⟨⟨h1, h2⟩, h3⟩, h4⟩, h5⟩, h6⟩ := h
  rw [Modifier.applyA, Modifier.applyA]
  simp only [Attrs.default, Attrs.mk.injEq]
  exact ⟨key _ _ h1, key _ _ h2, key _ _ h3, key _ _ h4, key2 _ _ h5, key2 _ _ h6⟩

theorem apply_attrs (m : Modifier) (s : TextStyle) :
    (m.apply s).attrs = m.applyA s.attrs := rfl

theorem has_formatting_attrs (s : TextStyle) :
    s.has_formatting = s.attrs.has_formatting := rfl

theorem sameAttrs_iff (a b : TextStyle) : sameAttrs a b = true ↔ a.attrs = b.attrs := by
  rw [sameAttrs, TextStyle.attrs, TextStyle.attrs]
  simp only [Bool.and_eq_true, beq_iff_eq, Attrs.mk.injEq]
  constructor
  · rintro ⟨⟨⟨⟨⟨x1, x2⟩, x3⟩, x4⟩, x5⟩, x6⟩
    exact ⟨x1, x2, x3, x4, x5, x6⟩
  · rintro ⟨x1, x2, x3, x4, x5, x6⟩
    exact ⟨⟨⟨⟨⟨x1, x2⟩, x3⟩, x4⟩, x5⟩, x6⟩

/-! ### Insertion sort (`sort_by_key`) -/

theorem insertByKey_perm (key : α → Nat) (x : α) :
    ∀ l : List α, (insertByKey key x l).Perm (x :: l)
  | [] => List.Perm.refl _
  | y :: ys => by
    rw [insertByKey]
    split
    · exact (List.Perm.cons y (insertByKey_perm key x ys)).trans (List.Perm.swap x y ys)
    · exact List.Perm.refl _

theorem insertByKey_sorted (key : α → Nat) (x : α) :
    ∀ l : List α, l.Pairwise (fun a b => key a ≤ key b) →
      (insertByKey key x l).Pairwise (fun a b => key a ≤ key b)
  | [], _ => List.pairwise_singleton _ x
  | y :: ys, h => by
    rw [insertByKey]
    rw [List.pairwise_cons] at h
    split
    · rename_i hle
      rw [List.pairwise_cons]
      refine ⟨?_, insertByKey_sorted key x ys h.2⟩
      intro b hb
      rcases List.mem_cons.mp ((insertByKey_perm key x ys).mem_iff.mp hb) with rfl | hb2
      · exact hle
      · exact h.1 b hb2
    · rename_i hgt
      rw [List.pairwise_cons]
      refine ⟨?_, List.pairwise_cons.mpr h⟩
      intro b hb
      rcases List.mem_cons.mp hb with rfl | hb2
      · omega
      · have := h.1 b hb2
        omega

theorem sortByKey_perm_aux (key : α → Nat) :
    ∀ (l acc : List α),
      (l.foldl (fun acc x => insertByKey key x acc) acc).Perm (acc ++ l)
  | [], acc => by simp
  | x :: xs, acc => by
    rw [List.foldl_cons]
    refine (sortByKey_perm_aux key xs (insertByKey key x acc)).trans ?_
    exact ((insertByKey_perm key x acc).append_right xs).trans List.perm_middle.symm

theorem sortByKey_perm (key : α → Nat) (l : List α) : (sortByKey key l).Perm l := by
  have h := sortByKey_perm_aux key l []
  rw [List.nil_append] at h
  exact h

theorem sortByKey_sorted_aux (key : α → Nat) :
    ∀ (l acc : List α), acc.Pairwise (fun a b => key a ≤ key b) →
      (l.foldl (fun acc x => insertByKey key x acc) acc).Pairwise
        (fun a b => key a ≤ key b)
  | [], _, h => h
  | x :: xs, acc, h => by
    rw [List.foldl_cons]
    exact sortByKey_sorted_aux key xs _ (insertByKey_sorted key x acc h)

theorem sortByKey_sorted (key : α → Nat) (l : List α) :
    (sortByKey key l).Pairwise (fun a b => key a ≤ key b) :=
  sortByKey_sorted_aux key l [] List.Pairwise.nil

/-! ### Interval bookkeeping -/

theorem chainDisj_pairwise :
    ∀ l : List TextStyle, (∀ s ∈ l, s.start < s.stop) →
      l.Chain' (fun a b => a.stop ≤ b.start) →
      l.Pairwise (fun a b => a.stop ≤ b.start)
  | [], _, _ => List.Pairwise.nil
  | [a], _, _ => List.pairwise_singleton _ a
  | a :: b :: rest, hnf, hch => by
    rw [List.chain'_cons] at hch
    have ih := chainDisj_pairwise (b :: rest)
      (fun s hs => hnf s (List.mem_cons_of_mem a hs)) hch.2
    rw [List.pairwise_cons]
    refine ⟨?_, ih⟩
    intro c hc
    rcases List.mem_cons.mp hc with rfl | hc2
    · exact hch.1
    · have h1 := (List.pairwise_cons.mp ih).1 c hc2
      have h2 := hnf b (by simp)
      omega

theorem pairwise_chainDisj (l : List TextStyle)
    (hnf : ∀ s ∈ l, s.start < s.stop)
    (hsort : l.Pairwise (fun a b => a.start ≤ b.start))
    (hdisj : l.Pairwise (fun a b => a.stop ≤ b.start ∨ b.stop ≤ a.start)) :
    l.Chain' (fun a b => a.stop ≤ b.start) := by
  refine List.Pairwise.chain' ?_
  refine (hsort.and hdisj).imp_of_mem ?_
  intro a b ha hb hab
  have hbn := hnf b hb
  rcases hab.2 with h | h
  · exact h
  · omega

/-! ### `style_at` on disjoint lists -/

theorem style_at_none (l : List TextStyle) (x : Nat) :
    style_at l x = none ↔ ∀ s ∈ l, ¬(s.start ≤ x ∧ x < s.stop) := by
  rw [style_at, Option.map_eq_none', List.find?_eq_none]
  constructor
  · intro h s hs hc
    have h2 := h s hs
    simp only [Bool.and_eq_true, decide_eq_true_eq] at h2
    exact h2 ⟨hc.1, hc.2⟩
  · intro h s hs
    simp only [Bool.and_eq_true, decide_eq_true_eq]
    intro hc
    exact h s hs ⟨hc.1, hc.2⟩

theorem style_at_some (l : List TextStyle) (x : Nat) (a : Attrs)
    (hdisj : l.Pairwise (fun a b => a.stop ≤ b.start ∨ b.stop ≤ a.start)) :
    style_at l x = some a ↔ ∃ s ∈ l, s.start ≤ x ∧ x < s.stop ∧ s.attrs = a := by
  constructor
  · intro h
    rw [style_at] at h
    obtain ⟨s, hf, rfl⟩ := Option.map_eq_some'.mp h
    have hmem := List.mem_of_find?_eq_some hf
    have hp := List.find?_some hf
    simp only [Bool.and_eq_true, decide_eq_true_eq] at hp
    exact ⟨s, hmem, hp.1, hp.2, rfl⟩
  · intro hex
    obtain ⟨s, hs, h1, h2, rfl⟩ := hex
    cases hfind : List.find? (fun t => decide (t.start ≤ x) && decide (t.stop > x)) l with
    | none =>
      rw [List.find?_eq_none] at hfind
      exact absurd (by
        simp only [Bool.and_eq_true, decide_eq_true_eq]
        exact ⟨h1, h2⟩) (hfind s hs)
    | some t =>
      have htmem := List.mem_of_find?_eq_some hfind
      have htp := List.find?_some hfind
      simp only [Bool.and_eq_true, decide_eq_true_eq] at htp
      have hsym : Symmetric (fun a b : TextStyle => a.stop ≤ b.start ∨ b.stop ≤ a.start) := by
        intro p q hpq
        exact Or.symm hpq
      have hst : s = t := by
        by_contra hne
        rcases hdisj.forall hsym hs htmem hne with hd | hd
        · omega
        · omega
      rw [style_at, hfind, hst]
      rfl

/-! ### Pieces of one run -/

theorem overlaps_iff (s : TextStyle) (start stop : Nat) :
    s.overlaps start stop = true ↔ s.start < stop ∧ start < s.stop := by
  rw [TextStyle.overlaps]
  simp only [Bool.and_eq_true, decide_eq_true_eq]

theorem piecesOf_cases (start stop : Nat) (m : Modifier) (s p : TextStyle)
    (hp : p ∈ piecesOf start stop m s) :
    (s.overlaps start stop = true ∧ s.start < start ∧ p = { s with stop := start }) ∨
    (s.overlaps start stop = true ∧ s.stop > stop ∧ p = { s with start := stop }) ∨
    (s.overlaps start stop = true ∧
      (m.apply (clipStyle start stop s)).has_formatting = true ∧
      p = m.apply (clipStyle start stop s)) ∨
    (s.overlaps start stop = false ∧ p = s) := by
  rw [piecesOf] at hp
  by_cases ho : s.overlaps start stop = true
  · rw [if_pos ho] at hp
    simp only [List.mem_append] at hp
    rcases hp with (hp | hp) | hp
    · by_cases h1 : s.start < start
      · rw [if_pos h1, List.mem_singleton] at hp
        exact Or.inl ⟨ho, h1, hp⟩
      · rw [if_neg h1] at hp
        simp at hp
    · by_cases h2 : s.stop > stop
      · rw [if_pos h2, List.mem_singleton] at hp
        exact Or.inr (Or.inl ⟨ho, h2, hp⟩)
      · rw [if_neg h2] at hp
        simp at hp
    · by_cases h3 : (m.apply (clipStyle start stop s)).has_formatting = true
      · rw [if_pos h3, List.mem_singleton] at hp
        exact Or.inr (Or.inr (Or.inl ⟨ho, h3, hp⟩))
      · rw [if_neg h3] at hp
        simp at hp
  · rw [if_neg ho, List.mem_singleton] at hp
    exact Or.inr (Or.inr (Or.inr ⟨Bool.not_eq_true _ ▸ ho, hp⟩))

theorem piecesOf_bounds (start stop : Nat) (m : Modifier) (s p : TextStyle)
    (hI : start < stop) (hs : s.start < s.stop)
    (hp : p ∈ piecesOf start stop m s) :
    s.start ≤ p.start ∧ p.stop ≤ s.stop ∧ p.start < p.stop := by
  rcases piecesOf_cases start stop m s p hp with ⟨ho, h1, rfl⟩ | ⟨ho, h2, rfl⟩ |
    ⟨ho, h3, rfl⟩ | ⟨ho, rfl⟩
  · obtain ⟨o1, o2⟩ := (overlaps_iff s start stop).mp ho
    refine ⟨Nat.le_refl _, ?_, h1⟩
    show start ≤ s.stop
    omega
  · obtain ⟨o1, o2⟩ := (overlaps_iff s start stop).mp ho
    refine ⟨?_, Nat.le_refl _, h2⟩
    show s.start ≤ stop
    omega
  · obtain ⟨o1, o2⟩ := (overlaps_iff s start stop).mp ho
    refine ⟨?_, ?_, ?_⟩
    · show s.start ≤ max s.start start
      omega
    · show min s.stop stop ≤ s.stop
      omega
    · show max s.start start < min s.stop stop
      omega
  · exact ⟨Nat.le_refl _, Nat.le_refl _, hs⟩

theorem piecesOf_formatted (start stop : Nat) (m : Modifier) (s p : TextStyle)
    (hf : s.has_formatting = true)
    (hp : p ∈ piecesOf start stop m s) :
    p.has_formatting = true := by
  rcases piecesOf_cases start stop m s p hp with ⟨ho, h1, rfl⟩ | ⟨ho, h2, rfl⟩ |
    ⟨ho, h3, rfl⟩ | ⟨ho, rfl⟩
  · exact hf
  · exact hf
  · exact h3
  · exact hf

theorem piecesOf_container_out (start stop : Nat) (m : Modifier) (s : TextStyle)
    (x : Nat) (a : Attrs) (hI : start < stop) (hs : s.start < s.stop)
    (hout : x < start ∨ stop ≤ x) :
    (∃ p ∈ piecesOf start stop m s, p.start ≤ x ∧ x < p.stop ∧ p.attrs = a) ↔
    (s.start ≤ x ∧ x < s.stop ∧ s.attrs = a) := by
  constructor
  · rintro ⟨p, hp, hx1, hx2, rfl⟩
    rcases piecesOf_cases start stop m s p hp with ⟨ho, h1, rfl⟩ | ⟨ho, h2, rfl⟩ |
      ⟨ho, h3, rfl⟩ | ⟨ho, rfl⟩
    · obtain ⟨o1, o2⟩ := (overlaps_iff s start stop).mp ho
      replace hx1 : s.start ≤ x := hx1
      replace hx2 : x < start := hx2
      exact ⟨hx1, by omega, rfl⟩
    · obtain ⟨o1, o2⟩ := (overlaps_iff s start stop).mp ho
      replace hx1 : stop ≤ x := hx1
      replace hx2 : x < s.stop := hx2
      exact ⟨by omega, hx2, rfl⟩
    · replace hx1 : max s.start start ≤ x := hx1
      replace hx2 : x < min s.stop stop := hx2
      rcases hout with hout | hout
      · omega
      · omega
    · exact ⟨hx1, hx2, rfl⟩
  · rintro ⟨hx1, hx2, rfl⟩
    by_cases ho : s.overlaps start stop = true
    · rcases hout with hout | hout
      · refine ⟨{ s with stop := start }, ?_, hx1, hout, rfl⟩
        rw [piecesOf, if_pos ho]
        refine List.mem_append.mpr (Or.inl (List.mem_append.mpr (Or.inl ?_)))
        rw [if_pos (by omega), List.mem_singleton]
      · refine ⟨{ s with start := stop }, ?_, hout, hx2, rfl⟩
        rw [piecesOf, if_pos ho]
        refine List.mem_append.mpr (Or.inl (List.mem_append.mpr (Or.inr ?_)))
        rw [if_pos (by omega), List.mem_singleton]
    · refine ⟨s, ?_, hx1, hx2, rfl⟩
      rw [piecesOf, if_neg ho, List.mem_singleton]

theorem piecesOf_container_in (start stop : Nat) (m : Modifier) (s : TextStyle)
    (x : Nat) (a : Attrs) (hI : start < stop) (hs : s.start < s.stop)
    (hin : start ≤ x ∧ x < stop) :
    (∃ p ∈ piecesOf start stop m s, p.start ≤ x ∧ x < p.stop ∧ p.attrs = a) ↔
    (s.start ≤ x ∧ x < s.stop ∧ (m.applyA s.attrs).has_formatting = true ∧
      m.applyA s.attrs = a) := by
  have hclip : (clipStyle start stop s).attrs = s.attrs := rfl
  constructor
  · rintro ⟨p, hp, hx1, hx2, rfl⟩
    rcases piecesOf_cases start stop m s p hp with ⟨ho, h1, rfl⟩ | ⟨ho, h2, rfl⟩ |
      ⟨ho, h3, rfl⟩ | ⟨ho, rfl⟩
    · replace hx2 : x < start := hx2
      omega
    · replace hx1 : stop ≤ x := hx1
      omega
    · replace hx1 : max s.start start ≤ x := hx1
      replace hx2 : x < min s.stop stop := hx2
      rw [has_formatting_attrs, apply_attrs, hclip] at h3
      rw [apply_attrs, hclip]
      exact ⟨by omega, by omega, h3, rfl⟩
    · exfalso
      rw [← Bool.not_eq_true, overlaps_iff] at ho
      exact ho ⟨by omega, by omega⟩
  · rintro ⟨hx1, hx2, hfmt, rfl⟩
    have ho : s.overlaps start stop = true :=
      (overlaps_iff s start stop).mpr ⟨by omega, by omega⟩
    refine ⟨m.apply (clipStyle start stop s), ?_, ?_, ?_, ?_⟩
    · rw [piecesOf, if_pos ho]
      refine List.mem_append.mpr (Or.inr ?_)
      rw [if_pos (by rw [has_formatting_attrs, apply_attrs, hclip]; exact hfmt),
        List.mem_singleton]
    · show max s.start start ≤ x
      omega
    · show x < min s.stop stop
      omega
    · rw [apply_attrs, hclip]

theorem pairwise_flatMap {R : α → α → Prop} {S : β → β → Prop} (f : α → List β) :
    ∀ l : List α, l.Pairwise R →
      (∀ a ∈ l, (f a).Pairwise S) →
      (∀ a ∈ l, ∀ b ∈ l, R a b → ∀ x ∈ f a, ∀ y ∈ f b, S x y) →
      (l.flatMap f).Pairwise S
  | [], _, _, _ => by simp
  | a :: l, hR, hS, hc => by
    rw [List.flatMap_cons, List.pairwise_append]
    refine ⟨hS a (by simp),
      pairwise_flatMap f l (List.pairwise_cons.mp hR).2
        (fun b hb => hS b (List.mem_cons_of_mem a hb))
        (fun b hb c hcm hr => hc b (List.mem_cons_of_mem a hb) c
          (List.mem_cons_of_mem a hcm) hr), ?_⟩
    intro x hx y hy
    obtain ⟨b, hb, hyb⟩ := List.mem_flatMap.mp hy
    exact hc a (by simp) b (List.mem_cons_of_mem a hb)
      ((List.pairwise_cons.mp hR).1 b hb) x hx y hyb

/-! ### The gap-filling fold -/

theorem gapFold_spec (m : Modifier) :
    ∀ (C : List (Nat × Nat)) (pos : Nat) (gs : List TextStyle)
      (r : Nat × List TextStyle),
      C.foldl (gapStep m) (pos, gs) = r →
      C.Pairwise (fun a b => a.2 ≤ b.1) →
      (∀ c ∈ C, pos ≤ c.1 ∧ c.1 < c.2) →
      (∀ g ∈ gs, g.stop ≤ pos) →
      gs.Chain' (fun a b => a.stop ≤ b.start) →
      pos ≤ r.1 ∧
      (∀ c ∈ C, c.2 ≤ r.1) ∧
      (r.1 = pos ∨ ∃ c ∈ C, r.1 = c.2) ∧
      (∀ g ∈ r.2, g ∈ gs ∨
        (g.attrs = m.applyA Attrs.default ∧ g.has_formatting = true ∧
          pos ≤ g.start ∧ g.start < g.stop ∧ g.stop ≤ r.1 ∧
          (∀ c ∈ C, g.stop ≤ c.1 ∨ c.2 ≤ g.start))) ∧
      (∀ g ∈ r.2, g.stop ≤ r.1) ∧
      r.2.Chain' (fun a b => a.stop ≤ b.start) ∧
      (∀ g ∈ gs, g ∈ r.2) ∧
      (∀ x, pos ≤ x → x < r.1 →
        (∃ c ∈ C, c.1 ≤ x ∧ x < c.2) ∨
        ((m.applyA Attrs.default).has_formatting = true →
          ∃ g ∈ r.2, g.start ≤ x ∧ x < g.stop))
  | [], pos, gs, r => by
    intro hr hC hc hgs hgss
    rw [List.foldl_nil] at hr
    subst hr
    refine ⟨Nat.le_refl _, by simp, Or.inl rfl, fun g hg => Or.inl hg, hgs, hgss,
      fun g hg => hg, ?_⟩
    intro x hx1 hx2
    replace hx2 : x < pos := hx2
    omega
  | (cs, ce) :: C2, pos, gs, r => by
    intro hr hC hc hgs hgss
    rw [List.foldl_cons] at hr
    replace hr : C2.foldl (gapStep m) (ce,
        if pos < cs then
          if (m.apply (TextStyle.new pos cs)).has_formatting = true then
            gs ++ [m.apply (TextStyle.new pos cs)] else gs
        else gs) = r := hr
    have hcc : pos ≤ cs ∧ cs < ce := hc (cs, ce) (by simp)
    rw [List.pairwise_cons] at hC
    have hc2 : ∀ c ∈ C2, ce ≤ c.1 ∧ c.1 < c.2 := by
      intro c hcm
      have h1 : ce ≤ c.1 := hC.1 c hcm
      exact ⟨h1, (hc c (List.mem_cons_of_mem _ hcm)).2⟩
    by_cases hlt : pos < cs
    · by_cases hfmt : (m.apply (TextStyle.new pos cs)).has_formatting = true
      · rw [if_pos hlt, if_pos hfmt] at hr
        have hgs1 : ∀ g ∈ gs ++ [m.apply (TextStyle.new pos cs)], g.stop ≤ ce := by
          intro g hg
          rcases List.mem_append.mp hg with hg | hg
          · have := hgs g hg
            omega
          · rw [List.mem_singleton] at hg
            subst hg
            show cs ≤ ce
            omega
        have hch1 : (gs ++ [m.apply (TextStyle.new pos cs)]).Chain'
            (fun a b => a.stop ≤ b.start) := by
          rw [List.chain'_append]
          refine ⟨hgss, List.chain'_singleton _, ?_⟩
          intro a ha b hb
          rw [List.head?_cons, Option.mem_def, Option.some.injEq] at hb
          subst hb
          show a.stop ≤ pos
          exact hgs a (List.mem_of_mem_getLast? ha)
        obtain ⟨i1, i2, i3, i4, i5, i6, i7, i8⟩ :=
          gapFold_spec m C2 ce (gs ++ [m.apply (TextStyle.new pos cs)]) r hr
            hC.2 hc2 hgs1 hch1
        refine ⟨by omega, ?_, ?_, ?_, i5, i6, ?_, ?_⟩
        · intro c hcm
          rcases List.mem_cons.mp hcm with rfl | hcm
          · exact i1
          · exact i2 c hcm
        · rcases i3 with h | ⟨c, hcm, h⟩
          · exact Or.inr ⟨(cs, ce), by simp, h⟩
          · exact Or.inr ⟨c, List.mem_cons_of_mem _ hcm, h⟩
        · intro g hg
          rcases i4 g hg with hg1 | ⟨f1, f2, f3, f4, f5, f6⟩
          · rcases List.mem_append.mp hg1 with hg2 | hg2
            · exact Or.inl hg2
            · rw [List.mem_singleton] at hg2
              subst hg2
              refine Or.inr ⟨rfl, hfmt, Nat.le_refl _, hlt, ?_, ?_⟩
              · show cs ≤ r.1
                omega
              · intro c hcm
                rcases List.mem_cons.mp hcm with rfl | hcm
                · exact Or.inl (Nat.le_refl _)
                · refine Or.inl ?_
                  show cs ≤ c.1
                  have := hC.1 c hcm
                  omega
          · refine Or.inr ⟨f1, f2, by omega, f4, f5, ?_⟩
            intro c hcm
            rcases List.mem_cons.mp hcm with rfl | hcm
            · refine Or.inr ?_
              show ce ≤ g.start
              omega
            · exact f6 c hcm
        · intro g hg
          exact i7 g (List.mem_append.mpr (Or.inl hg))
        · intro x hx1 hx2
          by_cases hxce : x < ce
          · by_cases hxcs : x < cs
            · refine Or.inr ?_
              intro hf
              refine ⟨m.apply (TextStyle.new pos cs),
                i7 _ (List.mem_append.mpr (Or.inr (List.mem_singleton.mpr rfl))),
                ?_, ?_⟩
              · show pos ≤ x
                exact hx1
              · show x < cs
                exact hxcs
            · exact Or.inl ⟨(cs, ce), by simp, by omega, hxce⟩
          · rcases i8 x (by omega) hx2 with ⟨c, hcm, h⟩ | h
            · exact Or.inl ⟨c, List.mem_cons_of_mem _ hcm, h⟩
            · exact Or.inr h
      · rw [if_pos hlt, if_neg hfmt] at hr
        obtain ⟨i1, i2, i3, i4, i5, i6, i7, i8⟩ :=
          gapFold_spec m C2 ce gs r hr hC.2 hc2
            (fun g hg => by
              have := hgs g hg
              omega)
            hgss
        refine ⟨by omega, ?_, ?_, ?_, i5, i6, i7, ?_⟩
        · intro c hcm
          rcases List.mem_cons.mp hcm with rfl | hcm
          · exact i1
          · exact i2 c hcm
        · rcases i3 with h | ⟨c, hcm, h⟩
          · exact Or.inr ⟨(cs, ce), by simp, h⟩
          · exact Or.inr ⟨c, List.mem_cons_of_mem _ hcm, h⟩
        · intro g hg
          rcases i4 g hg with hg1 | ⟨f1, f2, f3, f4, f5, f6⟩
          · exact Or.inl hg1
          · refine Or.inr ⟨f1, f2, by omega, f4, f5, ?_⟩
            intro c hcm
            rcases List.mem_cons.mp hcm with rfl | hcm
            · refine Or.inr ?_
              show ce ≤ g.start
              omega
            · exact f6 c hcm
        · intro x hx1 hx2
          by_cases hxce : x < ce
          · by_cases hxcs : x < cs
            · refine Or.inr ?_
              intro hf
              exact absurd
                (show (m.apply (TextStyle.new pos cs)).has_formatting = true from hf)
                hfmt
            · exact Or.inl ⟨(cs, ce), by simp, by omega, hxce⟩
          · rcases i8 x (by omega) hx2 with ⟨c, hcm, h⟩ | h
            · exact Or.inl ⟨c, List.mem_cons_of_mem _ hcm, h⟩
            · exact Or.inr h
    · rw [if_neg hlt] at hr
      have hpc : pos = cs := by omega
      obtain ⟨i1, i2, i3, i4, i5, i6, i7, i8⟩ :=
        gapFold_spec m C2 ce gs r hr hC.2 hc2
          (fun g hg => by
            have := hgs g hg
            omega)
          hgss
      refine ⟨by omega, ?_, ?_, ?_, i5, i6, i7, ?_⟩
      · intro c hcm
        rcases List.mem_cons.mp hcm with rfl | hcm
        · exact i1
        · exact i2 c hcm
      · rcases i3 with h | ⟨c, hcm, h⟩
        · exact Or.inr ⟨(cs, ce), by simp, h⟩
        · exact Or.inr ⟨c, List.mem_cons_of_mem _ hcm, h⟩
      · intro g hg
        rcases i4 g hg with hg1 | ⟨f1, f2, f3, f4, f5, f6⟩
        · exact Or.inl hg1
        · refine Or.inr ⟨f1, f2, by omega, f4, f5, ?_⟩
          intro c hcm
          rcases List.mem_cons.mp hcm with rfl | hcm
          · refine Or.inr ?_
            show ce ≤ g.start
            omega
          · exact f6 c hcm
      · intro x hx1 hx2
        by_cases hxce : x < ce
        · exact Or.inl ⟨(cs, ce), by simp, by omega, hxce⟩
        · rcases i8 x (by omega) hx2 with ⟨c, hcm, h⟩ | h
          · exact Or.inl ⟨c, List.mem_cons_of_mem _ hcm, h⟩
          · exact Or.inr h

theorem gaps_spec (m : Modifier) (start stop : Nat) (C : List (Nat × Nat))
    (G : List TextStyle)
    (hss : start ≤ stop)
    (hC : C.Pairwise (fun a b => a.2 ≤ b.1))
    (hc : ∀ c ∈ C, start ≤ c.1 ∧ c.1 < c.2 ∧ c.2 ≤ stop)
    (hG : finishGaps m stop (C.foldl (gapStep m) (start, [])) = G) :
    (∀ g ∈ G, g.attrs = m.applyA Attrs.default ∧ g.has_formatting = true ∧
      start ≤ g.start ∧ g.start < g.stop ∧ g.stop ≤ stop ∧
      (∀ c ∈ C, g.stop ≤ c.1 ∨ c.2 ≤ g.start)) ∧
    G.Chain' (fun a b => a.stop ≤ b.start) ∧
    (∀ x, start ≤ x → x < stop →
      (∃ c ∈ C, c.1 ≤ x ∧ x < c.2) ∨
      ((m.applyA Attrs.default).has_formatting = true →
        ∃ g ∈ G, g.start ≤ x ∧ x < g.stop)) := by
  rcases hfold : C.foldl (gapStep m) (start, []) with ⟨pos2, gs2⟩
  obtain ⟨i1, i2, i3, i4, i5, i6, i7, i8⟩ :=
    gapFold_spec m C start [] (pos2, gs2) hfold hC
      (fun c hcm => ⟨(hc c hcm).1, (hc c hcm).2.1⟩) (by simp) List.chain'_nil
  replace i1 : start ≤ pos2 := i1
  replace i2 : ∀ c ∈ C, c.2 ≤ pos2 := i2
  replace i5 : ∀ g ∈ gs2, g.stop ≤ pos2 := i5
  replace i6 : gs2.Chain' (fun a b => a.stop ≤ b.start) := i6
  have hfacts : ∀ g ∈ gs2, g.attrs = m.applyA Attrs.default ∧
      g.has_formatting = true ∧ start ≤ g.start ∧ g.start < g.stop ∧
      g.stop ≤ pos2 ∧ (∀ c ∈ C, g.stop ≤ c.1 ∨ c.2 ≤ g.start) := by
    intro g hg
    rcases i4 g hg with hx | ⟨f1, f2, f3, f4, f5, f6⟩
    · simp at hx
    · exact ⟨f1, f2, f3, f4, f5, f6⟩
  have hr1 : pos2 ≤ stop := by
    rcases i3 with h | ⟨c, hcm, h⟩
    · replace h : pos2 = start := h
      omega
    · replace h : pos2 = c.2 := h
      have := (hc c hcm).2.2
      omega
  rw [hfold] at hG
  replace hG : (if pos2 < stop then
      if (m.apply (TextStyle.new pos2 stop)).has_formatting = true then
        gs2 ++ [m.apply (TextStyle.new pos2 stop)] else gs2
    else gs2) = G := hG
  by_cases hlt : pos2 < stop
  · by_cases hfmt : (m.apply (TextStyle.new pos2 stop)).has_formatting = true
    · rw [if_pos hlt, if_pos hfmt] at hG
      subst hG
      refine ⟨?_, ?_, ?_⟩
      · intro g hg
        rcases List.mem_append.mp hg with hg | hg
        · obtain ⟨f1, f2, f3, f4, f5, f6⟩ := hfacts g hg
          exact ⟨f1, f2, f3, f4, by omega, f6⟩
        · rw [List.mem_singleton] at hg
          subst hg
          refine ⟨rfl, hfmt, ?_, hlt, Nat.le_refl _, ?_⟩
          · show start ≤ pos2
            exact i1
          · intro c hcm
            refine Or.inr ?_
            show c.2 ≤ pos2
            exact i2 c hcm
      · rw [List.chain'_append]
        refine ⟨i6, List.chain'_singleton _, ?_⟩
        intro a ha b hb
        rw [List.head?_cons, Option.mem_def, Option.some.injEq] at hb
        subst hb
        show a.stop ≤ pos2
        exact i5 a (List.mem_of_mem_getLast? ha)
      · intro x hx1 hx2
        by_cases hxp : x < pos2
        · rcases i8 x hx1 hxp with h | h
          · exact Or.inl h
          · refine Or.inr ?_
            intro hf
            obtain ⟨g, hg, h1, h2⟩ := h hf
            exact ⟨g, List.mem_append.mpr (Or.inl hg), h1, h2⟩
        · refine Or.inr ?_
          intro hf
          refine ⟨m.apply (TextStyle.new pos2 stop),
            List.mem_append.mpr (Or.inr (List.mem_singleton.mpr rfl)), ?_, ?_⟩
          · show pos2 ≤ x
            omega
          · show x < stop
            exact hx2
    · rw [if_pos hlt, if_neg hfmt] at hG
      subst hG
      refine ⟨?_, i6, ?_⟩
      · intro g hg
        obtain ⟨f1, f2, f3, f4, f5, f6⟩ := hfacts g hg
        exact ⟨f1, f2, f3, f4, by omega, f6⟩
      · intro x hx1 hx2
        by_cases hxp : x < pos2
        · rcases i8 x hx1 hxp with h | h
          · exact Or.inl h
          · exact Or.inr h
        · refine Or.inr ?_
          intro hf
          exact absurd
            (show (m.apply (TextStyle.new pos2 stop)).has_formatting = true from hf)
            hfmt
  · rw [if_neg hlt] at hG
    subst hG
    refine ⟨?_, i6, ?_⟩
    · intro g hg
      obtain ⟨f1, f2, f3, f4, f5, f6⟩ := hfacts g hg
      exact ⟨f1, f2, f3, f4, by omega, f6⟩
    · intro x hx1 hx2
      rcases i8 x hx1 (by omega) with h | h
      · exact Or.inl h
      · exact Or.inr h

/-! ### The merge pass -/

theorem mergeGo_spec :
    ∀ (rest : List TextStyle) (cur : TextStyle),
      cur.start < cur.stop → cur.has_formatting = true →
      (∀ s ∈ rest, s.start < s.stop ∧ s.has_formatting = true) →
      (cur :: rest).Chain' (fun a b => a.stop ≤ b.start) →
      (∀ s ∈ mergeAdjacentGo cur rest, s.start < s.stop ∧ s.has_formatting = true) ∧
      (mergeAdjacentGo cur rest).Chain'
        (fun a b => a.stop ≤ b.start ∧ ¬(a.stop = b.start ∧ sameAttrs a b = true)) ∧
      (∃ h t, mergeAdjacentGo cur rest = h :: t ∧ h.start = cur.start ∧
        h.attrs = cur.attrs) ∧
      (∀ (x : Nat) (a : Attrs),
        (∃ s ∈ mergeAdjacentGo cur rest, s.start ≤ x ∧ x < s.stop ∧ s.attrs = a) ↔
        (∃ s ∈ cur :: rest, s.start ≤ x ∧ x < s.stop ∧ s.attrs = a))
  | [], cur => by
    intro h1 h2 _ _
    rw [mergeAdjacentGo]
    refine ⟨?_, List.chain'_singleton _, ⟨cur, [], rfl, rfl, rfl⟩, fun x a => Iff.rfl⟩
    intro s hs
    rw [List.mem_singleton] at hs
    subst hs
    exact ⟨h1, h2⟩
  | b :: rest2, cur => by
    intro h1 h2 hnf hch
    rw [List.chain'_cons] at hch
    have hbnf := hnf b (by simp)
    rw [mergeAdjacentGo]
    by_cases hm : cur.stop = b.start ∧ sameAttrs cur b = true
    · rw [if_pos hm]
      have hch2 : ({ cur with stop := b.stop } :: rest2).Chain'
          (fun a b => a.stop ≤ b.start) := by
        cases rest2 with
        | nil => exact List.chain'_singleton _
        | cons c rest3 =>
          rw [List.chain'_cons]
          rw [List.chain'_cons] at hch
          exact ⟨hch.2.1, hch.2.2⟩
      obtain ⟨nf, hchain, ⟨h, t, heq, hstart, hattrs⟩, hiff⟩ :=
        mergeGo_spec rest2 { cur with stop := b.stop }
          (by
            show cur.start < b.stop
            omega)
          h2 (fun s hs => hnf s (List.mem_cons_of_mem b hs)) hch2
      have hab : cur.attrs = b.attrs := (sameAttrs_iff cur b).mp hm.2
      refine ⟨nf, hchain, ⟨h, t, heq, hstart, hattrs⟩, ?_⟩
      intro x a
      rw [hiff x a]
      constructor
      · rintro ⟨s, hs, hx1, hx2, rfl⟩
        rcases List.mem_cons.mp hs with rfl | hs
        · replace hx1 : cur.start ≤ x := hx1
          replace hx2 : x < b.stop := hx2
          by_cases hxc : x < cur.stop
          · exact ⟨cur, by simp, hx1, hxc, rfl⟩
          · refine ⟨b, by simp, by omega, hx2, hab.symm⟩
        · exact ⟨s, List.mem_cons_of_mem cur (List.mem_cons_of_mem b hs),
            hx1, hx2, rfl⟩
      · rintro ⟨s, hs, hx1, hx2, rfl⟩
        rcases List.mem_cons.mp hs with rfl | hs
        · refine ⟨{ s with stop := b.stop }, by simp, hx1, ?_, rfl⟩
          show x < b.stop
          omega
        · rcases List.mem_cons.mp hs with rfl | hs
          · refine ⟨{ cur with stop := s.stop }, by simp, ?_, hx2, hab⟩
            show cur.start ≤ x
            omega
          · exact ⟨s, List.mem_cons_of_mem _ hs, hx1, hx2, rfl⟩
    · rw [if_neg hm]
      obtain ⟨nf, hchain, ⟨h, t, heq, hstart, hattrs⟩, hiff⟩ :=
        mergeGo_spec rest2 b hbnf.1 hbnf.2
          (fun s hs => hnf s (List.mem_cons_of_mem b hs)) hch.2
      refine ⟨?_, ?_, ⟨cur, mergeAdjacentGo b rest2, rfl, rfl, rfl⟩, ?_⟩
      · intro s hs
        rcases List.mem_cons.mp hs with rfl | hs
        · exact ⟨h1, h2⟩
        · exact nf s hs
      · rw [heq, List.chain'_cons]
        refine ⟨⟨by rw [hstart]; exact hch.1, ?_⟩, heq ▸ hchain⟩
        rintro ⟨ht, hsa⟩
        refine hm ⟨by rw [← hstart]; exact ht, ?_⟩
        rw [sameAttrs_iff] at hsa ⊢
        rw [← hattrs]
        exact hsa
      · intro x a
        constructor
        · rintro ⟨s, hs, hx1, hx2, rfl⟩
          rcases List.mem_cons.mp hs with rfl | hs
          · exact ⟨s, by simp, hx1, hx2, rfl⟩
          · obtain ⟨s2, hs2, hy1, hy2, hy3⟩ := (hiff x s.attrs).mp
              ⟨s, hs, hx1, hx2, rfl⟩
            exact ⟨s2, List.mem_cons_of_mem cur hs2, hy1, hy2, hy3⟩
        · rintro ⟨s, hs, hx1, hx2, rfl⟩
          rcases List.mem_cons.mp hs with rfl | hs
          · exact ⟨s, by simp, hx1, hx2, rfl⟩
          · obtain ⟨s2, hs2, hy1, hy2, hy3⟩ := (hiff x s.attrs).mpr
              ⟨s, hs, hx1, hx2, rfl⟩
            exact ⟨s2, List.mem_cons_of_mem cur hs2, hy1, hy2, hy3⟩

theorem merge_adjacent_spec (l : List TextStyle)
    (hnf : ∀ s ∈ l, s.start < s.stop ∧ s.has_formatting = true)
    (hch : l.Chain' (fun a b => a.stop ≤ b.start)) :
    StyleInv (merge_adjacent_styles l) ∧
    (∀ (x : Nat) (a : Attrs),
      (∃ s ∈ merge_adjacent_styles l, s.start ≤ x ∧ x < s.stop ∧ s.attrs = a) ↔
      (∃ s ∈ l, s.start ≤ x ∧ x < s.stop ∧ s.attrs = a)) := by
  cases l with
  | nil =>
    rw [merge_adjacent_styles]
    exact ⟨⟨by simp, List.chain'_nil⟩, fun x a => Iff.rfl⟩
  | cons a rest =>
    rw [merge_adjacent_styles]
    have hanf := hnf a (by simp)
    obtain ⟨nf, hchain, -, hiff⟩ :=
      mergeGo_spec rest a hanf.1 hanf.2
        (fun s hs => hnf s (List.mem_cons_of_mem a hs)) hch
    exact ⟨⟨nf, hchain⟩, hiff⟩

theorem mem_iteSingleton {c : Prop} [Decidable c] {y x : α}
    (h : x ∈ (if c then [y] else [])) : c ∧ x = y := by
  split at h
  · rw [List.mem_singleton] at h
    exact ⟨by assumption, h⟩
  · simp at h

theorem pairwise_iteSingleton {c : Prop} [Decidable c] {y : α} {R : α → α → Prop} :
    (if c then [y] else []).Pairwise R := by
  split
  · exact List.pairwise_singleton R y
  · exact List.Pairwise.nil

theorem piecesOf_pairwise (start stop : Nat) (m : Modifier) (s : TextStyle)
    (hI : start < stop) (hs : s.start < s.stop) :
    (piecesOf start stop m s).Pairwise
      (fun a b => a.stop ≤ b.start ∨ b.stop ≤ a.start) := by
  rw [piecesOf]
  by_cases ho : s.overlaps start stop = true
  · rw [if_pos ho]
    obtain ⟨o1, o2⟩ := (overlaps_iff s start stop).mp ho
    refine List.pairwise_append.mpr ⟨List.pairwise_append.mpr
      ⟨pairwise_iteSingleton, pairwise_iteSingleton, ?_⟩,
      pairwise_iteSingleton, ?_⟩
    · intro x hx y hy
      obtain ⟨hc1, rfl⟩ := mem_iteSingleton hx
      obtain ⟨hc2, rfl⟩ := mem_iteSingleton hy
      refine Or.inl ?_
      show start ≤ stop
      omega
    · intro x hx y hy
      obtain ⟨hc2, rfl⟩ := mem_iteSingleton hy
      rcases List.mem_append.mp hx with hx | hx
      · obtain ⟨hc1, rfl⟩ := mem_iteSingleton hx
        refine Or.inl ?_
        show start ≤ max s.start start
        omega
      · obtain ⟨hc1, rfl⟩ := mem_iteSingleton hx
        refine Or.inr ?_
        show min s.stop stop ≤ stop
        omega
  · rw [if_neg ho]
    exact List.pairwise_singleton _ s

/-- Shape and container semantics of `apply_style` on an invariant-respecting
list: the result satisfies the invariant, and a position is covered by a
result run with given attributes exactly when the pointwise target function
says so (inside the range: the modified attributes of the old covering run,
or of the blank run, kept only when formatted; outside: unchanged). -/
theorem apply_style_container (l : List TextStyle) (start stop : Nat) (m : Modifier)
    (hI : start < stop) (hinv : StyleInv l) :
    StyleInv (apply_style l start stop m) ∧
    ∀ (x : Nat) (a : Attrs),
      ((∃ s ∈ apply_style l start stop m, s.start ≤ x ∧ x < s.stop ∧ s.attrs = a) ↔
        if start ≤ x ∧ x < stop then
          (m.applyA ((style_at l x).getD Attrs.default)).has_formatting = true ∧
            m.applyA ((style_at l x).getD Attrs.default) = a
        else ∃ s ∈ l, s.start ≤ x ∧ x < s.stop ∧ s.attrs = a) := by
  have hln : ∀ s ∈ l, s.start < s.stop := fun s hs => (hinv.1 s hs).1
  have hlf : ∀ s ∈ l, s.has_formatting = true := fun s hs => (hinv.1 s hs).2
  have hlch : l.Chain' (fun a b => a.stop ≤ b.start) := hinv.2.imp (fun a b h => h.1)
  have hlpair : l.Pairwise (fun a b => a.stop ≤ b.start) := chainDisj_pairwise l hln hlch
  have hldisj : l.Pairwise (fun a b => a.stop ≤ b.start ∨ b.stop ≤ a.start) :=
    hlpair.imp (fun h => Or.inl h)
  have hout : apply_style l start stop m = merge_adjacent_styles
      (sortByKey TextStyle.start ((l.flatMap (piecesOf start stop m)) ++
        finishGaps m stop
          ((sortByKey Prod.fst
            (((l.flatMap (piecesOf start stop m)).filter
                (fun s => s.overlaps start stop)).map
              (fun s => (max s.start start, min s.stop stop)))).foldl
            (gapStep m) (start, [])))) := by
    rw [apply_style, if_neg (by omega : ¬start ≥ stop)]
  set P := l.flatMap (piecesOf start stop m) with hPdef
  set C := sortByKey Prod.fst ((P.filter (fun s => s.overlaps start stop)).map
    (fun s => (max s.start start, min s.stop stop))) with hCdef
  set G := finishGaps m stop (C.foldl (gapStep m) (start, [])) with hGdef
  have hPnf : ∀ p ∈ P, p.start < p.stop ∧ p.has_formatting = true := by
    intro p hp
    obtain ⟨s, hsl, hps⟩ := List.mem_flatMap.mp hp
    obtain ⟨b1, b2, b3⟩ := piecesOf_bounds start stop m s p hI (hln s hsl) hps
    exact ⟨b3, piecesOf_formatted start stop m s p (hlf s hsl) hps⟩
  have hPpair : P.Pairwise (fun a b => a.stop ≤ b.start ∨ b.stop ≤ a.start) := by
    refine pairwise_flatMap _ l hlpair
      (fun s hsl => piecesOf_pairwise start stop m s hI (hln s hsl)) ?_
    intro s hsl t htl hst x hx y hy
    obtain ⟨bx1, bx2, bx3⟩ := piecesOf_bounds start stop m s x hI (hln s hsl) hx
    obtain ⟨by1, by2, by3⟩ := piecesOf_bounds start stop m t y hI (hln t htl) hy
    refine Or.inl ?_
    omega
  have hCmem : ∀ c ∈ C, start ≤ c.1 ∧ c.1 < c.2 ∧ c.2 ≤ stop := by
    intro c hc
    rw [hCdef, (sortByKey_perm _ _).mem_iff] at hc
    obtain ⟨p, hpf, rfl⟩ := List.mem_map.mp hc
    rw [List.mem_filter] at hpf
    obtain ⟨o1, o2⟩ := (overlaps_iff _ start stop).mp hpf.2
    have hpn := (hPnf p hpf.1).1
    refine ⟨?_, ?_, ?_⟩
    · show start ≤ max p.start start
      omega
    · show max p.start start < min p.stop stop
      omega
    · show min p.stop stop ≤ stop
      omega
  have hCpair : C.Pairwise (fun a b => a.2 ≤ b.1) := by
    have hpre : ((P.filter (fun s => s.overlaps start stop)).map
        (fun s => (max s.start start, min s.stop stop))).Pairwise
        (fun a b => a.2 ≤ b.1 ∨ b.2 ≤ a.1) := by
      rw [List.pairwise_map]
      refine (hPpair.filter _).imp_of_mem ?_
      intro a b ha hb hab
      rw [List.mem_filter] at ha hb
      obtain ⟨a1, a2⟩ := (overlaps_iff _ start stop).mp ha.2
      obtain ⟨b1, b2⟩ := (overlaps_iff _ start stop).mp hb.2
      rcases hab with h | h
      · refine Or.inl ?_
        show min a.stop stop ≤ max b.start start
        omega
      · refine Or.inr ?_
        show min b.stop stop ≤ max a.start start
        omega
    have hdisj2 : C.Pairwise (fun a b => a.2 ≤ b.1 ∨ b.2 ≤ a.1) := by
      rw [hCdef]
      exact ((sortByKey_perm Prod.fst _).pairwise_iff
        (fun hxy => Or.symm hxy)).mpr hpre
    have hsorted : C.Pairwise (fun a b => a.1 ≤ b.1) := by
      rw [hCdef]
      exact sortByKey_sorted Prod.fst _
    refine (hsorted.and hdisj2).imp_of_mem ?_
    intro a b ha hb hab
    have hbm := hCmem b hb
    rcases hab.2 with h | h
    · exact h
    · have := hab.1
      omega
  have hCcover : ∀ x, start ≤ x → x < stop →
      ((∃ c ∈ C, c.1 ≤ x ∧ x < c.2) ↔ (∃ p ∈ P, p.start ≤ x ∧ x < p.stop)) := by
    intro x hx1 hx2
    constructor
    · rintro ⟨c, hc, hc1, hc2⟩
      rw [hCdef, (sortByKey_perm _ _).mem_iff] at hc
      obtain ⟨p, hpf, rfl⟩ := List.mem_map.mp hc
      rw [List.mem_filter] at hpf
      replace hc1 : max p.start start ≤ x := hc1
      replace hc2 : x < min p.stop stop := hc2
      exact ⟨p, hpf.1, by omega, by omega⟩
    · rintro ⟨p, hp, hp1, hp2⟩
      have ho : p.overlaps start stop = true :=
        (overlaps_iff p start stop).mpr ⟨by omega, by omega⟩
      refine ⟨(max p.start start, min p.stop stop), ?_, by omega, by omega⟩
      rw [hCdef, (sortByKey_perm _ _).mem_iff]
      exact List.mem_map_of_mem _ (List.mem_filter.mpr ⟨hp, ho⟩)
  obtain ⟨gF, gCh, gCov⟩ := gaps_spec m start stop C G (by omega) hCpair hCmem hGdef.symm
  have hGnf : ∀ g ∈ G, g.start < g.stop ∧ g.has_formatting = true :=
    fun g hg => ⟨(gF g hg).2.2.2.1, (gF g hg).2.1⟩
  have hGpair : G.Pairwise (fun a b => a.stop ≤ b.start ∨ b.stop ≤ a.start) :=
    (chainDisj_pairwise G (fun g hg => (hGnf g hg).1) gCh).imp (fun h => Or.inl h)
  have hPGnf : ∀ p ∈ P ++ G, p.start < p.stop ∧ p.has_formatting = true := by
    intro p hp
    rcases List.mem_append.mp hp with hp | hp
    · exact hPnf p hp
    · exact hGnf p hp
  have hPGpair : (P ++ G).Pairwise
      (fun a b => a.stop ≤ b.start ∨ b.stop ≤ a.start) := by
    rw [List.pairwise_append]
    refine ⟨hPpair, hGpair, ?_⟩
    intro p hp g hg
    obtain ⟨f1, f2, f3, f4, f5, f6⟩ := gF g hg
    by_cases ho : p.overlaps start stop = true
    · have hcm : (max p.start start, min p.stop stop) ∈ C := by
        rw [hCdef, (sortByKey_perm _ _).mem_iff]
        exact List.mem_map_of_mem _ (List.mem_filter.mpr ⟨hp, ho⟩)
      obtain ⟨o1, o2⟩ := (overlaps_iff p start stop).mp ho
      rcases f6 _ hcm with h | h
      · replace h : g.stop ≤ max p.start start := h
        refine Or.inr ?_
        omega
      · replace h : min p.stop stop ≤ g.start := h
        refine Or.inl ?_
        omega
    · rw [overlaps_iff] at ho
      have hpn := (hPnf p hp).1
      omega
  have hSperm : (sortByKey TextStyle.start (P ++ G)).Perm (P ++ G) := sortByKey_perm _ _
  have hSnf : ∀ p ∈ sortByKey TextStyle.start (P ++ G),
      p.start < p.stop ∧ p.has_formatting = true :=
    fun p hp => hPGnf p (hSperm.mem_iff.mp hp)
  have hSpair : (sortByKey TextStyle.start (P ++ G)).Pairwise
      (fun a b => a.stop ≤ b.start ∨ b.stop ≤ a.start) :=
    (hSperm.pairwise_iff (fun hxy => Or.symm hxy)).mpr hPGpair
  have hSch : (sortByKey TextStyle.start (P ++ G)).Chain'
      (fun a b => a.stop ≤ b.start) := by
    refine pairwise_chainDisj _ (fun p hp => (hSnf p hp).1) ?_ hSpair
    exact sortByKey_sorted TextStyle.start (P ++ G)
  obtain ⟨hMinv, hMiff⟩ := merge_adjacent_spec (sortByKey TextStyle.start (P ++ G))
    hSnf hSch
  rw [hout]
  refine ⟨hMinv, ?_⟩
  intro x a
  rw [hMiff x a]
  have hSmem : (∃ s ∈ sortByKey TextStyle.start (P ++ G),
      s.start ≤ x ∧ x < s.stop ∧ s.attrs = a) ↔
      (∃ s ∈ P ++ G, s.start ≤ x ∧ x < s.stop ∧ s.attrs = a) := by
    constructor
    · rintro ⟨s, hs, hq⟩
      exact ⟨s, hSperm.mem_iff.mp hs, hq⟩
    · rintro ⟨s, hs, hq⟩
      exact ⟨s, hSperm.mem_iff.mpr hs, hq⟩
  rw [hSmem]
  by_cases hx : start ≤ x ∧ x < stop
  · rw [if_pos hx]
    constructor
    · rintro ⟨s, hs, hx1, hx2, rfl⟩
      rcases List.mem_append.mp hs with hsP | hsG
      · obtain ⟨t, htl, hpt⟩ := List.mem_flatMap.mp hsP
        obtain ⟨ht1, ht2, ht3, ht4⟩ :=
          (piecesOf_container_in start stop m t x s.attrs hI (hln t htl) hx).mp
            ⟨s, hpt, hx1, hx2, rfl⟩
        have hsat : style_at l x = some t.attrs :=
          (style_at_some l x t.attrs hldisj).mpr ⟨t, htl, ht1, ht2, rfl⟩
        rw [hsat]
        simp only [Option.getD_some]
        exact ⟨ht3, ht4⟩
      · obtain ⟨f1, f2, f3, f4, f5, f6⟩ := gF s hsG
        have hnocov : ¬∃ c ∈ C, c.1 ≤ x ∧ x < c.2 := by
          rintro ⟨c, hcm, hc1, hc2⟩
          rcases f6 c hcm with h | h
          · omega
          · omega
        have hnol : style_at l x = none := by
          rw [style_at_none]
          intro t htl hq
          by_cases hf : (m.applyA t.attrs).has_formatting = true
          · obtain ⟨p, hpp, hp1, hp2, hp3⟩ :=
              (piecesOf_container_in start stop m t x (m.applyA t.attrs) hI
                (hln t htl) hx).mpr ⟨hq.1, hq.2, hf, rfl⟩
            exact hnocov ((hCcover x hx.1 hx.2).mpr
              ⟨p, List.mem_flatMap.mpr ⟨t, htl, hpp⟩, hp1, hp2⟩)
          · rw [Bool.not_eq_true] at hf
            have hdef := applyA_of_unformatted m t.attrs hf
            have hgf : (m.applyA Attrs.default).has_formatting = true := by
              rw [← f1, ← has_formatting_attrs]
              exact f2
            rw [hdef] at hgf
            exact absurd (hf.symm.trans hgf) (by decide)
        rw [hnol]
        simp only [Option.getD_none]
        have hgf : (m.applyA Attrs.default).has_formatting = true := by
          rw [← f1, ← has_formatting_attrs]
          exact f2
        exact ⟨hgf, f1.symm⟩
    · rintro ⟨hfmt, hval⟩
      cases hsat : style_at l x with
      | some as =>
        rw [hsat] at hfmt hval
        simp only [Option.getD_some] at hfmt hval
        obtain ⟨t, htl, ht1, ht2, ht3⟩ := (style_at_some l x as hldisj).mp hsat
        obtain ⟨p, hpp, hp1, hp2, hp3⟩ :=
          (piecesOf_container_in start stop m t x (m.applyA t.attrs) hI
            (hln t htl) hx).mpr ⟨ht1, ht2, by rw [ht3]; exact hfmt, rfl⟩
        refine ⟨p, List.mem_append.mpr (Or.inl (List.mem_flatMap.mpr ⟨t, htl, hpp⟩)),
          hp1, hp2, ?_⟩
        rw [hp3, ht3, hval]
      | none =>
        rw [hsat] at hfmt hval
        simp only [Option.getD_none] at hfmt hval
        have hnP : ¬∃ p ∈ P, p.start ≤ x ∧ x < p.stop := by
          rintro ⟨p, hp, hp1, hp2⟩
          obtain ⟨t, htl, hpt⟩ := List.mem_flatMap.mp hp
          obtain ⟨ht1, ht2, -, -⟩ :=
            (piecesOf_container_in start stop m t x p.attrs hI (hln t htl) hx).mp
              ⟨p, hpt, hp1, hp2, rfl⟩
          rw [style_at_none] at hsat
          exact hsat t htl ⟨ht1, ht2⟩
        rcases gCov x hx.1 hx.2 with hcov | hgap
        · exact absurd ((hCcover x hx.1 hx.2).mp hcov) hnP
        · obtain ⟨g, hg, hg1, hg2⟩ := hgap hfmt
          refine ⟨g, List.mem_append.mpr (Or.inr hg), hg1, hg2, ?_⟩
          rw [(gF g hg).1, hval]
  · rw [if_neg hx]
    constructor
    · rintro ⟨s, hs, hx1, hx2, rfl⟩
      rcases List.mem_append.mp hs with hsP | hsG
      · obtain ⟨t, htl, hpt⟩ := List.mem_flatMap.mp hsP
        obtain ⟨ht1, ht2, ht3⟩ :=
          (piecesOf_container_out start stop m t x s.attrs hI (hln t htl)
            (by omega)).mp ⟨s, hpt, hx1, hx2, rfl⟩
        exact ⟨t, htl, ht1, ht2, ht3⟩
      · obtain ⟨f1, f2, f3, f4, f5, f6⟩ := gF s hsG
        exfalso
        omega
    · rintro ⟨t, htl, ht1, ht2, ht3⟩
      obtain ⟨p, hpp, hp1, hp2, hp3⟩ :=
        (piecesOf_container_out start stop m t x a hI (hln t htl) (by omega)).mpr
          ⟨ht1, ht2, ht3⟩
      exact ⟨p, List.mem_append.mpr (Or.inl (List.mem_flatMap.mpr ⟨t, htl, hpp⟩)),
        hp1, hp2, hp3⟩

theorem style_at_apply_style (l : List TextStyle) (start stop : Nat) (m : Modifier)
    (hI : start < stop) (hinv : StyleInv l) (x : Nat) :
    style_at (apply_style l start stop m) x =
      if start ≤ x ∧ x < stop then
        (if (m.applyA ((style_at l x).getD Attrs.default)).has_formatting = true
         then some (m.applyA ((style_at l x).getD Attrs.default)) else none)
      else style_at l x := by
  have hldisj : l.Pairwise (fun a b => a.stop ≤ b.start ∨ b.stop ≤ a.start) :=
    (chainDisj_pairwise l (fun s hs => (hinv.1 s hs).1)
      (hinv.2.imp (fun a b h => h.1))).imp (fun h => Or.inl h)
  obtain ⟨hinv2, hiff⟩ := apply_style_container l start stop m hI hinv
  have hdisj2 : (apply_style l start stop m).Pairwise
      (fun a b => a.stop ≤ b.start ∨ b.stop ≤ a.start) :=
    (chainDisj_pairwise _ (fun s hs => (hinv2.1 s hs).1)
      (hinv2.2.imp (fun a b h => h.1))).imp (fun h => Or.inl h)
  by_cases hx : start ≤ x ∧ x < stop
  · rw [if_pos hx]
    by_cases hf : (m.applyA ((style_at l x).getD Attrs.default)).has_formatting = true
    · rw [if_pos hf]
      refine (style_at_some _ x _ hdisj2).mpr ?_
      refine (hiff x _).mpr ?_
      rw [if_pos hx]
      exact ⟨hf, rfl⟩
    · rw [if_neg hf]
      rw [style_at_none]
      intro s hs hc
      have h2 := (hiff x s.attrs).mp ⟨s, hs, hc.1, hc.2, rfl⟩
      rw [if_pos hx] at h2
      exact hf h2.1
  · rw [if_neg hx]
    cases hsat : style_at l x with
    | some as =>
      refine (style_at_some _ x as hdisj2).mpr ?_
      refine (hiff x as).mpr ?_
      rw [if_neg hx]
      exact (style_at_some l x as hldisj).mp hsat
    | none =>
      rw [style_at_none]
      intro s hs hc
      have h2 := (hiff x s.attrs).mp ⟨s, hs, hc.1, hc.2, rfl⟩
      rw [if_neg hx] at h2
      obtain ⟨t, htl, ht1, ht2, ht3⟩ := h2
      rw [style_at_none] at hsat
      exact hsat t htl ⟨ht1, ht2⟩

/-! ### Canonicity: `style_at` determines an invariant-respecting list -/

theorem style_at_none_of_lt (l : List TextStyle) (x : Nat)
    (h : ∀ s ∈ l, x < s.start) : style_at l x = none := by
  rw [style_at_none]
  intro s hs hc
  have := h s hs
  omega

theorem style_at_cons_skip (a : TextStyle) (t : List TextStyle) (x : Nat)
    (h : ¬(a.start ≤ x ∧ x < a.stop)) : style_at (a :: t) x = style_at t x := by
  rw [style_at, style_at, List.find?_cons_of_neg]
  simp only [Bool.and_eq_true, decide_eq_true_eq]
  intro hc
  exact h ⟨hc.1, hc.2⟩

theorem style_at_cons_self (a : TextStyle) (t : List TextStyle)
    (hne : a.start < a.stop) : style_at (a :: t) a.start = some a.attrs := by
  rw [style_at, List.find?_cons_of_pos]
  · rfl
  · simp only [Bool.and_eq_true, decide_eq_true_eq]
    exact ⟨Nat.le_refl _, hne⟩

theorem style_at_ext :
    ∀ (l1 l2 : List TextStyle), StyleInv l1 → StyleInv l2 →
      (∀ x, style_at l1 x = style_at l2 x) → l1 = l2
  | [], [], _, _, _ => rfl
  | [], b :: t2, _, hinv2, h => by
    exfalso
    have hb := (hinv2.1 b (by simp)).1
    have h2 := h b.start
    rw [style_at_cons_self b t2 hb] at h2
    simp [style_at] at h2
  | a :: t1, [], hinv1, _, h => by
    exfalso
    have ha := (hinv1.1 a (by simp)).1
    have h2 := h a.start
    rw [style_at_cons_self a t1 ha] at h2
    simp [style_at] at h2
  | a :: t1, b :: t2, hinv1, hinv2, h => by
    have ha := (hinv1.1 a (by simp)).1
    have hb := (hinv2.1 b (by simp)).1
    have ht1s : ∀ s ∈ t1, a.stop ≤ s.start := by
      have hp := chainDisj_pairwise (a :: t1) (fun s hs => (hinv1.1 s hs).1)
        (hinv1.2.imp (fun u v hh => hh.1))
      exact fun s hs => (List.pairwise_cons.mp hp).1 s hs
    have ht2s : ∀ s ∈ t2, b.stop ≤ s.start := by
      have hp := chainDisj_pairwise (b :: t2) (fun s hs => (hinv2.1 s hs).1)
        (hinv2.2.imp (fun u v hh => hh.1))
      exact fun s hs => (List.pairwise_cons.mp hp).1 s hs
    have hstart : a.start = b.start := by
      rcases Nat.lt_trichotomy a.start b.start with hlt | heq | hgt
      · exfalso
        have h2 := h a.start
        rw [style_at_cons_self a t1 ha] at h2
        rw [style_at_none_of_lt (b :: t2) a.start ?_] at h2
        · exact Option.noConfusion h2
        · intro s hs
          rcases List.mem_cons.mp hs with rfl | hs
          · exact hlt
          · have := ht2s s hs
            omega
      · exact heq
      · exfalso
        have h2 := h b.start
        rw [style_at_cons_self b t2 hb] at h2
        rw [style_at_none_of_lt (a :: t1) b.start ?_] at h2
        · exact Option.noConfusion h2
        · intro s hs
          rcases List.mem_cons.mp hs with rfl | hs
          · exact hgt
          · have := ht1s s hs
            omega
    have hattr : a.attrs = b.attrs := by
      have h2 := h a.start
      rw [style_at_cons_self a t1 ha] at h2
      rw [hstart, style_at_cons_self b t2 hb] at h2
      exact Option.some.injEq _ _ ▸ h2
    have hstop : a.stop = b.stop := by
      rcases Nat.lt_trichotomy a.stop b.stop with hlt | heq | hgt
      · exfalso
        have h2 := h a.stop
        have hbr : style_at (b :: t2) a.stop = some b.attrs := by
          rw [style_at, List.find?_cons_of_pos]
          · rfl
          · simp only [Bool.and_eq_true, decide_eq_true_eq]
            refine ⟨?_, hlt⟩
            omega
        rw [hbr, style_at_cons_skip a t1 a.stop (by omega)] at h2
        cases ht1 : t1 with
        | nil =>
          rw [ht1] at h2
          simp [style_at] at h2
        | cons c t3 =>
          rw [ht1] at h2
          have hcs : a.stop ≤ c.start := ht1s c (by rw [ht1]; simp)
          rcases Nat.eq_or_lt_of_le hcs with hceq | hclt
          · have hc := (hinv1.1 c (by rw [ht1]; simp)).1
            have h3 : style_at (c :: t3) a.stop = some c.attrs := by
              rw [hceq]
              exact style_at_cons_self c t3 hc
            rw [h3] at h2
            have hca : c.attrs = b.attrs := by
              have := Option.some.injEq c.attrs b.attrs
              exact this ▸ h2
            have hchain := hinv1.2
            rw [ht1, List.chain'_cons] at hchain
            refine hchain.1.2 ⟨hceq, ?_⟩
            rw [sameAttrs_iff, hattr, hca]
          · rw [style_at_none_of_lt (c :: t3) a.stop ?_] at h2
            · exact Option.noConfusion h2
            · intro s hs
              rcases List.mem_cons.mp hs with rfl | hs
              · exact hclt
              · have hcna := (hinv1.1 c (by rw [ht1]; simp)).1
                have hchain := hinv1.2
                rw [ht1] at hchain
                have hp := chainDisj_pairwise (a :: c :: t3)
                  (fun u hu => by
                    rw [← ht1] at hu
                    exact (hinv1.1 u hu).1)
                  (hchain.imp (fun u v hh => hh.1))
                rw [List.pairwise_cons] at hp
                have hp2 := (List.pairwise_cons.mp hp.2).1 s hs
                omega
      · exact heq
      · exfalso
        have h2 := (h b.stop).symm
        have har : style_at (a :: t1) b.stop = some a.attrs := by
          rw [style_at, List.find?_cons_of_pos]
          · rfl
          · simp only [Bool.and_eq_true, decide_eq_true_eq]
            refine ⟨?_, hgt⟩
            omega
        rw [har, style_at_cons_skip b t2 b.stop (by omega)] at h2
        cases ht2 : t2 with
        | nil =>
          rw [ht2] at h2
          simp [style_at] at h2
        | cons c t3 =>
          rw [ht2] at h2
          have hcs : b.stop ≤ c.start := ht2s c (by rw [ht2]; simp)
          rcases Nat.eq_or_lt_of_le hcs with hceq | hclt
          · have hc := (hinv2.1 c (by rw [ht2]; simp)).1
            have h3 : style_at (c :: t3) b.stop = some c.attrs := by
              rw [hceq]
              exact style_at_cons_self c t3 hc
            rw [h3] at h2
            have hca : c.attrs = a.attrs := by
              have := Option.some.injEq c.attrs a.attrs
              exact this ▸ h2
            have hchain := hinv2.2
            rw [ht2, List.chain'_cons] at hchain
            refine hchain.1.2 ⟨hceq, ?_⟩
            rw [sameAttrs_iff, ← hattr, hca]
          · rw [style_at_none_of_lt (c :: t3) b.stop ?_] at h2
            · exact Option.noConfusion h2
            · intro s hs
              rcases List.mem_cons.mp hs with rfl | hs
              · exact hclt
              · have hchain := hinv2.2
                rw [ht2] at hchain
                have hp := chainDisj_pairwise (b :: c :: t3)
                  (fun u hu => by
                    rw [← ht2] at hu
                    exact (hinv2.1 u hu).1)
                  (hchain.imp (fun u v hh => hh.1))
                rw [List.pairwise_cons] at hp
                have hp2 := (List.pairwise_cons.mp hp.2).1 s hs
                have hcna := (hinv2.1 c (by rw [ht2]; simp)).1
                omega
    have hab : a = b := by
      cases a with
      | mk a1 a2 a3 a4 a5 a6 a7 a8 =>
        cases b with
        | mk b1 b2 b3 b4 b5 b6 b7 b8 =>
          simp only [TextStyle.attrs, Attrs.mk.injEq] at hattr
          simp only at hstart hstop
          obtain ⟨e3, e4, e5, e6, e7, e8⟩ := hattr
          rw [TextStyle.mk.injEq]
          exact ⟨hstart, hstop, e3, e4, e5, e6, e7, e8⟩
    subst hab
    have htinv1 : StyleInv t1 :=
      ⟨fun s hs => hinv1.1 s (List.mem_cons_of_mem a hs), hinv1.2.tail⟩
    have htinv2 : StyleInv t2 :=
      ⟨fun s hs => hinv2.1 s (List.mem_cons_of_mem a hs), hinv2.2.tail⟩
    have hteq : ∀ x, style_at t1 x = style_at t2 x := by
      intro x
      by_cases hx : x < a.stop
      · rw [style_at_none_of_lt t1 x, style_at_none_of_lt t2 x]
        · intro s hs
          have := ht2s s hs
          omega
        · intro s hs
          have := ht1s s hs
          omega
      · have h2 := h x
        rw [style_at_cons_skip a t1 x (by omega),
          style_at_cons_skip a t2 x (by omega)] at h2
        exact h2
    rw [style_at_ext t1 t2 htinv1 htinv2 hteq]

/-- C6: `apply_style` preserves the style-list invariant — for every styles
list that is sorted, non-overlapping, with non-empty ranges, no unformatted
run, and no two touching runs with identical attributes, the list after any
`apply_style` call satisfies all of these properties again. -/
theorem apply_style_preserves_inv (l : List TextStyle) (start stop : Nat)
    (m : Modifier) (hinv : StyleInv l) :
    StyleInv (apply_style l start stop m) := by
  by_cases hI : start < stop
  · exact (apply_style_container l start stop m hI hinv).1
  · rw [apply_style, if_pos (by omega)]
    exact hinv

/-- A one-run styles list and a bold modifier for the C5/C6 witnesses. -/
def c5Style : TextStyle := ⟨0, 1, true, false, false, false, none, none⟩

def c5Mod : Modifier := ⟨some true, none, none, none, none, none⟩

/-- Witness for C6 at a concrete styles list, range and modifier. -/
theorem apply_style_preserves_inv_witness :
    StyleInv [c5Style] ∧ StyleInv (apply_style [c5Style] 0 2 c5Mod) := by
  have h : StyleInv [c5Style] := by
    refine ⟨by decide, List.chain'_singleton _⟩
  exact ⟨h, apply_style_preserves_inv [c5Style] 0 2 c5Mod h⟩

/-- C5: `apply_style` is idempotent under repeated identical calls — for
every invariant-respecting styles list, range and field-override modifier,
applying the same call twice yields the same list as applying it once. -/
theorem apply_style_idem (l : List TextStyle) (start stop : Nat) (m : Modifier)
    (hinv : StyleInv l) :
    apply_style (apply_style l start stop m) start stop m =
      apply_style l start stop m := by
  by_cases hI : start < stop
  · have hinv1 : StyleInv (apply_style l start stop m) :=
      (apply_style_container l start stop m hI hinv).1
    have hinv2 : StyleInv (apply_style (apply_style l start stop m) start stop m) :=
      (apply_style_container _ start stop m hI hinv1).1
    refine style_at_ext _ _ hinv2 hinv1 ?_
    intro x
    rw [style_at_apply_style _ start stop m hI hinv1 x]
    by_cases hx : start ≤ x ∧ x < stop
    · rw [if_pos hx]
      rw [style_at_apply_style l start stop m hI hinv x, if_pos hx]
      by_cases hf : (m.applyA ((style_at l x).getD Attrs.default)).has_formatting = true
      · rw [if_pos hf]
        simp only [Option.getD_some]
        rw [applyA_idem]
        rw [if_pos hf]
      · rw [if_neg hf]
        simp only [Option.getD_none]
        rw [Bool.not_eq_true] at hf
        rw [applyA_of_unformatted m _ hf]
        rw [if_neg (by rw [hf]; simp)]
    · rw [if_neg hx]
  · rw [apply_style]
    rw [if_pos (by omega)]

/-- Witness for C5 at a concrete styles list, range and modifier. -/
theorem apply_style_idem_witness :
    StyleInv [c5Style] ∧
    apply_style (apply_style [c5Style] 0 2 c5Mod) 0 2 c5Mod =
      apply_style [c5Style] 0 2 c5Mod := by
  have h : StyleInv [c5Style] := by
    refine ⟨by decide, List.chain'_singleton _⟩
  exact ⟨h, apply_style_idem [c5Style] 0 2 c5Mod h⟩

end Editor
